import Mathlib

/-!
Shallow embedding of the Markdown engine vendored in src/dist/index.js
(marked v16.3.0, esbuild-minified).  The embedding models the engine on
Unicode strings represented as lists of characters.  JavaScript regular
expressions are hand-translated into character-level matching functions;
each matcher carries a comment citing the pattern it implements.  Unicode
character-category classes (P, S, and whitespace) are implemented exactly
on the ASCII range, which covers every input the theorems below evaluate.
Mutable lexer state (tokens.links, lexer.state, the inline queue) is
threaded explicitly; filling the queued inline spans after block scanning
is modelled as a second pass over the finished block-token tree, which
visits the same leaf texts in the same order as the queue drain in lex().
-/

set_option maxRecDepth 20000

namespace Marked

/-- Strings are modelled as lists of characters (JS code points). -/
abbrev Str := List Char

/-- ASCII instances of the JS regex class backslash-s (whitespace). -/
def isJsWs (c : Char) : Bool :=
  c = ' ' || c = '\t' || c = '\n' || c = '\x0d' || c = '\x0b' || c = '\x0c'

/-- Space or tab, the class [ \t] used throughout the block grammar. -/
def isSpTab (c : Char) : Bool := c = ' ' || c = '\t'

/-- ASCII decimal digit. -/
def isDigitCh (c : Char) : Bool := '0' ≤ c && c ≤ '9'

/-- ASCII letter. -/
def isAlphaCh (c : Char) : Bool :=
  ('a' ≤ c && c ≤ 'z') || ('A' ≤ c && c ≤ 'Z')

/-- ASCII alphanumeric. -/
def isAlnumCh (c : Char) : Bool := isAlphaCh c || isDigitCh c

/-- The JS regex class backslash-w (word character). -/
def isWordCh (c : Char) : Bool := isAlnumCh c || c = '_'

/-- The apostrophe and backtick characters, built numerically so the
source file stays free of quote-like literals. -/
def aposCh : Char := Char.ofNat 39

/-- Backtick character. -/
def btickCh : Char := Char.ofNat 96

/-- ASCII instances of the Unicode classes P (punctuation) and S (symbol):
on ASCII these are exactly the 32 non-alphanumeric printable characters. -/
def isPunctSymCh (c : Char) : Bool :=
  (('!' ≤ c && c ≤ '/') || (':' ≤ c && c ≤ '@') ||
   ('[' ≤ c && c ≤ btickCh) || ('{' ≤ c && c ≤ '~'))

/-- Number of leading characters satisfying p. -/
def countWhile (p : Char → Bool) : Str → Nat
  | [] => 0
  | c :: cs => if p c then countWhile p cs + 1 else 0

/-- JS String.prototype.trimEnd (trailing whitespace removed). -/
def jsTrimEnd (s : Str) : Str := (s.reverse.dropWhile isJsWs).reverse

/-- JS String.prototype.trimStart. -/
def jsTrimStart (s : Str) : Str := s.dropWhile isJsWs

/-- JS String.prototype.trim. -/
def jsTrim (s : Str) : Str := jsTrimEnd (jsTrimStart s)

/-- Helper z(l, e, false) in the source: remove the trailing run of the
character e (used with newline and the hash sign). -/
def rtrimChar (s : Str) (e : Char) : Str :=
  (s.reverse.dropWhile (fun c => c = e)).reverse

/-- First line of a string: everything before the first newline
(JS s.split with a newline separator, first element). -/
def firstLine (s : Str) : Str := s.takeWhile (fun c => c ≠ '\n')

/-- Split into lines at newline characters (JS String.split), with an
accumulator for the line being read. -/
def splitLinesAux : Str → Str → List Str
  | [], acc => [acc.reverse]
  | c :: rest, acc =>
      if c = '\n' then acc.reverse :: splitLinesAux rest []
      else splitLinesAux rest (c :: acc)

/-- Split into lines at newline characters (JS String.split). -/
def splitLines (s : Str) : List Str := splitLinesAux s []

/-- Join strings with newline separators (JS Array.join). -/
def joinNl : List Str → Str
  | [] => []
  | [l] => l
  | l :: ls => l ++ '\n' :: joinNl ls

/-- Whether prefix p starts the string s. -/
def startsWith : Str → Str → Bool
  | _, [] => true
  | [], _ :: _ => false
  | c :: cs, p :: ps => c = p && startsWith cs ps

/-- Whether the string contains the character c. -/
def containsCh (s : Str) (c : Char) : Bool := s.any (fun d => d = c)

/-- JS blankLine test: caret [ \t]* dollar. -/
def isBlankLine (s : Str) : Bool := s.all isSpTab

/-- JS s.search(nonSpaceChar): index of the first character that is not a
space, or -1 when there is none (encoded as none). -/
def searchNonSpace (s : Str) : Option Nat :=
  let n := countWhile (fun c => c = ' ') s
  if n = s.length then none else some n

/-- ASCII lower-casing, the effect of JS toLowerCase on the inputs in
scope. -/
def lowerStr (s : Str) : Str := s.map Char.toLower

/-- Replace every maximal run of whitespace by a single space: helper
carrying whether the previous character was whitespace. -/
def collapseWsAux : Bool → Str → Str
  | _, [] => []
  | prevWs, c :: r =>
      if isJsWs c then
        if prevWs then collapseWsAux true r else ' ' :: collapseWsAux true r
      else c :: collapseWsAux false r

/-- Replace every maximal run of whitespace by a single space
(the multipleSpaceGlobal replacement in the source). -/
def collapseWs (s : Str) : Str := collapseWsAux false s

/-- Global replacement of a backslash followed by a punctuation or symbol
character with that character (the anyPunctuation unescape). -/
def unescapePunct : Str → Str
  | [] => []
  | ['\\'] => ['\\']
  | '\\' :: c :: r =>
      if isPunctSymCh c then c :: unescapePunct r
      else '\\' :: unescapePunct (c :: r)
  | c :: r => c :: unescapePunct r

/-! ## Data model: tokens, configuration, links table, lexer state -/

/-- Link reference record stored in tokens.links. -/
structure LinkRef where
  href : Str
  title : Option Str
deriving Repr, DecidableEq

/-- The per-parse link reference table (tokens.links), an insertion-ordered
association list over normalized labels. -/
abbrev Links := List (Str × LinkRef)

/-- Lookup in the links table. -/
def lookupLink (L : Links) (tag : Str) : Option LinkRef :=
  match L.find? (fun p => p.fst = tag) with
  | some p => some p.snd
  | none => none

/-- The def branch of Lexer.blockTokens: a label already present is left
untouched, otherwise the pair is inserted. -/
def insertLink (L : Links) (tag : Str) (ref : LinkRef) : Links :=
  match lookupLink L tag with
  | some _ => L
  | none => L ++ [(tag, ref)]

/-- Lexer.state: top-level flag plus the inline scanning flags. -/
structure LexState where
  top : Bool := true
  inLink : Bool := false
  inRawBlock : Bool := false
deriving Repr, DecidableEq

/-- The token tree.  Fields mirror the objects the tokenizers build;
block-level text tokens carry a child list while inline text tokens carry
the escaped flag, matching the presence of the corresponding JS fields. -/
inductive Tok : Type where
  | space (raw : Str)
  | codeB (raw : Str) (lang : Str) (text : Str) (escapedF : Bool)
  | heading (raw : Str) (depth : Nat) (text : Str) (tokens : List Tok)
  | hrT (raw : Str)
  | blockquote (raw : Str) (text : Str) (tokens : List Tok)
  | list (raw : Str) (ordered : Bool) (startN : Option Nat) (loose : Bool)
      (items : List Tok)
  | listItem (raw : Str) (task : Bool) (checked : Bool) (loose : Bool)
      (text : Str) (tokens : List Tok)
  | htmlB (raw : Str) (pre : Bool) (text : Str)
  | htmlI (raw : Str) (inLink : Bool) (inRawBlock : Bool) (text : Str)
  | linkDef (raw : Str) (tag : Str) (href : Str) (title : Option Str)
  | table (raw : Str) (header : List (Str × List Tok))
      (aligns : List (Option Str)) (rows : List (List (Str × List Tok)))
  | paragraph (raw : Str) (text : Str) (tokens : List Tok)
  | textB (raw : Str) (text : Str) (tokens : List Tok)
  | textI (raw : Str) (text : Str) (escapedF : Bool)
  | escapeT (raw : Str) (text : Str)
  | linkT (raw : Str) (href : Str) (title : Option Str) (text : Str)
      (tokens : List Tok)
  | imageT (raw : Str) (href : Str) (title : Option Str) (text : Str)
      (tokens : List Tok)
  | strong (raw : Str) (text : Str) (tokens : List Tok)
  | em (raw : Str) (text : Str) (tokens : List Tok)
  | codespan (raw : Str) (text : Str)
  | brT (raw : Str)
  | delT (raw : Str) (text : Str) (tokens : List Tok)
deriving Repr

/-- The raw source span a token owns. -/
def Tok.raw : Tok → Str
  | .space r | .codeB r .. | .heading r .. | .hrT r | .blockquote r ..
  | .list r .. | .listItem r .. | .htmlB r .. | .htmlI r .. | .linkDef r ..
  | .table r .. | .paragraph r .. | .textB r .. | .textI r .. | .escapeT r ..
  | .linkT r .. | .imageT r .. | .strong r .. | .em r .. | .codespan r ..
  | .brT r | .delT r .. => r

/-- Replace the raw span of a token (models in-place raw updates). -/
def Tok.withRaw (t : Tok) (r : Str) : Tok :=
  match t with
  | .space _ => .space r
  | .codeB _ l x e => .codeB r l x e
  | .heading _ d x ts => .heading r d x ts
  | .hrT _ => .hrT r
  | .blockquote _ x ts => .blockquote r x ts
  | .list _ o st lo it => .list r o st lo it
  | .listItem _ ta ch lo x ts => .listItem r ta ch lo x ts
  | .htmlB _ p x => .htmlB r p x
  | .htmlI _ il irb x => .htmlI r il irb x
  | .linkDef _ tg h ti => .linkDef r tg h ti
  | .table _ h a rs => .table r h a rs
  | .paragraph _ x ts => .paragraph r x ts
  | .textB _ x ts => .textB r x ts
  | .textI _ x e => .textI r x e
  | .escapeT _ x => .escapeT r x
  | .linkT _ h ti x ts => .linkT r h ti x ts
  | .imageT _ h ti x ts => .imageT r h ti x ts
  | .strong _ x ts => .strong r x ts
  | .em _ x ts => .em r x ts
  | .codespan _ x => .codespan r x
  | .brT _ => .brT r
  | .delT _ x ts => .delT r x ts

/-- Concatenation of the raw spans of a token sequence. -/
def concatRaws (ts : List Tok) : Str := (ts.map Tok.raw).flatten

/-- The recognized options of the engine, with the defaults produced by
the getDefaults function L(). -/
structure MOptions where
  async : Bool := false
  breaks : Bool := false
  gfm : Bool := true
  pedantic : Bool := false
  silent : Bool := false
deriving Repr, DecidableEq

/-- Tokenizer method overrides (options.tokenizer): a present entry
replaces the built-in rule, as an override chain ending in a custom
function that does not fall back does. -/
structure TokOv where
  spaceO : Option (Str → Option Tok) := none
  codeO : Option (Str → Option Tok) := none
  fencesO : Option (Str → Option Tok) := none
  headingO : Option (Str → Option Tok) := none
  hrO : Option (Str → Option Tok) := none
  blockquoteO : Option (Str → Option Tok) := none
  listO : Option (Str → Option Tok) := none
  htmlO : Option (Str → Option Tok) := none
  defO : Option (Str → Option Tok) := none
  tableO : Option (Str → Option Tok) := none
  lheadingO : Option (Str → Option Tok) := none
  paragraphO : Option (Str → Option Tok) := none
  textO : Option (Str → Option Tok) := none
  escapeO : Option (Str → Option Tok) := none
  tagO : Option (Str → Option Tok) := none
  linkO : Option (Str → Option Tok) := none
  reflinkO : Option (Str → Option Tok) := none
  emStrongO : Option (Str → Option Tok) := none
  codespanO : Option (Str → Option Tok) := none
  brO : Option (Str → Option Tok) := none
  delO : Option (Str → Option Tok) := none
  autolinkO : Option (Str → Option Tok) := none
  urlO : Option (Str → Option Tok) := none
  inlineTextO : Option (Str → Option Tok) := none

/-- Engine configuration: options, tokenizer overrides and extension
rules (options.extensions.block / options.extensions.inline). -/
structure EngineCfg where
  opts : MOptions := {}
  ov : TokOv := {}
  extBlock : List (Str → Option Tok) := []
  extInline : List (Str → Option Tok) := []

/-! ## Block-level rule matchers (the gfm rule tables, the dialect that
the default configuration selects).  Each matcher implements the
corresponding regular expression of the source on the character level;
matchers return the length of the match so the raw span is the literal
consumed prefix. -/

/-- One pass of blank-line repetitions: space-tab run followed by a
newline or the end of input, repeated (the block.newline pattern body,
also the trailing blank-line star of block.code). -/
def newlineRun : Nat → Str → Nat
  | 0, _ => 0
  | fuel + 1, s =>
      let sp := countWhile isSpTab s
      match s.drop sp with
      | [] => sp
      | c :: r => if c = '\n' then sp + 1 + newlineRun fuel r else 0

/-- Tokenizer.space via block.newline: at least one blank-line
repetition. -/
def spaceExec (s : Str) : Option Tok :=
  let n := newlineRun (s.length + 1) s
  if n > 0 then some (.space (s.take n)) else none

/-- The indent that opens an indented code line: four spaces, or up to
three spaces followed by a tab. -/
def codeIndentLen (s : Str) : Option Nat :=
  if startsWith s [' ', ' ', ' ', ' '] then some 4
  else
    let sp := countWhile (fun c => c = ' ') s
    if sp ≤ 3 then
      match s.drop sp with
      | c :: _ => if c = '\t' then some (sp + 1) else none
      | [] => none
    else none

/-- One repetition of the block.code body: indent, a non-empty rest of
line, optionally the newline plus trailing blank lines. -/
def codeRep (s : Str) : Option Nat :=
  match codeIndentLen s with
  | none => none
  | some ind =>
      let content := (s.drop ind).takeWhile (fun c => c ≠ '\n')
      if content.length = 0 then none
      else
        let base := ind + content.length
        match s.drop base with
        | [] => some base
        | c :: r =>
            if c = '\n' then some (base + 1 + newlineRun (r.length + 1) r)
            else some base

/-- Greedy repetition of code body repetitions. -/
def codeReps : Nat → Str → Nat
  | 0, _ => 0
  | fuel + 1, s =>
      match codeRep s with
      | none => 0
      | some n => if n = 0 then 0 else n + codeReps fuel (s.drop n)

/-- Per-line effect of the codeRemoveIndent replacement: strip one to
four leading spaces, or up to three spaces and a tab. -/
def stripCodeIndentLine (l : Str) : Str :=
  let sp := countWhile (fun c => c = ' ') l
  if sp ≥ 1 then l.drop (min sp 4)
  else
    match l with
    | '\t' :: r => r
    | _ => l

/-- Tokenizer.code: match the indented block, then derive the text by
stripping the indent per line and, outside pedantic mode, trimming the
trailing newlines. -/
def codeExec (opts : MOptions) (s : Str) : Option Tok :=
  let n := codeReps (s.length + 1) s
  if n = 0 then none
  else
    let raw := s.take n
    let txt := joinNl ((splitLines raw).map stripCodeIndentLine)
    some (.codeB raw [] (if opts.pedantic then txt else rtrimChar txt '\n') false)

/-- Decompose a fence opening: up to three spaces, then a backtick run of
length at least three whose rest of line holds no backtick, or a tilde
run of length at least three. -/
def fenceOpen (s : Str) : Option (Nat × Char × Nat × Str) :=
  let ind := countWhile (fun c => c = ' ') s
  if ind > 3 then none
  else
    let s1 := s.drop ind
    match s1 with
    | [] => none
    | c :: _ =>
        if c = btickCh then
          let run := countWhile (fun d => d = btickCh) s1
          if run < 3 then none
          else
            let info := (s1.drop run).takeWhile (fun d => d ≠ '\n')
            if containsCh info btickCh then none
            else some (ind, c, run, info)
        else if c = '~' then
          let run := countWhile (fun d => d = '~') s1
          if run < 3 then none
          else some (ind, c, run, (s1.drop run).takeWhile (fun d => d ≠ '\n'))
        else none

/-- Whether a line closes a fence opened by a run of the given character
and length: up to three spaces, the opening run, further fence characters
of either kind, then only spaces. -/
def fenceCloseLine (ch : Char) (run : Nat) (l : Str) : Bool :=
  let ind := countWhile (fun c => c = ' ') l
  if ind > 3 then false
  else
    let l1 := l.drop ind
    let cr := countWhile (fun d => d = ch) l1
    if cr < run then false
    else
      let l2 := (l1.drop cr).dropWhile (fun d => d = btickCh || d = '~')
      l2.all (fun d => d = ' ')

/-- Search the body lines for the first closing fence, returning the
lengths of the body and of the raw span.  The raw span stops at the end
of the closing line (the closing lookahead does not consume the
newline); with no closing line the whole remainder is taken. -/
def fenceScan (ch : Char) (run : Nat) :
    Nat → Str → Nat → Option (Nat × Nat)
  | 0, _, _ => none
  | fuel + 1, s, acc =>
      let l := firstLine s
      if fenceCloseLine ch run l then some (acc, acc + l.length)
      else
        match s.drop l.length with
        | [] => none
        | _ :: r => fenceScan ch run fuel r (acc + l.length + 1)

/-- The indentCodeCompensation helper: when the raw opening line indents
a backtick fence, strip that much leading whitespace from each body
line. -/
def indentCompensation (raw : Str) (body : Str) : Str :=
  let ws := raw.takeWhile isJsWs
  if ws.length = 0 then body
  else if startsWith (raw.drop ws.length) [btickCh, btickCh, btickCh] then
    joinNl ((splitLines body).map (fun l =>
      let lws := l.takeWhile isJsWs
      if lws.length = 0 then l
      else if lws.length ≥ ws.length then l.drop ws.length else l))
  else body

/-- Tokenizer.fences: opening line, lazily scanned body, closing line or
end of input. -/
def fencesExec (s : Str) : Option Tok :=
  match fenceOpen s with
  | none => none
  | some (ind, ch, run, info) =>
      let firstLen := ind + run + info.length
      let lang := unescapePunct (jsTrim info)
      match s.drop firstLen with
      | [] =>
          some (.codeB s lang (indentCompensation (s.take firstLen) []) false)
      | _ :: rest =>
          match fenceScan ch run (rest.length + 1) rest 0 with
          | some (bodyLen, rawTail) =>
              let raw := s.take (firstLen + 1 + rawTail)
              let body :=
                let b := rest.take bodyLen
                if b = [] then [] else b.dropLast
              some (.codeB raw lang (indentCompensation raw body) false)
          | none =>
              let body :=
                if rest ≠ [] && rest.getLast? = some '\n' then rest.dropLast
                else rest
              some (.codeB s lang (indentCompensation s body) false)

/-- Tokenizer.heading via block.heading: a run of one to six hash signs
followed by whitespace or the end, the rest of the line, then the
newlines. -/
def headingExec (opts : MOptions) (s : Str) : Option Tok :=
  let ind := countWhile (fun c => c = ' ') s
  if ind > 3 then none
  else
    let s1 := s.drop ind
    let run := countWhile (fun c => c = '#') s1
    if run = 0 || run > 6 then none
    else
      match s1.drop run with
      | [] =>
          let raw := s
          some (.heading raw run (headingText opts []) [])
      | c :: _ =>
          if isJsWs c then
            let t2 := (s1.drop run).takeWhile (fun d => d ≠ '\n')
            let nl := countWhile (fun d => d = '\n') (s1.drop (run + t2.length))
            let raw := s.take (ind + run + t2.length + nl)
            some (.heading raw run (headingText opts t2) [])
          else none
where
  /-- Text cleanup: trim, then drop a closing hash run when pedantic, the
  remainder is empty, or the remainder ends in a space. -/
  headingText (opts : MOptions) (t2 : Str) : Str :=
    let n := jsTrim t2
    if n ≠ [] && n.getLast? = some '#' then
      let r := rtrimChar n '#'
      if opts.pedantic || r = [] || r.getLast? = some ' ' then jsTrim r else n
    else n

/-- One unit run for block.hr: the marker character followed by spaces or
tabs, repeated; returns the repetition count and consumed length. -/
def hrUnits (ch : Char) : Nat → Str → Nat × Nat
  | 0, _ => (0, 0)
  | fuel + 1, s =>
      match s with
      | c :: r =>
          if c = ch then
            let sp := countWhile isSpTab r
            let (n, len) := hrUnits ch fuel (r.drop sp)
            (n + 1, len + 1 + sp)
          else (0, 0)
      | [] => (0, 0)

/-- Match length for block.hr: up to three spaces, at least three marker
units, then newlines or the end. -/
def hrLen (s : Str) : Option Nat :=
  let ind := countWhile (fun c => c = ' ') s
  if ind > 3 then none
  else
    let s1 := s.drop ind
    let tryCh := fun (ch : Char) =>
      let (n, len) := hrUnits ch (s1.length + 1) s1
      if n ≥ 3 then
        match s1.drop len with
        | [] => some (ind + len)
        | c :: r =>
            if c = '\n' then
              some (ind + len + 1 + countWhile (fun d => d = '\n') r)
            else none
      else none
    match tryCh '-' with
    | some n => some n
    | none =>
        match tryCh '_' with
        | some n => some n
        | none => tryCh '*'

/-- Tokenizer.hr: the matched span with its trailing newlines removed. -/
def hrExec (s : Str) : Option Tok :=
  match hrLen s with
  | some n => some (.hrT (rtrimChar (s.take n) '\n'))
  | none => none

/-- Label body of a link reference definition: repetitions of an escaped
character or a character other than brackets and backslash. -/
def defLabelLen : Nat → Str → Nat
  | 0, _ => 0
  | fuel + 1, s =>
      match s with
      | '\\' :: _ :: r => 2 + defLabelLen fuel r
      | c :: r =>
          if c = '[' || c = ']' || c = '\\' then 0 else 1 + defLabelLen fuel r
      | [] => 0

/-- The href group of block.def: an angle-bracketed single-line span, or
a non-space run not starting with an opening angle bracket. -/
def defHref (s : Str) : Option (Nat × Str) :=
  match s with
  | '<' :: r =>
      let inner := r.takeWhile (fun c => c ≠ '>' && c ≠ '\n')
      match r.drop inner.length with
      | '>' :: _ => some (inner.length + 2, s.take (inner.length + 2))
      | _ => none
  | c :: r =>
      if c = '<' || isJsWs c then none
      else
        let run := 1 + countWhile (fun d => !isJsWs d) r
        some (run, s.take run)
  | [] => none

/-- Quoted title body scan for a closing character q: repetitions of a
backslash with an optional q, or a character other than q and backslash,
closed by q; returns the consumed length including the closer. -/
def qtScan (q : Char) : Nat → Str → Option Nat
  | 0, _ => none
  | fuel + 1, s =>
      match s with
      | [] => none
      | c :: r =>
          if c = q then some 1
          else if c = '\\' then
            match r with
            | [] => none
            | d :: r2 =>
                if d = q then
                  match qtScan q fuel r2 with
                  | some n => some (n + 2)
                  | none => some 2
                else (qtScan q fuel r).map (fun n => n + 1)
          else (qtScan q fuel r).map (fun n => n + 1)

/-- Single-quoted title scan: lines of characters other than the quote,
an optional final newline, then the closing quote. -/
def sqScan (q : Char) : Nat → Str → Option Nat
  | 0, _ => none
  | fuel + 1, s =>
      let run := countWhile (fun c => c ≠ q && c ≠ '\n') s
      match s.drop run with
      | [] => none
      | c :: r =>
          if c = q then some (run + 1)
          else
            match r with
            | [] => none
            | d :: _ =>
                if d = q then some (run + 2)
                else if d = '\n' then none
                else (sqScan q fuel r).map (fun n => run + 1 + n)

/-- The title group of block.def: double-quoted, single-quoted or
parenthesized; returns consumed length and the group text with its
delimiters. -/
def defTitle (s : Str) : Option (Nat × Str) :=
  match s with
  | '"' :: r =>
      match qtScan '"' (r.length + 1) r with
      | some n => some (n + 1, s.take (n + 1))
      | none => none
  | '(' :: r =>
      let inner := r.takeWhile (fun c => c ≠ '(' && c ≠ ')')
      match r.drop inner.length with
      | ')' :: _ => some (inner.length + 2, s.take (inner.length + 2))
      | _ => none
  | c :: r =>
      if c = aposCh then
        match sqScan aposCh (r.length + 1) r with
        | some n => some (n + 1, s.take (n + 1))
        | none => none
      else none
  | [] => none

/-- Tail of block.def after the href: optional separated title, trailing
spaces, then newlines or the end; returns the consumed length and the
title group when present. -/
def defTail (s : Str) : Option (Nat × Option Str) :=
  let close := fun (t : Str) =>
    let sp := countWhile (fun c => c = ' ') t
    match t.drop sp with
    | [] => some sp
    | c :: r =>
        if c = '\n' then some (sp + 1 + countWhile (fun d => d = '\n') r)
        else none
  let sep := fun (t : Str) =>
    let sp := countWhile (fun c => c = ' ') t
    if sp ≥ 1 then
      match t.drop sp with
      | '\n' :: r =>
          let sp2 := countWhile isSpTab r
          some (sp + 1 + sp2)
      | _ => some sp
    else
      match t.drop sp with
      | '\n' :: r => some (sp + 1 + countWhile isSpTab r)
      | _ => none
  let withTitle :=
    match sep s with
    | none => none
    | some sl =>
        match defTitle (s.drop sl) with
        | none => none
        | some (tl, tg) =>
            match close (s.drop (sl + tl)) with
            | none => none
            | some cl => some (sl + tl + cl, some tg)
  match withTitle with
  | some res => some res
  | none =>
      match close s with
      | some cl => some (cl, (none : Option Str))
      | none => none

/-- Tokenizer.def via block.def: label, colon, optional line break, href,
optional title, line end.  The tag is the lower-cased label with
whitespace runs collapsed; the href and title are unescaped. -/
def defExec (s : Str) : Option Tok :=
  let ind := countWhile (fun c => c = ' ') s
  if ind > 3 then none
  else
    match s.drop ind with
    | '[' :: r =>
        let w := countWhile isJsWs r
        if (r.drop w).head? = some ']' then none
        else
          let ll := defLabelLen (r.length + 1) r
          if ll = 0 then none
          else
            match r.drop ll with
            | ']' :: ':' :: r2 =>
                let label := r.take ll
                let sp := countWhile (fun c => c = ' ') r2
                let afterSp := r2.drop sp
                let nlOpt :=
                  match afterSp with
                  | '\n' :: r3 => 1 + countWhile isSpTab r3
                  | _ => 0
                let hrefStart := r2.drop (sp + nlOpt)
                match defHref hrefStart with
                | none => none
                | some (hl, t2) =>
                    match defTail (hrefStart.drop hl) with
                    | none => none
                    | some (tl, t3) =>
                        let total := ind + 1 + ll + 2 + sp + nlOpt + hl + tl
                        let href :=
                          match t2 with
                          | '<' :: rest =>
                              if rest.getLast? = some '>' then
                                unescapePunct rest.dropLast
                              else unescapePunct t2
                          | _ => unescapePunct t2
                        let title := t3.map (fun tg =>
                          unescapePunct (tg.drop 1).dropLast)
                        some (.linkDef (s.take total)
                          (collapseWs (lowerStr label)) href title)
            | _ => none
    | _ => none

/-! ### Small parameterized patterns used by the list tokenizer and as
paragraph and table interrupts. -/

/-- A list bullet at up to the given indent: star, plus, dash, or one to
nine digits followed by a dot or closing parenthesis; returns the bullet
length counted from after the spaces. -/
def bulletLen (s : Str) : Option Nat :=
  match s with
  | c :: _ =>
      if c = '*' || c = '+' || c = '-' then some 1
      else
        let dg := countWhile isDigitCh s
        if 1 ≤ dg && dg ≤ 9 then
          match s.drop dg with
          | d :: _ => if d = '.' || d = ')' then some (dg + 1) else none
          | [] => none
        else none
  | [] => none

/-- The block.list gate pattern: up to three spaces, a bullet, an
optional space-or-tab plus non-empty rest of line, then a newline or the
end.  Returns the trimmed bullet text. -/
def listGate (s : Str) : Option Str :=
  let ind := countWhile (fun c => c = ' ') s
  if ind > 3 then none
  else
    let s1 := s.drop ind
    match bulletLen s1 with
    | none => none
    | some bl =>
        let t1 := s1.take bl
        let after := s1.drop bl
        match after with
        | [] => some t1
        | c :: r =>
            if c = '\n' then some t1
            else if isSpTab c then
              let rest := r.takeWhile (fun d => d ≠ '\n')
              if rest.length = 0 then none
              else
                match r.drop rest.length with
                | [] => some t1
                | d :: _ => if d = '\n' then some t1 else none
            else none

/-- The per-list item pattern from listItemRegex: up to three spaces and
the specific bullet of this list, then group two covering the optional
space-or-tab led rest of line and the newline when present.  For ordered
lists any one to nine digits followed by the recorded delimiter match.
Returns the group-one length and the full match length. -/
def itemExecM (ordered : Bool) (marker : Char) (pedAny : Bool) (s : Str) :
    Option (Nat × Nat) :=
  let ind := countWhile (fun c => c = ' ') s
  if ind > 3 then none
  else
    let s1 := s.drop ind
    let bl :=
      if ordered then
        let dg := countWhile isDigitCh s1
        if 1 ≤ dg && dg ≤ 9 && (s1.drop dg).head? = some marker then
          some (dg + 1)
        else none
      else if pedAny then
        match s1.head? with
        | some c => if c = '*' || c = '+' || c = '-' then some 1 else none
        | none => none
      else if s1.head? = some marker then some 1 else none
    match bl with
    | none => none
    | some bl =>
        let t1 := ind + bl
        let after := s.drop t1
        match after with
        | [] => some (t1, t1)
        | c :: r =>
            if isSpTab c then
              let rest := r.takeWhile (fun d => d ≠ '\n')
              match r.drop rest.length with
              | '\n' :: _ => some (t1, t1 + 1 + rest.length + 1)
              | _ => some (t1, t1 + 1 + rest.length)
            else if c = '\n' then some (t1, t1 + 1)
            else none

/-- Indent-bounded helper: up to min three and one less than the indent
many spaces (the dynamic patterns built by nextBulletRegex and
companions). -/
def laIndent (g : Nat) (s : Str) : Option Str :=
  let lim := min 3 (g - 1)
  let sp := countWhile (fun c => c = ' ') s
  if sp ≤ lim then some (s.drop sp) else none

/-- nextBulletRegex at the given indent. -/
def nextBulletTest (g : Nat) (s : Str) : Bool :=
  match laIndent g s with
  | some s1 =>
      match bulletLen s1 with
      | none => false
      | some bl =>
          match s1.drop bl with
          | [] => true
          | c :: r =>
              if c = '\n' then true
              else if isSpTab c then
                let rest := r.takeWhile (fun d => d ≠ '\n')
                match r.drop rest.length with
                | [] => true
                | d :: _ => d = '\n'
              else false
  | none => false

/-- hrRegex at the given indent: marker units separated by plain spaces,
three or more, then newlines or the end. -/
def hrUnitsSp (ch : Char) : Nat → Str → Nat × Nat
  | 0, _ => (0, 0)
  | fuel + 1, s =>
      match s with
      | c :: r =>
          if c = ch then
            let sp := countWhile (fun d => d = ' ') r
            let (n, len) := hrUnitsSp ch fuel (r.drop sp)
            (n + 1, len + 1 + sp)
          else (0, 0)
      | [] => (0, 0)

/-- hrRegex test at the given indent. -/
def hrIndentTest (g : Nat) (s : Str) : Bool :=
  match laIndent g s with
  | some s1 =>
      let tryCh := fun (ch : Char) =>
        let (n, len) := hrUnitsSp ch (s1.length + 1) s1
        n ≥ 3 &&
          (match s1.drop len with
           | [] => true
           | c :: _ => c = '\n')
      tryCh '-' || tryCh '_' || tryCh '*'
  | none => false

/-- fencesBeginRegex test at the given indent: three backticks or three
tildes. -/
def fencesBeginTest (g : Nat) (s : Str) : Bool :=
  match laIndent g s with
  | some s1 =>
      startsWith s1 [btickCh, btickCh, btickCh] || startsWith s1 ['~', '~', '~']
  | none => false

/-- headingBeginRegex test at the given indent. -/
def headingBeginTest (g : Nat) (s : Str) : Bool :=
  match laIndent g s with
  | some s1 => s1.head? = some '#'
  | none => false

/-- htmlBeginRegex test at the given indent: an angle bracket followed by
a letter with a closing angle bracket later on the line, or a comment
opening. -/
def htmlBeginTest (g : Nat) (s : Str) : Bool :=
  match laIndent g s with
  | some s1 =>
      match s1 with
      | '<' :: r =>
          (match r with
           | c :: r2 =>
               (isAlphaCh c &&
                 containsCh (r2.takeWhile (fun d => d ≠ '\n')) '>') ||
               startsWith r ['!', '-', '-']
           | [] => false)
      | _ => false
  | none => false

/-- doubleBlankLine test: the string ends in a newline, optional spaces,
a newline and optional spaces. -/
def doubleBlankEnd (s : Str) : Bool :=
  let r := s.reverse.dropWhile isSpTab
  match r with
  | '\n' :: r1 =>
      let r2 := r1.dropWhile isSpTab
      r2.head? = some '\n'
  | _ => false

/-- listIsTask: an opening bracket, space or x, closing bracket, space. -/
def listIsTask (s : Str) : Option Bool :=
  match s with
  | '[' :: c :: ']' :: ' ' :: _ =>
      if c = ' ' then some false
      else if c = 'x' || c = 'X' then some true
      else none
  | _ => none

/-- listReplaceTask: strip the task marker and the following spaces. -/
def stripTask (s : Str) : Str :=
  match s with
  | '[' :: _ :: ']' :: ' ' :: r => r.dropWhile (fun c => c = ' ')
  | _ => s

/-- anyLine test on a span: at least two newlines occur. -/
def anyLineTest (s : Str) : Bool :=
  2 ≤ (s.filter (fun c => c = '\n')).length

/-- listReplaceTabs on the first content line: leading tabs become three
spaces each. -/
def expandLeadTabs (s : Str) : Str :=
  let tabs := countWhile (fun c => c = '\t') s
  (List.replicate (3 * tabs) ' ') ++ s.drop tabs

/-- tabCharGlobal replacement: every tab becomes four spaces. -/
def tabsToSpaces (s : Str) : Str :=
  s.flatMap (fun c => if c = '\t' then [' ', ' ', ' ', ' '] else [c])

/-! ### Block-level raw HTML (block.html, case-insensitive). -/

/-- Case-insensitive character comparison. -/
def eqCI (c d : Char) : Bool := c.toLower = d.toLower

/-- Case-insensitive literal prefix test. -/
def startsWithCI : Str → Str → Bool
  | _, [] => true
  | [], _ :: _ => false
  | c :: cs, p :: ps => eqCI c p && startsWithCI cs ps

/-- First position at which the needle occurs case-insensitively, if
any. -/
def findCI (needle : Str) : Nat → Str → Option Nat
  | 0, _ => none
  | fuel + 1, s =>
      if startsWithCI s needle then some 0
      else
        match s with
        | [] => none
        | _ :: r => (findCI needle fuel r).map (fun n => n + 1)

/-- The block grammar tag-name list v, with the h1 to h6 pattern
expanded in place. -/
def vTags : List Str :=
  (["address", "article", "aside", "base", "basefont", "blockquote",
    "body", "caption", "center", "col", "colgroup", "dd", "details",
    "dialog", "dir", "div", "dl", "dt", "fieldset", "figcaption",
    "figure", "footer", "form", "frame", "frameset", "h1", "h2", "h3",
    "h4", "h5", "h6", "head", "header", "hr", "html", "iframe", "legend",
    "li", "link", "main", "menu", "menuitem", "meta", "nav", "noframes",
    "ol", "optgroup", "option", "p", "param", "search", "section",
    "summary", "table", "tbody", "td", "tfoot", "th", "thead", "title",
    "tr", "track", "ul"]).map String.data

/-- The raw-text container names script, pre, style, textarea. -/
def rawTags : List Str :=
  (["script", "pre", "style", "textarea"]).map String.data

/-- Match one name of the list in alternation order, case-insensitively,
subject to a continuation check on the rest. -/
def matchNameAlt (names : List Str) (k : Str → Bool) (s : Str) :
    Option Nat :=
  match names with
  | [] => none
  | n :: rest =>
      if startsWithCI s n && k (s.drop n.length) then some n.length
      else matchNameAlt rest k s

/-- The continuation group after a block tag name: one or more spaces, a
newline, or an optionally self-closing angle bracket. -/
def tagFollowLen (s : Str) : Option Nat :=
  match s with
  | ' ' :: r => some (1 + countWhile (fun c => c = ' ') r)
  | '\n' :: _ => some 1
  | '/' :: '>' :: _ => some 2
  | '>' :: _ => some 1
  | _ => none

/-- Terminating blank boundary of loose block HTML: a newline, then one
or more further newlines each preceded by only spaces and tabs; returns
the consumed length up to and including the last newline of the run. -/
def blankEndAt : Nat → Str → Option Nat
  | 0, _ => none
  | fuel + 1, s =>
      match s with
      | '\n' :: r =>
          let sp := countWhile isSpTab r
          match r.drop sp with
          | '\n' :: _ =>
              match blankEndAt fuel (r.drop sp) with
              | some n => some (1 + sp + n)
              | none => none
          | _ => some 1
      | _ => none

/-- Search for the first blank boundary; none when the text runs out
first. -/
def findBlankEnd : Nat → Str → Option Nat
  | 0, _ => none
  | fuel + 1, s =>
      match s with
      | [] => none
      | '\n' :: r =>
          let sp := countWhile isSpTab r
          if (r.drop sp).head? = some '\n' then
            blankEndAt (s.length + 1) s
          else (findBlankEnd fuel r).map (fun n => n + 1)
      | _ :: r => (findBlankEnd fuel r).map (fun n => n + 1)

/-- One attribute of an opening tag: spaces, a name, optionally an
equals sign with a quoted or bare value. -/
def attrLen (s : Str) : Option Nat :=
  let sp := countWhile (fun c => c = ' ') s
  if sp = 0 then none
  else
    match s.drop sp with
    | c :: r =>
        if isAlphaCh c || c = ':' || c = '_' then
          let nm := countWhile
            (fun d => isWordCh d || d = '.' || d = ':' || d = '-') r
          let base := sp + 1 + nm
          let t := s.drop base
          let sp1 := countWhile (fun d => d = ' ') t
          match t.drop sp1 with
          | '=' :: t2 =>
              let sp2 := countWhile (fun d => d = ' ') t2
              let v := t2.drop sp2
              match v with
              | '"' :: w =>
                  let inner := w.takeWhile (fun d => d ≠ '"' && d ≠ '\n')
                  if (w.drop inner.length).head? = some '"' then
                    some (base + sp1 + 1 + sp2 + inner.length + 2)
                  else some base
              | c2 :: w =>
                  if c2 = aposCh then
                    let inner := w.takeWhile (fun d => d ≠ aposCh && d ≠ '\n')
                    if (w.drop inner.length).head? = some aposCh then
                      some (base + sp1 + 1 + sp2 + inner.length + 2)
                    else some base
                  else
                    let bare := v.takeWhile (fun d =>
                      !isJsWs d && d ≠ '"' && d ≠ aposCh && d ≠ '=' &&
                      d ≠ '<' && d ≠ '>' && d ≠ btickCh)
                    if bare.length = 0 then some base
                    else some (base + sp1 + 1 + sp2 + bare.length)
              | [] => some base
          | _ => some base
        else none
    | [] => none

/-- Head of a loose opening tag: lazy attribute repetitions, then spaces
and an optionally self-closing bracket whose rest of line is blank. -/
def openTagHead : Nat → Str → Option Nat
  | 0, _ => none
  | fuel + 1, s =>
      let sp := countWhile (fun c => c = ' ') s
      let tryClose :=
        match s.drop sp with
        | '/' :: '>' :: r =>
            let sp2 := countWhile isSpTab r
            match r.drop sp2 with
            | [] => some (sp + 2)
            | c :: _ => if c = '\n' then some (sp + 2) else none
        | '>' :: r =>
            let sp2 := countWhile isSpTab r
            match r.drop sp2 with
            | [] => some (sp + 1)
            | c :: _ => if c = '\n' then some (sp + 1) else none
        | _ => none
      match tryClose with
      | some n => some n
      | none =>
          match attrLen s with
          | none => none
          | some al =>
              if al = 0 then none
              else (openTagHead fuel (s.drop al)).map (fun n => al + n)

/-- Tokenizer.html via block.html: the eight alternatives of the pattern
in order.  Every alternative consumes the remainder of the input when its
terminator is absent (the dollar fallbacks of the pattern). -/
def htmlExec (s : Str) : Option Tok :=
  let ind := countWhile (fun c => c = ' ') s
  if ind > 3 then none
  else
    let s1 := s.drop ind
    match htmlCore s1 with
    | some (len, pre) =>
        let raw := s.take (ind + len)
        some (.htmlB raw pre raw)
    | none => none
where
  /-- Greedy newline run. -/
  nlRun (t : Str) : Nat := countWhile (fun c => c = '\n') t
  /-- Alternative one: raw-text containers. -/
  alt1 (s1 : Str) : Option (Nat × Bool) :=
    match s1 with
    | '<' :: r =>
        match matchNameAlt rawTags
            (fun t => t.head?.elim false (fun c => isJsWs c || c = '>')) r with
        | none => none
        | some nl =>
            let name := r.take nl
            let body := r.drop (nl + 1)
            let closer := '<' :: '/' :: name ++ ['>']
            let pre :=
              startsWithCI name ("pre").data ||
              startsWithCI name ("script").data ||
              startsWithCI name ("style").data
            match closeScan closer (body.length + 1) body 0 with
            | some n => some (1 + nl + 1 + n, pre)
            | none => some (s1.length, pre)
    | _ => none
  /-- Scan for a raw-text closer whose line is followed by a newline. -/
  closeScan (closer : Str) : Nat → Str → Nat → Option Nat
    | 0, _, _ => none
    | fuel + 1, t, acc =>
        if startsWithCI t closer then
          let rest := (t.drop closer.length).takeWhile (fun c => c ≠ '\n')
          let after := t.drop (closer.length + rest.length)
          match after with
          | '\n' :: r2 =>
              some (acc + closer.length + rest.length + 1 +
                countWhile (fun c => c = '\n') r2)
          | _ =>
              match t with
              | [] => none
              | _ :: r => closeScan closer fuel r (acc + 1)
        else
          match t with
          | [] => none
          | _ :: r => closeScan closer fuel r (acc + 1)
  /-- Alternative two: comments. -/
  alt2 (s1 : Str) : Option (Nat × Bool) :=
    if startsWith s1 ['<', '!', '-', '-'] then
      let r := s1.drop 4
      let headLen :=
        match r with
        | '-' :: '>' :: _ => some 2
        | '>' :: _ => some 1
        | _ =>
            match findCI ['-', '-', '>'] (r.length + 1) r with
            | some i => some (i + 3)
            | none => some r.length
      match headLen with
      | some hl =>
          let t := r.drop hl
          let line := t.takeWhile (fun c => c ≠ '\n')
          some (4 + hl + line.length + nlRun (t.drop line.length), false)
      | none => none
    else none
  /-- Alternatives three to five: processing instruction, declaration,
  CDATA. -/
  alt345 (s1 : Str) : Option (Nat × Bool) :=
    match s1 with
    | '<' :: '?' :: r =>
        match findCI ['?', '>'] (r.length + 1) r with
        | some i => some (2 + i + 2 + nlRun (r.drop (i + 2)), false)
        | none => some (s1.length, false)
    | '<' :: '!' :: r =>
        if startsWith r ['[', 'C', 'D', 'A', 'T', 'A', '['] then
          match findCI [']', ']', '>'] (r.length + 1) r with
          | some i => some (2 + i + 3 + nlRun (r.drop (i + 3)), false)
          | none => some (s1.length, false)
        else
          match r with
          | c :: r2 =>
              if isAlphaCh c then
                match findCI ['>'] (r2.length + 1) r2 with
                | some i => some (3 + i + 1 + nlRun (r2.drop (i + 1)), false)
                | none => some (s1.length, false)
              else none
          | [] => none
    | _ => none
  /-- Shared tail of the loose alternatives: scan to a blank boundary or
  the end. -/
  looseTail (s1 : Str) (headLen : Nat) : Nat :=
    let body := s1.drop headLen
    match findBlankEnd (body.length + 1) body with
    | some n => headLen + n
    | none => s1.length
  /-- Alternative six: known block-level tag, opening or closing. -/
  alt6 (s1 : Str) : Option (Nat × Bool) :=
    match s1 with
    | '<' :: r =>
        let r1 := if r.head? = some '/' then r.drop 1 else r
        let slash := if r.head? = some '/' then 1 else 0
        match matchNameAlt vTags (fun t => (tagFollowLen t).isSome) r1 with
        | none => none
        | some nl =>
            match tagFollowLen (r1.drop nl) with
            | none => none
            | some fl => some (looseTail s1 (1 + slash + nl + fl), false)
    | _ => none
  /-- Alternative seven: any other lowercase opening tag alone on its
  line. -/
  alt7 (s1 : Str) : Option (Nat × Bool) :=
    match s1 with
    | '<' :: r =>
        if (matchNameAlt rawTags (fun _ => true) r).isSome then none
        else
          match r with
          | c :: r2 =>
              if isAlphaCh c then
                let nm := countWhile (fun d => isWordCh d || d = '-') r2
                match openTagHead (r2.length + 1) (r2.drop nm) with
                | some hl => some (looseTail s1 (2 + nm + hl), false)
                | none => none
              else none
          | [] => none
    | _ => none
  /-- Alternative eight: any other closing tag alone on its line. -/
  alt8 (s1 : Str) : Option (Nat × Bool) :=
    match s1 with
    | '<' :: '/' :: r =>
        if (matchNameAlt rawTags (fun _ => true) r).isSome then none
        else
          match r with
          | c :: r2 =>
              if isAlphaCh c then
                let nm := countWhile (fun d => isWordCh d || d = '-') r2
                let ws := countWhile isJsWs (r2.drop nm)
                match r2.drop (nm + ws) with
                | '>' :: r3 =>
                    let sp2 := countWhile isSpTab r3
                    let lineOk :=
                      match r3.drop sp2 with
                      | [] => true
                      | c2 :: _ => c2 = '\n'
                    if lineOk then
                      some (looseTail s1 (2 + 1 + nm + ws + 1), false)
                    else none
                | _ => none
              else none
          | [] => none
    | _ => none
  /-- The alternation in source order. -/
  htmlCore (s1 : Str) : Option (Nat × Bool) :=
    match alt1 s1 with
    | some res => some res
    | none =>
        match alt2 s1 with
        | some res => some res
        | none =>
            match alt345 s1 with
            | some res => some res
            | none =>
                match alt6 s1 with
                | some res => some res
                | none =>
                    match alt7 s1 with
                    | some res => some res
                    | none => alt8 s1

/-! ### Interrupt lookaheads shared by the paragraph, table and list-item
continuation logic (the fragments substituted into the paragraph
pattern). -/

/-- Case-sensitive alternation over tag names with a continuation
check. -/
def matchNameAltCS (names : List Str) (k : Str → Bool) (s : Str) :
    Option Nat :=
  match names with
  | [] => none
  | n :: rest =>
      if startsWith s n && k (s.drop n.length) then some n.length
      else matchNameAltCS rest k s

/-- Heading interrupt: up to three spaces, one to six hashes, whitespace
or the end. -/
def headingLA (t : Str) : Bool :=
  let ind := countWhile (fun c => c = ' ') t
  if ind > 3 then false
  else
    let t1 := t.drop ind
    let run := countWhile (fun c => c = '#') t1
    1 ≤ run && run ≤ 6 &&
      (match t1.drop run with
       | [] => true
       | c :: _ => isJsWs c)

/-- Blockquote interrupt: up to three spaces then a closing angle
bracket. -/
def blockquoteLA (t : Str) : Bool :=
  let ind := countWhile (fun c => c = ' ') t
  ind ≤ 3 && (t.drop ind).head? = some '>'

/-- Fence interrupt: an opening fence line terminated by a newline. -/
def fencesLA (t : Str) : Bool :=
  let ind := countWhile (fun c => c = ' ') t
  if ind > 3 then false
  else
    let t1 := t.drop ind
    let tickRun := countWhile (fun c => c = btickCh) t1
    if tickRun ≥ 3 then
      let rest := (t1.drop tickRun).takeWhile (fun c => c ≠ '\n')
      !containsCh rest btickCh &&
        (t1.drop (tickRun + rest.length)).head? = some '\n'
    else
      let tildeRun := countWhile (fun c => c = '~') t1
      if tildeRun ≥ 3 then
        let rest := (t1.drop tildeRun).takeWhile (fun c => c ≠ '\n')
        (t1.drop (tildeRun + rest.length)).head? = some '\n'
      else false

/-- List interrupt: up to three spaces, a star, plus, dash, or the
literal one followed by a dot or parenthesis, then a space. -/
def listLA (t : Str) : Bool :=
  let ind := countWhile (fun c => c = ' ') t
  if ind > 3 then false
  else
    match t.drop ind with
    | c :: r =>
        if c = '*' || c = '+' || c = '-' then r.head? = some ' '
        else if c = '1' then
          match r with
          | d :: r2 => (d = '.' || d = ')') && r2.head? = some ' '
          | [] => false
        else false
    | [] => false

/-- Raw HTML interrupt of the paragraph grammar (case-sensitive): a known
block tag opening or closing, or one of the raw-text openers. -/
def htmlLA (t : Str) : Bool :=
  match t with
  | '<' :: r =>
      (let r1 := if r.head? = some '/' then r.drop 1 else r
       (matchNameAltCS vTags (fun t2 => (tagFollowLen t2).isSome) r1).isSome) ||
      startsWith r ("script").data || startsWith r ("pre").data ||
      startsWith r ("style").data || startsWith r ("textarea").data ||
      startsWith r ['!', '-', '-']
  | _ => false

/-- Indented-code interrupt of the table row grammar: the code indent
followed by a character other than a newline. -/
def tcodeLA (t : Str) : Bool :=
  match codeIndentLen t with
  | some n =>
      match t.drop n with
      | c :: _ => c ≠ '\n'
      | [] => false
  | none => false

/-- Space-line interrupt: one or more spaces then a newline. -/
def spacesNlLA (t : Str) : Bool :=
  let sp := countWhile (fun c => c = ' ') t
  sp ≥ 1 && (t.drop sp).head? = some '\n'

/-! ### Tables (block.table of the gfm rule table). -/

/-- One delimiter cell: optional colon, dashes, optional colon,
spaces. -/
def delimCell (l : Str) : Option Nat :=
  let c1 := if l.head? = some ':' then 1 else 0
  let d := countWhile (fun c => c = '-') (l.drop c1)
  if d = 0 then none
  else
    let c2 := if (l.drop (c1 + d)).head? = some ':' then 1 else 0
    let sp := countWhile (fun c => c = ' ') (l.drop (c1 + d + c2))
    some (c1 + d + c2 + sp)

/-- Remaining delimiter cells and the optional trailing pipe, consuming
the whole line. -/
def delimTail : Nat → Str → Bool
  | 0, _ => false
  | fuel + 1, l =>
      match l with
      | [] => true
      | '|' :: r =>
          let sp := countWhile (fun c => c = ' ') r
          let r2 := r.drop sp
          if r2 = [] then true
          else
            match delimCell r2 with
            | some n => delimTail fuel (r2.drop n)
            | none => false
      | _ => false

/-- Whether a whole line is a table delimiter row. -/
def delimLineOk (l : Str) : Bool :=
  let l1 :=
    match l with
    | '|' :: r => r.drop (countWhile (fun c => c = ' ') r)
    | _ => l
  match delimCell l1 with
  | some n => delimTail (l1.length + 1) (l1.drop n)
  | none => false

/-- Stop condition of the table body rows: a space-only line or one of
the block interrupts. -/
def tableRowStop (t : Str) : Bool :=
  (let sp := countWhile (fun c => c = ' ') t
   (t.drop sp).head? = some '\n') ||
  (hrLen t).isSome || headingLA t || blockquoteLA t || tcodeLA t ||
  fencesLA t || listLA t || htmlLA t

/-- Length of the table body rows group. -/
def tableRows : Nat → Str → Nat
  | 0, _ => 0
  | fuel + 1, t =>
      if t = [] then 0
      else if tableRowStop t then 0
      else
        let line := firstLine t
        match t.drop line.length with
        | '\n' :: r => line.length + 1 + tableRows fuel r
        | _ => line.length

/-- The regex-level decomposition of a table match. -/
structure TableM where
  rawLen : Nat
  line1 : Str
  delim : Str
  rowsTxt : Str
deriving Repr

/-- Match of block.table: a non-blank header line, a delimiter row, then
body rows up to a stopping line. -/
def tableCore (s : Str) : Option TableM :=
  let sp := countWhile (fun c => c = ' ') s
  let l1 := (s.drop sp).takeWhile (fun c => c ≠ '\n')
  if l1 = [] then none
  else
    match s.drop (sp + l1.length) with
    | '\n' :: r =>
        let ind2 := countWhile (fun c => c = ' ') r
        if ind2 > 3 then none
        else
          let dline := (r.drop ind2).takeWhile (fun c => c ≠ '\n')
          if !delimLineOk dline then none
          else
            let base := sp + l1.length + 1 + ind2 + dline.length
            match s.drop base with
            | [] => some ⟨base, l1, dline, []⟩
            | '\n' :: r2 =>
                let rl := tableRows (r2.length + 1) r2
                let nl := countWhile (fun c => c = '\n') (r2.drop rl)
                some ⟨base + 1 + rl + nl, l1, dline, r2.take rl⟩
            | _ => none
    | _ => none

/-- The findPipe replacement of helper V: an escaped pipe stays, an
unescaped one gains a leading space; the count of directly preceding
backslashes decides. -/
def markPipes : Str → Nat → Str
  | [], _ => []
  | c :: r, bs =>
      if c = '|' then
        if bs % 2 = 1 then '|' :: markPipes r 0
        else ' ' :: '|' :: markPipes r 0
      else if c = '\\' then c :: markPipes r (bs + 1)
      else c :: markPipes r 0

/-- Split on the two-character separator space-pipe. -/
def splitSpPipe : Str → Str → List Str
  | [], acc => [acc.reverse]
  | ' ' :: '|' :: r, acc => acc.reverse :: splitSpPipe r []
  | c :: r, acc => splitSpPipe r (c :: acc)

/-- slashPipe unescaping inside a finished cell. -/
def unescapePipes : Str → Str
  | '\\' :: '|' :: r => '|' :: unescapePipes r
  | c :: r => c :: unescapePipes r
  | [] => []

/-- Helper V(l, e): split a row into cells, dropping empty edge cells,
adjusting to the requested count, trimming and unescaping pipes. -/
def splitCells (l : Str) (want : Option Nat) : List Str :=
  let cells0 := splitSpPipe (markPipes l 0) []
  let cells1 :=
    match cells0 with
    | c :: rest => if jsTrim c = [] then rest else cells0
    | [] => cells0
  let cells2 :=
    match cells1.getLast? with
    | some c => if jsTrim c = [] && cells1.length > 0 then cells1.dropLast else cells1
    | none => cells1
  let cells3 :=
    match want with
    | none => cells2
    | some e =>
        if cells2.length > e then cells2.take e
        else cells2 ++ List.replicate (e - cells2.length) []
  cells3.map (fun c => unescapePipes (jsTrim c))

/-- tableAlignChars removal: a leading pipe and a trailing pipe with
spaces are dropped from the delimiter row. -/
def stripAlignEdges (l : Str) : Str :=
  let l1 := match l with
    | '|' :: r => r
    | _ => l
  let rev := l1.reverse
  let revSp := rev.dropWhile (fun c => c = ' ')
  match revSp with
  | '|' :: r2 => r2.reverse
  | _ => l1

/-- Plain split on one character. -/
def splitOnCh (ch : Char) : Str → Str → List Str
  | [], acc => [acc.reverse]
  | c :: r, acc =>
      if c = ch then acc.reverse :: splitOnCh ch r []
      else splitOnCh ch r (c :: acc)

/-- Alignment classification of one delimiter cell. -/
def alignOf (o : Str) : Option Str :=
  let body := jsTrimColumn o
  match body with
  | none => none
  | some (lc, rc) =>
      if lc && rc then some ("center").data
      else if rc then some ("right").data
      else if lc then some ("left").data
      else none
where
  /-- Strip spaces and dashes, reporting the colon flags; none when the
  cell is not spaces, optional colon, dashes, optional colon, spaces. -/
  jsTrimColumn (o : Str) : Option (Bool × Bool) :=
    let t1 := o.dropWhile (fun c => c = ' ')
    let lc := t1.head? = some ':'
    let t2 := if lc then t1.drop 1 else t1
    let d := countWhile (fun c => c = '-') t2
    if d = 0 then none
    else
      let t3 := t2.drop d
      let rc := t3.head? = some ':'
      let t4 := if rc then t3.drop 1 else t3
      if t4.all (fun c => c = ' ') then some (lc, rc) else none

/-- tableRowBlankLine removal: a trailing newline followed by spaces and
tabs is dropped. -/
def stripRowBlank (s : Str) : Str :=
  let rev := s.reverse
  let revSp := rev.dropWhile isSpTab
  match revSp with
  | '\n' :: r => r.reverse
  | _ => s

/-- Tokenizer.table: the regex match plus the delimiter content check,
cell splitting and alignment classification.  Cell token lists stay empty
here and are filled by the inline pass. -/
def tableExec (s : Str) : Option Tok :=
  match tableCore s with
  | none => none
  | some m =>
      if !(containsCh m.delim ':' || containsCh m.delim '|') then none
      else
        let headerCells := splitCells m.line1 none
        let alignCells := splitOnCh '|' (stripAlignEdges m.delim) []
        if headerCells.length = alignCells.length then
          let aligns := alignCells.map alignOf
          let rowsLines :=
            if jsTrim m.rowsTxt ≠ [] then splitLines (stripRowBlank m.rowsTxt)
            else []
          let header := headerCells.map (fun c => (c, ([] : List Tok)))
          let rows := rowsLines.map (fun o =>
            (splitCells o (some headerCells.length)).map
              (fun c => (c, ([] : List Tok))))
          some (.table (s.take m.rawLen) header aligns rows)
        else none

/-! ### Setext headings (block.lheading, gfm variant). -/

/-- The opening negative lookahead of the setext pattern: a bullet and a
space, indented code, a fence, a blockquote, a hash heading, an inline
HTML line, or a table delimiter-ish line. -/
def lheadInterrupt (t : Str) : Bool :=
  (match bulletLen t with
   | some bl => (t.drop bl).head? = some ' '
   | none => false) ||
  (codeIndentLen t).isSome ||
  (let ind := countWhile (fun c => c = ' ') t
   ind ≤ 3 &&
     (startsWith (t.drop ind) [btickCh, btickCh, btickCh] ||
      startsWith (t.drop ind) ['~', '~', '~'])) ||
  blockquoteLA t ||
  (let ind := countWhile (fun c => c = ' ') t
   ind ≤ 3 && (t.drop ind).head? = some '#') ||
  lheadHtml t || lheadTable t
where
  /-- The html fragment of the setext lookahead: an angle bracket, at
  least one character other than newline and closing bracket, a closing
  bracket, a newline. -/
  lheadHtml (t : Str) : Bool :=
    let ind := countWhile (fun c => c = ' ') t
    if ind > 3 then false
    else
      match t.drop ind with
      | '<' :: r =>
          let body := r.takeWhile (fun c => c ≠ '\n' && c ≠ '>')
          body.length ≥ 1 &&
            (match r.drop body.length with
             | '>' :: r2 => r2.head? = some '\n'
             | _ => false)
      | _ => false
  /-- The table fragment of the setext lookahead: optional pipe, one or
  more colon-dash-space runs each closed by a pipe, a colon-dash-space
  run, a newline. -/
  lheadTable (t : Str) : Bool :=
    let ind := countWhile (fun c => c = ' ') t
    if ind > 3 then false
    else
      let t1 := t.drop ind
      let t2 := if t1.head? = some '|' then t1.drop 1 else t1
      lheadTableReps (t2.length + 1) t2 0
  /-- Repetitions of colon-dash-space runs closed by pipes, needing at
  least one, then a final run and a newline. -/
  lheadTableReps : Nat → Str → Nat → Bool
    | 0, _, _ => false
    | fuel + 1, t, reps =>
        let run := countWhile (fun c => c = ':' || c = '-' || c = ' ') t
        match t.drop run with
        | '|' :: r => lheadTableReps fuel r (reps + 1)
        | '\n' :: _ => reps ≥ 1
        | _ => false

/-- The setext underline: up to three spaces, a run of equals signs or
dashes, spaces, then newlines or the end.  Returns the consumed length
and the underline character. -/
def lheadUnderline (t : Str) : Option (Nat × Char) :=
  let ind := countWhile (fun c => c = ' ') t
  if ind > 3 then none
  else
    let t1 := t.drop ind
    let tryCh := fun (ch : Char) =>
      let run := countWhile (fun c => c = ch) t1
      if run = 0 then none
      else
        let sp := countWhile (fun c => c = ' ') (t1.drop run)
        match t1.drop (run + sp) with
        | [] => some (ind + run + sp, ch)
        | c :: r =>
            if c = '\n' then
              some (ind + run + sp + 1 + countWhile (fun d => d = '\n') r, ch)
            else none
    match tryCh '=' with
    | some res => some res
    | none => tryCh '-'

/-- A continuation newline inside a setext body fails when a blank-ish
line or a lookahead interrupt follows. -/
def lheadContOk (t : Str) : Bool :=
  let ws := t.takeWhile isJsWs
  !(containsCh ws '\n') && !lheadInterrupt t

/-- Body scan of the setext pattern: lazily extend the body, trying the
underline at every newline. -/
def lheadScan : Nat → Str → Nat → Option (Nat × Nat × Char)
  | 0, _, _ => none
  | fuel + 1, s, bodyLen =>
      match s with
      | [] => none
      | '\n' :: r =>
          if bodyLen ≥ 1 then
            match lheadUnderline r with
            | some (ul, ch) => some (bodyLen, bodyLen + 1 + ul, ch)
            | none =>
                if lheadContOk r then lheadScan fuel r (bodyLen + 1)
                else none
          else if lheadContOk r then lheadScan fuel r (bodyLen + 1)
          else none
      | _ :: r => lheadScan fuel r (bodyLen + 1)

/-- Tokenizer.lheading: body text above an equals or dash underline. -/
def lheadingExec (s : Str) : Option Tok :=
  if lheadInterrupt s then none
  else
    match lheadScan (s.length + 1) s 0 with
    | some (bodyLen, total, ch) =>
        some (.heading (s.take total) (if ch = '=' then 1 else 2)
          (s.take bodyLen) [])
    | none => none

/-! ### Paragraph and block text. -/

/-- The continuation lookahead of the paragraph pattern (gfm variant):
thematic break, heading, blockquote, fence, list, html, table, or a
space-only line. -/
def paragraphInterrupt (t : Str) : Bool :=
  (hrLen t).isSome || headingLA t || blockquoteLA t || fencesLA t ||
  listLA t || htmlLA t || (tableCore t).isSome || spacesNlLA t

/-- Additional length consumed by paragraph continuation lines. -/
def paraCont : Nat → Str → Nat
  | 0, _ => 0
  | fuel + 1, s =>
      match s with
      | '\n' :: r =>
          if paragraphInterrupt r then 0
          else
            let line := firstLine r
            if line = [] then 0
            else 1 + line.length + paraCont fuel (r.drop line.length)
      | _ => 0

/-- Tokenizer.paragraph: a first line plus continuation lines; the raw
span carries no trailing newline. -/
def paragraphExec (s : Str) : Option Tok :=
  let l1 := firstLine s
  if l1 = [] then none
  else
    let n := l1.length + paraCont (s.length + 1) (s.drop l1.length)
    let raw := s.take n
    let text := if raw.getLast? = some '\n' then raw.dropLast else raw
    some (.paragraph raw text [])

/-- Tokenizer.text via block.text: the rest of the line. -/
def textExec (s : Str) : Option Tok :=
  let l := firstLine s
  if l = [] then none else some (.textB l l [])

/-! ## Inline-level rule matchers (the gfm inline table, with the two
breaks-mode pattern changes keyed on the breaks option). -/

/-- inline.escape: a backslash followed by an ASCII punctuation
character. -/
def escapeExec (s : Str) : Option Tok :=
  match s with
  | '\\' :: c :: _ =>
      if isPunctSymCh c then some (.escapeT (s.take 2) [c]) else none
  | _ => none

/-- The gfm punctuation class of the emphasis rules: Unicode punctuation
or symbol except the tilde. -/
def gfmPunct (c : Char) : Bool := isPunctSymCh c && c ≠ '~'

/-- The gfm punctuation-or-space class except the tilde. -/
def gfmPunctSpace (c : Char) : Bool := (isJsWs c || isPunctSymCh c) && c ≠ '~'

/-- The gfm complement class: neither whitespace nor punctuation, or the
tilde. -/
def gfmNotPunctSpace (c : Char) : Bool :=
  (!isJsWs c && !isPunctSymCh c) || c = '~'

/-- The plain punctuation class used by the underscore rules. -/
def uPunct (c : Char) : Bool := isPunctSymCh c

/-- Punctuation or whitespace, the underscore variant. -/
def uPunctSpace (c : Char) : Bool := isJsWs c || isPunctSymCh c

/-- Neither punctuation nor whitespace, the underscore variant. -/
def uNotPunctSpace (c : Char) : Bool := !isJsWs c && !isPunctSymCh c

/-- inline.punctuation, the previous-character test of emStrong: a
whitespace, punctuation or symbol character other than star and
underscore. -/
def prevPunctTest (c : Char) : Bool :=
  (isJsWs c || isPunctSymCh c) && c ≠ '*' && c ≠ '_'

/-- Match result of emStrongLDelim: total length, star flavour, and the
three capture groups as flags. -/
structure LDelimM where
  len0 : Nat
  star : Bool
  g1 : Bool
  g2 : Bool
  g3 : Bool
deriving Repr

/-- emStrongLDelim (gfm): a star run followed by gfm punctuation (group
one) or any character that is neither whitespace nor a star; or an
underscore run followed by punctuation (group two) or a character that is
neither whitespace nor an underscore (group three). -/
def emLDelim (s : Str) : Option LDelimM :=
  match s.head? with
  | some '*' =>
      let run := countWhile (fun c => c = '*') s
      match (s.drop run).head? with
      | some c =>
          if gfmPunct c then some ⟨run + 1, true, true, false, false⟩
          else if !isJsWs c then some ⟨run + 1, true, false, false, false⟩
          else none
      | none => none
  | some '_' =>
      let run := countWhile (fun c => c = '_') s
      match (s.drop run).head? with
      | some c =>
          if gfmPunct c then some ⟨run + 1, false, false, true, false⟩
          else if !isJsWs c then some ⟨run + 1, false, false, false, true⟩
          else none
      | none => none
  | _ => none

/-- Match result of the right-delimiter scan: match position, match
length, capture group index (zero when no group), group run length. -/
structure RDelimM where
  idx : Nat
  len0 : Nat
  grp : Nat
  glen : Nat
deriving Repr

/-- The leading alternative of emStrongRDelimAst, only applicable at
position zero: a run free of underscores and stars, a double underscore,
more such characters, a star, more, in front of a double underscore;
returns the match length. -/
def astAlt1 (t : Str) : Option Nat :=
  let seg1 := t.takeWhile (fun c => c ≠ '_' && c ≠ '*')
  if startsWith (t.drop seg1.length) ['_', '_'] then
    let t2 := t.drop (seg1.length + 2)
    let seg2 := t2.takeWhile (fun c => c ≠ '_' && c ≠ '*')
    match t2.drop seg2.length with
    | '*' :: t3 =>
        let seg3 := t3.takeWhile (fun c => c ≠ '_' && c ≠ '*')
        if startsWith (t3.drop seg3.length) ['_', '_'] then
          some (seg1.length + 2 + seg2.length + 1 + seg3.length)
        else none
    | _ => none
  else none

/-- The leading alternative of emStrongRDelimUnd, symmetric to astAlt1
with stars and underscores exchanged. -/
def undAlt1 (t : Str) : Option Nat :=
  let seg1 := t.takeWhile (fun c => c ≠ '_' && c ≠ '*')
  if startsWith (t.drop seg1.length) ['*', '*'] then
    let t2 := t.drop (seg1.length + 2)
    let seg2 := t2.takeWhile (fun c => c ≠ '_' && c ≠ '*')
    match t2.drop seg2.length with
    | '_' :: t3 =>
        let seg3 := t3.takeWhile (fun c => c ≠ '_' && c ≠ '*')
        if startsWith (t3.drop seg3.length) ['*', '*'] then
          some (seg1.length + 2 + seg2.length + 1 + seg3.length)
        else none
    | _ => none
  else none

/-- One attempt of the right-delimiter alternation at a fixed position
(excluding the two position-zero alternatives).  The classes are those of
the chosen flavour; hasG6 marks the star flavour which owns the sixth
group. -/
def rDelimAt (delim : Char) (punct punctSpace notPunctSpace : Char → Bool)
    (hasG6 : Bool) (t : Str) : Option (Nat × Nat × Nat) :=
  -- second alternative: a run of non-delimiter characters kept one short
  let l := countWhile (fun c => c ≠ delim) t
  if l ≥ 2 then some (l - 1, 0, 0)
  else
    match t with
    | c :: r =>
        let run := countWhile (fun d => d = delim) r
        if run = 0 then none
        else
          let after := r.drop run
          let closerPS :=
            match after.head? with
            | none => true
            | some d => isJsWs d
          let afterPunctSpace :=
            match after.head? with
            | none => true
            | some d => punctSpace d
          let afterNPS :=
            match after.head? with
            | none => false
            | some d => notPunctSpace d
          let afterPunct :=
            match after.head? with
            | none => false
            | some d => punct d
          if punct c && c ≠ delim && closerPS then some (1 + run, 1, run)
          else if notPunctSpace c && afterPunctSpace then some (1 + run, 2, run)
          else if punctSpace c && c ≠ delim && afterNPS then some (1 + run, 3, run)
          else if isJsWs c && afterPunct then some (1 + run, 4, run)
          else if punct c && c ≠ delim && afterPunct then some (1 + run, 5, run)
          else if hasG6 && notPunctSpace c && afterNPS then some (1 + run, 6, run)
          else none
    | [] => none

/-- Global exec of the right-delimiter pattern: scan forward from the
given index for the first matching position, alternatives in source
order; the position-zero alternative runs only when scanning from the
start. -/
def rDelimExec (star : Bool) (t : Str) : Nat → Nat → Option RDelimM
  | 0, _ => none
  | fuel + 1, idx =>
      let rest := t.drop idx
      if rest = [] then none
      else
        let first :=
          if idx = 0 then
            match (if star then astAlt1 t else undAlt1 t) with
            | some n => some (n, 0, 0)
            | none => none
          else none
        let firstAny :=
          match first with
          | some res => some res
          | none =>
              rDelimAt (if star then '*' else '_')
                (if star then gfmPunct else uPunct)
                (if star then gfmPunctSpace else uPunctSpace)
                (if star then gfmNotPunctSpace else uNotPunctSpace)
                star rest
        match firstAny with
        | some (len0, grp, glen) => some ⟨idx, len0, grp, glen⟩
        | none => rDelimExec star t fuel (idx + 1)

/-- The delimiter-matching loop of Tokenizer.emStrong: endReg counter u,
mid-delimiter total p; returns the raw length and whether the result is
emphasis rather than strong. -/
def emStrongLoop (star : Bool) (t : Str) (sN : Nat) :
    Nat → Nat → Int → Int → Option (Nat × Bool)
  | 0, _, _, _ => none
  | fuel + 1, lastIndex, u, p =>
      match rDelimExec star t (t.length + 1) lastIndex with
      | none => none
      | some m =>
          let li' := m.idx + m.len0
          if m.grp = 0 then emStrongLoop star t sN fuel li' u p
          else
            let a : Int := m.glen
            if m.grp = 3 || m.grp = 4 then
              emStrongLoop star t sN fuel li' (u + a) p
            else if (m.grp = 5 || m.grp = 6) && sN % 3 ≠ 0 &&
                (sN + m.glen) % 3 = 0 then
              emStrongLoop star t sN fuel li' u (p + a)
            else
              let u' := u - a
              if u' > 0 then emStrongLoop star t sN fuel li' u' p
              else
                let aAdj : Int := min a (a + u' + p)
                match aAdj.toNat' with
                | none => none
                | some aN =>
                    let rawLen := sN + m.idx + 1 + aN
                    some (rawLen, min sN aN % 2 = 1)

/-- Tokenizer.emStrong up to the child tokenization: the left-delimiter
checks against the previous character, then the loop over the masked
text; returns the raw length and the emphasis flag. -/
def emStrongCore (src maskedFull : Str) (prevChar : Str) :
    Option (Nat × Bool) :=
  match emLDelim src with
  | none => none
  | some l =>
      if l.g3 && (match prevChar.head? with
                  | some c => isAlnumCh c
                  | none => false) then none
      else
        let proceed :=
          !(l.g1 || l.g2) || prevChar = [] ||
            (match prevChar.head? with
             | some c => prevPunctTest c
             | none => false)
        if !proceed then none
        else
          let sN := l.len0 - 1
          let t := maskedFull.drop (maskedFull.length - src.length + sN)
          emStrongLoop l.star t sN (t.length + 1) 0 (Int.ofNat sN) 0

/-- inline.code: an opening backtick run, lazy content, a closing run of
exactly the same length; the text folds newlines to spaces and strips one
surrounding space pair when both are present and content remains. -/
def codespanScan (n : Nat) : Nat → Str → Nat → Option Nat
  | 0, _, _ => none
  | fuel + 1, t, acc =>
      match t with
      | [] => none
      | c :: _ =>
          if c = btickCh then
            let run := countWhile (fun d => d = btickCh) t
            if run = n && acc > 0 then some acc
            else codespanScan n fuel (t.drop run) (acc + run)
          else
            let seg := t.takeWhile (fun d => d ≠ btickCh)
            codespanScan n fuel (t.drop seg.length) (acc + seg.length)

/-- Tokenizer.codespan. -/
def codespanExec (s : Str) : Option Tok :=
  match s.head? with
  | some c =>
      if c = btickCh then
        let n := countWhile (fun d => d = btickCh) s
        let body := s.drop n
        match codespanScan n (body.length + 1) body 0 with
        | none => none
        | some m =>
            let raw := s.take (n + m + n)
            let txt := (s.drop n).take m |>.map
              (fun d => if d = '\n' then ' ' else d)
            let hasNonSpace := txt.any (fun d => d ≠ ' ')
            let framed := txt.head? = some ' ' && txt.getLast? = some ' '
            let txt2 :=
              if hasNonSpace && framed then (txt.drop 1).dropLast else txt
            some (.codespan raw txt2)
      else none
  | none => none

/-- inline.br: two or more spaces (any number in breaks mode) or a
backslash, a newline, and further content that is not only whitespace. -/
def brExec (breaks : Bool) (s : Str) : Option Tok :=
  let head :=
    match s with
    | '\\' :: _ => some 1
    | _ =>
        let sp := countWhile (fun c => c = ' ') s
        if breaks || sp ≥ 2 then some sp else none
  match head with
  | none => none
  | some hl =>
      match s.drop hl with
      | '\n' :: r =>
          if r.any (fun c => !isJsWs c) then some (.brT (s.take (hl + 1)))
          else none
      | _ => none

/-- Lazy body of inline.del: units of an escaped pair or a single
non-backslash character (the parse of units is forced since only the
escape unit covers a backslash); the final unit must be an escaped pair
or a single that is neither whitespace nor a tilde, and the closing run
may not be followed by a further tilde. -/
def delScan (closeRun : Nat) : Nat → Str → Nat → Bool → Option Nat
  | 0, _, _, _ => none
  | fuel + 1, t, acc, lastOk =>
      let closes := acc > 0 && lastOk &&
        startsWith t (List.replicate closeRun '~') &&
        (match (t.drop closeRun).head? with
         | some d => d ≠ '~'
         | none => true)
      if closes then some acc
      else
        match t with
        | '\\' :: _ :: r => delScan closeRun fuel r (acc + 2) true
        | c :: r =>
            if c = '\\' then none
            else delScan closeRun fuel r (acc + 1)
              (!isJsWs c && c ≠ '~')
        | [] => none

/-- Tokenizer.del (gfm): one or two tildes (two preferred), content per
delScan, mirrored closing run; returns the raw length and the body. -/
def delExec (s : Str) : Option (Nat × Str) :=
  let openLen :=
    match s with
    | '~' :: '~' :: _ => some 2
    | '~' :: _ => some 1
    | _ => none
  match openLen with
  | none => none
  | some n =>
      let tryOpen := fun (ol : Nat) =>
        match (s.drop ol).head? with
        | some c =>
            if isJsWs c || c = '~' then none
            else
              let body := s.drop ol
              match delScan ol (body.length + 1) body 0 false with
              | none => none
              | some m => some (ol + m + ol, body.take m)
        | none => none
      match tryOpen n with
      | some res => some res
      | none => if n = 2 then tryOpen 1 else none

/-- Scheme part of inline.autolink: a letter then one to thirty-one
letters, digits, plus, dot or dash. -/
def schemeLen (s : Str) : Option Nat :=
  match s with
  | c :: r =>
      if isAlphaCh c then
        let run := countWhile
          (fun d => isAlnumCh d || d = '+' || d = '.' || d = '-') r
        let k := min run 31
        if k ≥ 1 then some (1 + k) else none
      else none
  | [] => none

/-- Character class of the email local part in inline.autolink. -/
def emailLocalCh (c : Char) : Bool :=
  isAlnumCh c || c = '.' || c = '!' || c = '#' || c = '$' || c = '%' ||
  c = '&' || c = aposCh || c = '*' || c = '+' || c = '/' || c = '=' ||
  c = '?' || c = '^' || c = '_' || c = btickCh || c = '{' || c = '|' ||
  c = '}' || c = '~' || c = '-'

/-- One domain label: an alphanumeric, optionally up to sixty-one
alphanumeric-or-dash characters ending alphanumeric. -/
def domainLabelLen (s : Str) : Option Nat :=
  let run := countWhile (fun c => isAlnumCh c || c = '-') s
  let capped := min run 63
  let rec back (k : Nat) : Option Nat :=
    match k with
    | 0 => none
    | k + 1 =>
        match s.get? k with
        | some c => if isAlnumCh c then some (k + 1) else back k
        | none => back k
  match s.head? with
  | some c => if isAlnumCh c then back capped else none
  | none => none

/-- Dot-separated domain labels, at least one repetition. -/
def domainReps : Nat → Str → Option Nat
  | 0, _ => none
  | fuel + 1, s =>
      match s with
      | '.' :: r =>
          match domainLabelLen r with
          | none => none
          | some dl =>
              match domainReps fuel (r.drop dl) with
              | some more => some (1 + dl + more)
              | none => some (1 + dl)
      | _ => none

/-- Email alternative of inline.autolink: local part, at sign, first
label, dot-separated labels, not followed by a dash or underscore. -/
def autolinkEmailLen (s : Str) : Option Nat :=
  let loc := countWhile emailLocalCh s
  if loc = 0 then none
  else
    match s.drop loc with
    | '@' :: r =>
        match domainLabelLen r with
        | none => none
        | some dl =>
            match domainReps (r.length + 1) (r.drop dl) with
            | none => none
            | some reps =>
                let total := loc + 1 + dl + reps
                match (s.drop total).head? with
                | some c => if c = '-' || c = '_' then none else some total
                | none => some total
    | _ => none

/-- Tokenizer.autolink: an angle-bracketed scheme link or email
address. -/
def autolinkExec (s : Str) : Option Tok :=
  match s with
  | '<' :: r =>
      let viaScheme :=
        match schemeLen r with
        | some sl =>
            if (r.drop sl).head? = some ':' then
              let body := countWhile
                (fun c => !isJsWs c && c.toNat > 31 && c ≠ '<' && c ≠ '>')
                (r.drop (sl + 1))
              let innerLen := sl + 1 + body
              if (r.drop innerLen).head? = some '>' then
                some (innerLen, false)
              else none
            else none
        | none => none
      let hit :=
        match viaScheme with
        | some res => some res
        | none =>
            match autolinkEmailLen r with
            | some el =>
                if (r.drop el).head? = some '>' then some (el, true)
                else none
            | none => none
      match hit with
      | some (il, isEmail) =>
          let inner := r.take il
          let href :=
            if isEmail then ("mailto:").data ++ inner else inner
          some (.linkT (s.take (il + 2)) href none inner
            [.textI inner inner false])
      | none => none
  | _ => none

/-! ### inline.url (gfm, case-insensitive) with the backpedal loop. -/

/-- Email local-part class of the gfm url rule. -/
def urlEmailLocalCh (c : Char) : Bool :=
  isAlnumCh c || c = '.' || c = '_' || c = '+' || c = '-'

/-- Domain continuation of the gfm url email: dot, a run of word-or-dash
characters whose last is alphanumeric. -/
def urlDomainRep (s : Str) : Option Nat :=
  match s with
  | '.' :: r =>
      let run := countWhile (fun c => isAlnumCh c || c = '-' || c = '_') r
      let rec back (k : Nat) : Option Nat :=
        match k with
        | 0 => none
        | k + 1 =>
            match r.get? k with
            | some c => if isAlnumCh c then some (k + 1) else back k
            | none => back k
      (back run).map (fun k => 1 + k)
  | _ => none

/-- One or more domain repetitions. -/
def urlDomainReps : Nat → Str → Option Nat
  | 0, _ => none
  | fuel + 1, s =>
      match urlDomainRep s with
      | none => none
      | some n =>
          match urlDomainReps fuel (s.drop n) with
          | some more => some (n + more)
          | none => some n

/-- The characters the backpedal unit one may not contain. -/
def bpStopCh (c : Char) : Bool :=
  c = '?' || c = '!' || c = '.' || c = ',' || c = ':' || c = ';' ||
  c = '*' || c = '_' || c = aposCh || c = '"' || c = '~' || c = '(' ||
  c = ')' || c = '&'

/-- The closing-punctuation class of backpedal unit four. -/
def bpCloseCh (c : Char) : Bool :=
  c = '?' || c = '!' || c = '.' || c = ',' || c = ':' || c = ';' ||
  c = '*' || c = '_' || c = aposCh || c = '"' || c = '~' || c = ')'

/-- One backpedal unit at a position: a plain run, a parenthesized group,
an ampersand not opening a trailing entity, or a closing-punctuation run
not at the end. -/
def bpUnit (t : Str) : Option Nat :=
  let run := countWhile (fun c => !bpStopCh c) t
  if run ≥ 1 then some run
  else
    match t with
    | '(' :: r =>
        let inner := r.takeWhile (fun c => c ≠ ')')
        match r.drop inner.length with
        | ')' :: _ => some (inner.length + 2)
        | _ => none
    | '&' :: r =>
        let al := countWhile isAlnumCh r
        let entityToEnd := al ≥ 1 && (r.drop al).head? = some ';' &&
          r.drop (al + 1) = []
        if entityToEnd then none else some 1
    | _ =>
        let cl := countWhile bpCloseCh t
        if cl = 0 then none
        else if t.drop cl = [] then
          if cl ≥ 2 then some (cl - 1) else none
        else some cl

/-- Greedy unit repetitions of the backpedal pattern. -/
def bpUnits : Nat → Str → Nat
  | 0, _ => 0
  | fuel + 1, t =>
      match bpUnit t with
      | none => 0
      | some n => if n = 0 then 0 else n + bpUnits fuel (t.drop n)

/-- One exec of the unanchored backpedal pattern: the first position
admitting a unit, and the units from there. -/
def bpExec : Nat → Str → Str
  | 0, _ => []
  | fuel + 1, t =>
      let n := bpUnits (t.length + 1) t
      if n > 0 then t.take n
      else
        match t with
        | [] => []
        | _ :: r => bpExec fuel r

/-- The do-while fixpoint of the backpedal loop. -/
def bpFix : Nat → Str → Str
  | 0, t => t
  | fuel + 1, t =>
      let t' := bpExec (t.length + 1) t
      if t' = t then t else bpFix fuel t'

/-- Tokenizer.url (gfm): a scheme or www prefix with a domain, or a bare
email; scheme matches backpedal trailing punctuation away. -/
def urlExec (s : Str) : Option Tok :=
  let prefixLen :=
    if startsWithCI s ("https://").data then some 8
    else if startsWithCI s ("http://").data then some 7
    else if startsWithCI s ("ftp://").data then some 6
    else if startsWithCI s ("www.").data then some 4
    else none
  match prefixLen with
  | some pl =>
      match (s.drop pl).head? with
      | some c =>
          if isAlnumCh c || c = '-' then
            let body := countWhile (fun d => !isJsWs d && d ≠ '<') (s.drop pl)
            let t0 := s.take (pl + body)
            let t0' := bpFix (t0.length + 1) t0
            let www := startsWith t0' ("www.").data
            let href := if www then ("http://").data ++ t0' else t0'
            some (.linkT t0' href none t0' [.textI t0' t0' false])
          else none
      | none => none
  | none =>
      let loc := countWhile urlEmailLocalCh s
      if loc = 0 then none
      else
        match s.drop loc with
        | '@' :: r =>
            let d1 := countWhile (fun c => isAlnumCh c || c = '-' || c = '_') r
            if d1 = 0 then none
            else
              match urlDomainReps (r.length + 1) (r.drop d1) with
              | none => none
              | some reps =>
                  let total := loc + 1 + d1 + reps
                  match (s.drop total).head? with
                  | some c =>
                      if c = '-' || c = '_' then none
                      else
                        let t0 := s.take total
                        some (.linkT t0 (("mailto:").data ++ t0) none t0
                          [.textI t0 t0 false])
                  | none =>
                      let t0 := s.take total
                      some (.linkT t0 (("mailto:").data ++ t0) none t0
                        [.textI t0 t0 false])
        | _ => none

/-! ### inline.text (gfm, with the breaks-mode variants). -/

/-- Email-ish class of the inline text rule. -/
def emailTextCh (c : Char) : Bool :=
  isAlnumCh c || c = '.' || c = '!' || c = '#' || c = '$' || c = '%' ||
  c = '&' || c = aposCh || c = '*' || c = '+' || c = '/' || c = '=' ||
  c = '?' || c = '_' || c = btickCh || c = '{' || c = '|' || c = '}' ||
  c = '~' || c = '-'

/-- Two or more spaces (any number in breaks mode) followed by a
newline. -/
def sp2nlLA (breaks : Bool) (t : Str) : Bool :=
  let sp := countWhile (fun c => c = ' ') t
  (breaks || sp ≥ 2) && (t.drop sp).head? = some '\n'

/-- An email-ish run followed by an at sign. -/
def emailPrefixLA (t : Str) : Bool :=
  let run := countWhile emailTextCh t
  run ≥ 1 && (t.drop run).head? = some '@'

/-- Stop set of the inline text scan: the character class, a bare url
opener, or the end handled by the caller. -/
def textStopLA (t : Str) : Bool :=
  match t.head? with
  | none => true
  | some c =>
      c = '\\' || c = '<' || c = '!' || c = '[' || c = btickCh ||
      c = '*' || c = '~' || c = '_' ||
      startsWith t ("http://").data || startsWith t ("https://").data ||
      startsWith t ("ftp://").data || startsWith t ("www.").data

/-- Lazy scan of the inline text body. -/
def inlineTextScan (breaks : Bool) : Nat → Str → Nat
  | 0, _ => 0
  | fuel + 1, t =>
      if textStopLA t then 0
      else
        match t with
        | [] => 0
        | c :: r =>
            if c ≠ ' ' && sp2nlLA breaks r then 1
            else if !emailTextCh c && emailPrefixLA r then 1
            else 1 + inlineTextScan breaks fuel r

/-- Tokenizer.inlineText match length: a backtick-or-tilde run or one
character, then the lazy body up to a lookahead hit. -/
def inlineTextLen (breaks : Bool) (s : Str) : Option Nat :=
  match s.head? with
  | none => none
  | some c0 =>
      let first :=
        if c0 = btickCh || c0 = '~' then
          countWhile (fun c => c = btickCh || c = '~') s
        else 1
      let t := s.drop first
      if sp2nlLA breaks t then some first
      else if emailPrefixLA t then some first
      else some (first + inlineTextScan breaks (t.length + 1) t)

/-! ### inline.tag (raw inline HTML). -/

/-- An inline tag attribute: whitespace, a name, optionally a quoted or
bare value. -/
def inlAttrLen (s : Str) : Option Nat :=
  let ws := countWhile isJsWs s
  if ws = 0 then none
  else
    match s.drop ws with
    | c :: r =>
        if isAlphaCh c || c = ':' || c = '_' then
          let nm := countWhile
            (fun d => isWordCh d || d = '.' || d = ':' || d = '-') r
          let base := ws + 1 + nm
          let t := s.drop base
          let ws1 := countWhile isJsWs t
          match t.drop ws1 with
          | '=' :: t2 =>
              let ws2 := countWhile isJsWs t2
              let v := t2.drop ws2
              match v with
              | '"' :: w =>
                  let inner := w.takeWhile (fun d => d ≠ '"')
                  if (w.drop inner.length).head? = some '"' then
                    some (base + ws1 + 1 + ws2 + inner.length + 2)
                  else some base
              | c2 :: w =>
                  if c2 = aposCh then
                    let inner := w.takeWhile (fun d => d ≠ aposCh)
                    if (w.drop inner.length).head? = some aposCh then
                      some (base + ws1 + 1 + ws2 + inner.length + 2)
                    else some base
                  else
                    let bare := v.takeWhile (fun d =>
                      !isJsWs d && d ≠ '"' && d ≠ aposCh && d ≠ '=' &&
                      d ≠ '<' && d ≠ '>' && d ≠ btickCh)
                    if bare.length = 0 then some base
                    else some (base + ws1 + 1 + ws2 + bare.length)
              | [] => some base
          | _ => some base
        else none
    | [] => none

/-- Head of an inline opening tag after the name: lazy attributes then
optional whitespace and an optionally self-closing bracket. -/
def inlOpenHead : Nat → Str → Option Nat
  | 0, _ => none
  | fuel + 1, s =>
      let ws := countWhile isJsWs s
      let tryClose :=
        match s.drop ws with
        | '/' :: '>' :: _ => some (ws + 2)
        | '>' :: _ => some (ws + 1)
        | _ => none
      match tryClose with
      | some n => some n
      | none =>
          match inlAttrLen s with
          | none => none
          | some al =>
              if al = 0 then none
              else (inlOpenHead fuel (s.drop al)).map (fun n => al + n)

/-- The inline.tag match length: comment, closing tag, opening tag,
processing instruction, declaration, or CDATA, in pattern order. -/
def inlTagLen (s : Str) : Option Nat :=
  match s with
  | '<' :: '!' :: '-' :: '-' :: r =>
      (match r with
       | '-' :: '>' :: _ => some (4 + 2)
       | '>' :: _ => some (4 + 1)
       | _ =>
           match findCI ['-', '-', '>'] (r.length + 1) r with
           | some i => some (4 + i + 3)
           | none => none)
  | '<' :: '/' :: c :: r =>
      if isAlphaCh c then
        let nm := countWhile
          (fun d => isWordCh d || d = ':' || d = '-') r
        let ws := countWhile isJsWs (r.drop nm)
        match r.drop (nm + ws) with
        | '>' :: _ => some (3 + nm + ws + 1)
        | _ => none
      else none
  | '<' :: '?' :: r =>
      (match findCI ['?', '>'] (r.length + 1) r with
       | some i => some (2 + i + 2)
       | none => none)
  | '<' :: '!' :: r =>
      if startsWith r ['[', 'C', 'D', 'A', 'T', 'A', '['] then
        match findCI [']', ']', '>'] (r.length + 1) r with
        | some i => some (2 + i + 3)
        | none => none
      else
        let al := countWhile isAlphaCh r
        if al = 0 then none
        else
          match (r.drop al).head? with
          | some c =>
              if isJsWs c then
                match findCI ['>'] (r.length + 1) (r.drop (al + 1)) with
                | some i => some (2 + al + 1 + i + 1)
                | none => none
              else none
          | none => none
  | '<' :: c :: r =>
      if isAlphaCh c then
        let nm := countWhile (fun d => isWordCh d || d = '-') r
        match inlOpenHead (r.length + 1) (r.drop nm) with
        | some hl => some (2 + nm + hl)
        | none => none
      else none
  | _ => none

/-! ### inline.link and inline.reflink. -/

/-- Result of ge(l, parens): index of the first unbalanced closer, an
unbalance marker, or no find. -/
inductive GeRes where
  | found (n : Nat)
  | unbalanced
  | nofind
deriving Repr, DecidableEq

/-- The bracket scan ge of the source specialized to parentheses. -/
def geScan : Nat → Str → Nat → Int → GeRes
  | 0, _, _, _ => .nofind
  | fuel + 1, t, idx, d =>
      match t with
      | [] => if d > 0 then .unbalanced else .nofind
      | '\\' :: rest =>
          (match rest with
           | _ :: r2 => geScan fuel r2 (idx + 2) d
           | [] => if d > 0 then .unbalanced else .nofind)
      | '(' :: r => geScan fuel r (idx + 1) (d + 1)
      | ')' :: r =>
          if d ≤ 0 then .found idx else geScan fuel r (idx + 1) (d - 1)
      | _ :: r => geScan fuel r (idx + 1) d

/-- findClosingBracket of the source: no find without a closer present,
then the scan. -/
def geParen (l : Str) : GeRes :=
  if !containsCh l ')' then .nofind
  else geScan (l.length + 1) l 0 0

/-- The label repetitions of the link-label pattern, lazy against a
parameterized tail parser; returns label length, tail length and the
tail payload. -/
def qLabelScan {α : Type} (tailP : Str → Option (Nat × α)) :
    Nat → Str → Option (Nat × Nat × α)
  | 0, _ => none
  | fuel + 1, s =>
      match tailP s with
      | some (tl, a) => some (0, tl, a)
      | none =>
          match s with
          | '[' :: r =>
              let il := defLabelLen (r.length + 1) r
              (match r.drop il with
               | ']' :: r2 =>
                   (qLabelScan tailP fuel r2).map
                     (fun (res : Nat × Nat × α) =>
                       (res.1 + il + 2, res.2.1, res.2.2))
               | _ => none)
          | '\\' :: _ :: r =>
              (qLabelScan tailP fuel r).map
                (fun res => (res.1 + 2, res.2.1, res.2.2))
          | c :: r =>
              if c = btickCh then
                let inner := r.takeWhile (fun d => d ≠ btickCh)
                match r.drop inner.length with
                | _ :: r2 =>
                    (qLabelScan tailP fuel r2).map
                      (fun res => (res.1 + inner.length + 2, res.2.1, res.2.2))
                | [] => none
              else if c = ']' || c = '\\' || c = btickCh then none
              else
                (qLabelScan tailP fuel r).map
                  (fun res => (res.1 + 1, res.2.1, res.2.2))
          | [] => none

/-- The title group of inline.link: double-quoted, single-quoted or
parenthesized with escapes. -/
def linkTitleAt (t : Str) : Option (Nat × Str) :=
  match t with
  | '"' :: r =>
      (qtScan '"' (r.length + 1) r).map (fun n => (n + 1, t.take (n + 1)))
  | '(' :: r =>
      (qtScan ')' (r.length + 1) r).map (fun n => (n + 1, t.take (n + 1)))
  | c :: r =>
      if c = aposCh then
        (qtScan aposCh (r.length + 1) r).map
          (fun n => (n + 1, t.take (n + 1)))
      else none
  | [] => none

/-- After the href of inline.link: an optionally separated title, then
whitespace and the closing parenthesis; the branch with a line break in
the separator is preferred, then the plain separator, then no title. -/
def linkAfterHref (t : Str) : Option (Nat × Option Str) :=
  let close := fun (u : Str) =>
    let ws := countWhile isJsWs u
    if (u.drop ws).head? = some ')' then some (ws + 1) else none
  let withTitleFrom := fun (pos : Nat) =>
    match linkTitleAt (t.drop pos) with
    | some (tl, tg) =>
        (close (t.drop (pos + tl))).map (fun cl => (pos + tl + cl, some tg))
    | none => none
  let sp := countWhile isSpTab t
  let viaNl :=
    match t.drop sp with
    | '\n' :: r =>
        let sp2 := countWhile isSpTab r
        withTitleFrom (sp + 1 + sp2)
    | _ => none
  match viaNl with
  | some res => some res
  | none =>
      match withTitleFrom sp with
      | some res => some res
      | none => (close t).map (fun cl => (cl, none))

/-- Decreasing search over href candidate lengths (the backtracking of
the greedy bare-href alternative). -/
def hrefTryLens (t : Str) : Nat → Option (Nat × Nat × Option Str)
  | 0 =>
      (linkAfterHref t).map (fun (res : Nat × Option Str) =>
        (0, res.1, res.2))
  | k + 1 =>
      match linkAfterHref (t.drop (k + 1)) with
      | some (al, ti) => some (k + 1, al, ti)
      | none => hrefTryLens t k

/-- The parenthesized tail of inline.link, entered after the bracketed
label: whitespace, href (angle-bracketed preferred), optional title,
closing parenthesis.  Returns total length, href group, title group. -/
def linkParen (t : Str) : Option (Nat × Str × Option Str) :=
  let ws := countWhile isJsWs t
  let afterWs := t.drop ws
  let viaAngle :=
    match afterWs with
    | '<' :: r =>
        let inner := angleInner (r.length + 1) r
        if inner = 0 then none
        else
          match r.drop inner with
          | '>' :: _ =>
              let hl := inner + 2
              (linkAfterHref (afterWs.drop hl)).map
                (fun (res : Nat × Option Str) =>
                  (ws + hl + res.1, afterWs.take hl, res.2))
          | _ => none
    | _ => none
  match viaAngle with
  | some res => some res
  | none =>
      let maxRun := countWhile
        (fun c => c ≠ ' ' && c ≠ '\t' && c ≠ '\n' && c.toNat > 31) afterWs
      match hrefTryLens afterWs maxRun with
      | some (k, al, ti) => some (ws + k + al, afterWs.take k, ti)
      | none => none
where
  /-- Greedy body of the angle-bracketed href: escapes or characters
  other than newline, angle brackets and backslash. -/
  angleInner : Nat → Str → Nat
    | 0, _ => 0
    | fuel + 1, u =>
        match u with
        | '\\' :: _ :: r => 2 + angleInner fuel r
        | c :: r =>
            if c = '\n' || c = '<' || c = '>' || c = '\\' then 0
            else 1 + angleInner fuel r
        | [] => 0

/-- Regex-level decomposition of an inline link match. -/
structure LinkM where
  rawLen : Nat
  label : Str
  href2 : Str
  title3 : Option Str
  isImage : Bool
deriving Repr

/-- The inline.link pattern: optional bang, bracketed label, the
parenthesized tail. -/
def linkMatch (s : Str) : Option LinkM :=
  let bang := s.head? = some '!'
  let b := if bang then 1 else 0
  match s.drop b with
  | '[' :: r =>
      let tailP := fun (t : Str) =>
        match t with
        | ']' :: '(' :: t2 =>
            (linkParen t2).map
              (fun (res : Nat × Str × Option Str) =>
                (2 + res.1, (res.2.1, res.2.2)))
        | _ => none
      match qLabelScan tailP (r.length + 1) r with
      | some (lab, tl, (h2, t3)) =>
          some ⟨b + 1 + lab + tl, r.take lab, h2, t3, bang⟩
      | none => none
  | _ => none

/-- outputLinkReplace: escaped brackets in the display text lose their
backslash. -/
def unescapeBrackets : Str → Str
  | '\\' :: c :: r =>
      if c = '[' || c = ']' then c :: unescapeBrackets r
      else '\\' :: unescapeBrackets (c :: r)
  | c :: r => c :: unescapeBrackets r
  | [] => []

/-- Post-processing of Tokenizer.link in the non-pedantic dialect:
angle-href validation, unbalanced-parenthesis truncation, trimming and
unescaping.  Returns the final raw length, href, title, and display
text. -/
def linkPost (s : Str) (m : LinkM) :
    Option (Str × Str × Option Str × Str) :=
  let n := jsTrim m.href2
  let angleCheck :=
    if n.head? = some '<' then
      if n.getLast? ≠ some '>' then none
      else
        let s0 := rtrimChar n.dropLast '\\'
        if (n.length - s0.length) % 2 = 0 then none else some (m, s.take m.rawLen)
    else
      match geParen m.href2 with
      | .unbalanced => none
      | .nofind => some (m, s.take m.rawLen)
      | .found idx =>
          let a := (if m.isImage then 5 else 4) + m.label.length + idx
          some ({ m with href2 := m.href2.take idx, title3 := some [] },
            jsTrim (s.take a))
  match angleCheck with
  | none => none
  | some (m2, raw) =>
      let i :=
        match m2.title3 with
        | some tg => if tg = [] then [] else (tg.drop 1).dropLast
        | none => []
      let r0 := jsTrim m2.href2
      let r1 :=
        if r0.head? = some '<' then (r0.drop 1).dropLast else r0
      let href := if r1 = [] then [] else unescapePunct r1
      let title := if i = [] then none else some (unescapePunct i)
      some (raw, href, title, unescapeBrackets m2.label)

/-- Regex-level decomposition of a reference link match. -/
structure RefM where
  len : Nat
  textGroup : Str
  keyGroup : Str
  isImage : Bool
  viaNolink : Bool
deriving Repr

/-- The ref group: the Q pattern with its lookahead guard. -/
def refGroupLen (t : Str) : Option Nat :=
  let w := countWhile isJsWs t
  if (t.drop w).head? = some ']' then none
  else
    let ll := defLabelLen (t.length + 1) t
    if ll = 0 then none else some ll

/-- inline.reflink then inline.nolink: a bracketed label with a bracketed
reference, or a single bracketed reference with an optional empty pair. -/
def reflinkCore (s : Str) : Option RefM :=
  let bang := s.head? = some '!'
  let b := if bang then 1 else 0
  match s.drop b with
  | '[' :: r =>
      let tailP := fun (t : Str) =>
        match t with
        | ']' :: '[' :: t2 =>
            match refGroupLen t2 with
            | some ll =>
                if (t2.drop ll).head? = some ']' then
                  some (2 + ll + 1, t2.take ll)
                else none
            | none => none
        | _ => none
      let viaRef :=
        match qLabelScan tailP (r.length + 1) r with
        | some (lab, tl, ref) =>
            some (⟨b + 1 + lab + tl, r.take lab, ref, bang, false⟩ : RefM)
        | none => none
      match viaRef with
      | some res => some res
      | none =>
          match refGroupLen r with
          | some ll =>
              if (r.drop ll).head? = some ']' then
                let base := b + 1 + ll + 1
                let len :=
                  if startsWith (r.drop (ll + 1)) ['[', ']'] then base + 2
                  else base
                some ⟨len, r.take ll, r.take ll, bang, true⟩
              else none
          | none => none
  | _ => none

/-! ### The three masking passes of Lexer.inlineTokens. -/

/-- The inner label of a mask hit: the characters after the last opening
bracket, less the final character. -/
def innerLabel (m : Str) : Str :=
  let ridx := (m.reverse.takeWhile (fun c => c ≠ '[')).length
  (m.drop (m.length - ridx)).dropLast

/-- A reflinkSearch hit at a position: the reflink alternative, or the
nolink alternative not followed by an opening parenthesis. -/
def reflinkMaskAt (s : Str) : Option Nat :=
  match reflinkCore s with
  | none => none
  | some m =>
      if m.viaNolink then
        if (s.drop m.len).head? = some '(' then none else some m.len
      else some m.len

/-- The reflinkSearch masking loop: each hit whose inner label is a known
key is overwritten by a bracketed filler of the same length. -/
def maskReflinks (keys : List Str) : Nat → Str → Str
  | 0, s => s
  | fuel + 1, s =>
      match s with
      | [] => []
      | c :: r =>
          match reflinkMaskAt s with
          | some len =>
              let m := s.take len
              if keys.any (fun k => k = innerLabel m) then
                ('[' :: List.replicate (len - 2) 'a') ++ [']'] ++
                  maskReflinks keys fuel (s.drop len)
              else m ++ maskReflinks keys fuel (s.drop len)
          | none => c :: maskReflinks keys fuel r

/-- The anyPunctuation masking: an escaped punctuation pair becomes two
plus signs. -/
def maskEscapes : Str → Str
  | '\\' :: c :: r =>
      if isPunctSymCh c then '+' :: '+' :: maskEscapes r
      else '\\' :: maskEscapes (c :: r)
  | c :: r => c :: maskEscapes r
  | [] => []

/-- Greedy inner body of the one-level nested group of blockSkip. -/
def bsInner : Nat → Str → Nat
  | 0, _ => 0
  | fuel + 1, t =>
      match t with
      | '\\' :: _ :: r => 2 + bsInner fuel r
      | c :: r =>
          if c = '(' || c = ')' || c = '\\' then 0 else 1 + bsInner fuel r
      | [] => 0

/-- Body of the parenthesized part of blockSkip up to the closer. -/
def bsBody : Nat → Str → Option Nat
  | 0, _ => none
  | fuel + 1, t =>
      match t with
      | ')' :: _ => some 0
      | '\\' :: _ :: r => (bsBody fuel r).map (fun n => n + 2)
      | '(' :: r =>
          let il := bsInner (r.length + 1) r
          (match r.drop il with
           | ')' :: r2 => (bsBody fuel r2).map (fun n => n + il + 2)
           | _ => none)
      | c :: r =>
          if c = '(' || c = ')' || c = '\\' then none
          else (bsBody fuel r).map (fun n => n + 1)
      | [] => none

/-- A blockSkip hit at a position: a complete inline link, a code span,
or an angle-bracketed span. -/
def blockSkipAt (s : Str) : Option Nat :=
  match s with
  | '[' :: r =>
      let lbl := r.takeWhile (fun c => c ≠ '[' && c ≠ ']')
      (match r.drop lbl.length with
       | ']' :: '(' :: t2 =>
           (bsBody (t2.length + 1) t2).map
             (fun bl => 1 + lbl.length + 2 + bl + 1)
       | _ => none)
  | '<' :: r =>
      (match r.head? with
       | some c =>
           if c = ' ' then none
           else
             let inner := r.takeWhile (fun d => d ≠ '<' && d ≠ '>')
             match r.drop inner.length with
             | '>' :: _ => some (inner.length + 2)
             | _ => none
       | none => none)
  | c :: r =>
      if c = btickCh then
        let inner := r.takeWhile (fun d => d ≠ btickCh)
        match r.drop inner.length with
        | _ :: _ => some (inner.length + 2)
        | [] => none
      else none
  | [] => none

/-- The blockSkip masking loop. -/
def maskBlockSkip : Nat → Str → Str
  | 0, s => s
  | fuel + 1, s =>
      match s with
      | [] => []
      | c :: r =>
          match blockSkipAt s with
          | some len =>
              ('[' :: List.replicate (len - 2) 'a') ++ [']'] ++
                maskBlockSkip fuel (s.drop len)
          | none => c :: maskBlockSkip fuel r

/-! ## Helpers shared by the lexer engine. -/

/-- carriageReturn preprocessing of Lexer.lex. -/
def replaceCR : Str → Str
  | '\x0d' :: '\n' :: r => '\n' :: replaceCR r
  | '\x0d' :: r => '\n' :: replaceCR r
  | c :: r => c :: replaceCR r
  | [] => []

/-- Pedantic preprocessing of Lexer.blockTokens: tabs to four spaces,
space-only lines emptied. -/
def pedanticPre (s : Str) : Str :=
  joinNl ((splitLines (tabsToSpaces s)).map (fun l =>
    if l ≠ [] && l.all (fun c => c = ' ') then [] else l))

/-- Whether a token is a paragraph or a block text token (the merge
targets of the block loop). -/
def Tok.isParaOrText : Tok → Bool
  | .paragraph .. => true
  | .textB .. => true
  | _ => false

/-- Whether a token is a block text token. -/
def Tok.isTextB : Tok → Bool
  | .textB .. => true
  | _ => false

/-- The text field of a token, empty when absent. -/
def Tok.textF : Tok → Str
  | .codeB _ _ x _ => x
  | .heading _ _ x _ => x
  | .blockquote _ x _ => x
  | .listItem _ _ _ _ x _ => x
  | .htmlB _ _ x => x
  | .htmlI _ _ _ x => x
  | .paragraph _ x _ => x
  | .textB _ x _ => x
  | .textI _ x _ => x
  | .escapeT _ x => x
  | .linkT _ _ _ x _ => x
  | .imageT _ _ _ x _ => x
  | .strong _ x _ => x
  | .em _ x _ => x
  | .codespan _ x => x
  | .delT _ x _ => x
  | _ => []

/-- Merge raw and text into a paragraph or block text token: the raw
gains a separating newline only when it does not already end in one, the
text always gains one. -/
def Tok.mergeBlock (s : Tok) (addRaw addText : Str) : Tok :=
  let sep : Str := if s.raw.getLast? = some '\n' then [] else ['\n']
  match s with
  | .paragraph raw text ts =>
      .paragraph (raw ++ sep ++ addRaw) (text ++ '\n' :: addText) ts
  | .textB raw text ts =>
      .textB (raw ++ sep ++ addRaw) (text ++ '\n' :: addText) ts
  | t => t

/-- Replace the last element of a list. -/
def updateLast {α : Type} (f : α → α) : List α → List α
  | [] => []
  | [a] => [f a]
  | a :: r => a :: updateLast f r

/-- Digits to a number (the unary plus on the ordered-list start). -/
def digitsToNat (s : Str) : Nat :=
  s.foldl (fun acc c => acc * 10 + (c.toNat - 48)) 0

/-- The normal-dialect paragraph interrupts (no lheading, no table) used
inside the blockquote pattern. -/
def paragraphInterruptN (t : Str) : Bool :=
  (hrLen t).isSome || headingLA t || blockquoteLA t || fencesLA t ||
  listLA t || htmlLA t || spacesNlLA t

/-- Continuation length of a normal-dialect paragraph. -/
def paraContN : Nat → Str → Nat
  | 0, _ => 0
  | fuel + 1, s =>
      match s with
      | '\n' :: r =>
          if paragraphInterruptN r then 0
          else
            let line := firstLine r
            if line = [] then 0
            else 1 + line.length + paraContN fuel (r.drop line.length)
      | _ => 0

/-- Match length of a normal-dialect paragraph. -/
def nParagraphLen (s : Str) : Option Nat :=
  let l1 := firstLine s
  if l1 = [] then none
  else some (l1.length + paraContN (s.length + 1) (s.drop l1.length))

/-- One repetition of the blockquote pattern: marker, optional space,
then an embedded normal paragraph or the rest of the line, then the line
end. -/
def bqRep (e : Str) : Option Nat :=
  let ind := countWhile (fun c => c = ' ') e
  if ind > 3 then none
  else
    match e.drop ind with
    | '>' :: r =>
        let sp := if r.head? = some ' ' then 1 else 0
        let r2 := r.drop sp
        let bodyLen :=
          match nParagraphLen r2 with
          | some pl => pl
          | none => (firstLine r2).length
        let base := ind + 1 + sp + bodyLen
        match e.drop base with
        | '\n' :: _ => some (base + 1)
        | [] => some base
        | _ => none
    | _ => none

/-- Greedy repetitions of the blockquote pattern, at least one. -/
def bqMatchLen : Nat → Str → Nat
  | 0, _ => 0
  | fuel + 1, e =>
      match bqRep e with
      | none => 0
      | some n => if n = 0 then 0 else n + bqMatchLen fuel (e.drop n)

/-- The first batch of lines a blockquote body absorbs: lines up to the
first non-marker line after a marker line. -/
def bqBatch (seenMarker : Bool) : List Str → List Str × List Str
  | [] => ([], [])
  | l :: rest =>
      if blockquoteLA l then
        let (a, n) := bqBatch true rest
        (l :: a, n)
      else if !seenMarker then
        let (a, n) := bqBatch false rest
        (l :: a, n)
      else ([], l :: rest)

/-- blockquoteSetextReplace on a non-first line: a setext underline with
at most three leading spaces is indented by four spaces. -/
def bqSetextLine (l : Str) : Str :=
  let sp := countWhile (fun c => c = ' ') l
  if sp > 3 then l
  else
    let l1 := l.drop sp
    let isUnd := fun (ch : Char) =>
      let run := countWhile (fun c => c = ch) l1
      run ≥ 1 && (l1.drop run).all (fun c => c = ' ')
    if isUnd '=' || isUnd '-' then
      [' ', ' ', ' ', ' '] ++ l1
    else l

/-- blockquoteSetextReplace2 on any line: strip up to three spaces, the
marker, and one optional space or tab. -/
def bqStripMarker (l : Str) : Str :=
  let sp := countWhile (fun c => c = ' ') l
  if sp > 3 then l
  else
    match l.drop sp with
    | '>' :: r =>
        match r with
        | c :: r2 => if isSpTab c then r2 else r
        | [] => []
    | _ => l

/-- Both blockquote text replacements over a batch of lines. -/
def bqText (lines : List Str) : Str :=
  let replaced :=
    match lines with
    | [] => []
    | first :: rest => first :: rest.map bqSetextLine
  joinNl (replaced.map bqStripMarker)

/-- startATag test. -/
def startATag (raw : Str) : Bool := startsWithCI raw ("<a ").data

/-- endATag test. -/
def endATag (raw : Str) : Bool := startsWithCI raw ("</a>").data

/-- startPreScriptTag test. -/
def startPreScript (raw : Str) : Bool :=
  match raw with
  | '<' :: r =>
      match matchNameAlt ((["pre", "code", "kbd", "script"]).map String.data)
          (fun t => t.head?.elim false (fun c => isJsWs c || c = '>')) r with
      | some _ => true
      | none => false
  | _ => false

/-- endPreScriptTag test. -/
def endPreScript (raw : Str) : Bool :=
  match raw with
  | '<' :: '/' :: r =>
      match matchNameAlt ((["pre", "code", "kbd", "script"]).map String.data)
          (fun t => t.head?.elim false (fun c => isJsWs c || c = '>')) r with
      | some _ => true
      | none => false
  | _ => false

/-- pedantic listReplaceNesting on a line: one to four leading spaces
backed by whole four-space groups before content shrink to two. -/
def pedanticNest (l : Str) : Str :=
  let sp := countWhile (fun c => c = ' ') l
  if sp = 0 || l.drop sp = [] then l
  else
    let pick := fun (m : Nat) => m ≤ 4 && m ≤ sp && (sp - m) % 4 = 0
    if pick 4 then [' ', ' '] ++ l.drop 4
    else if pick 3 then [' ', ' '] ++ l.drop 3
    else if pick 2 then [' ', ' '] ++ l.drop 2
    else if pick 1 then [' ', ' '] ++ l.drop 1
    else l

/-- Per-item record of the list item loop. -/
structure ItemRec where
  raw : Str
  task : Bool
  checked : Bool
  text : Str
deriving Repr

/-- The inner line loop of Tokenizer.list: lazy continuation lines of one
item.  Arguments: remaining source, previous content line, blank-seen
flag, item raw, item content; returns their final values. -/
def listLineLoop (opts : MOptions) (g : Nat) :
    Nat → Str → Str → Bool → Str → Str → (Str × Str × Bool × Str × Str)
  | 0, e, f, x, p, c => (e, f, x, p, c)
  | fuel + 1, e, f, x, p, c =>
      if e = [] then (e, f, x, p, c)
      else
        let Z := firstLine e
        let k := if opts.pedantic then pedanticNest Z else Z
        let A := if opts.pedantic then k else tabsToSpaces k
        if fencesBeginTest g k || headingBeginTest g k ||
            htmlBeginTest g k || nextBulletTest g k || hrIndentTest g k then
          (e, f, x, p, c)
        else
          let contIndent :=
            match searchNonSpace A with
            | some i => i ≥ g
            | none => false
          let blankK := jsTrim k = []
          let step := fun (c' : Str) =>
            let x' := if !x && blankK then true else x
            listLineLoop opts g fuel (e.drop (Z.length + 1)) (A.drop g)
              x' (p ++ Z ++ ['\n']) c'
          if contIndent || blankK then step (c ++ '\n' :: A.drop g)
          else
            let fBreak :=
              x ||
                (match searchNonSpace (tabsToSpaces f) with
                 | some i => i ≥ 4
                 | none => false) ||
                fencesBeginTest g f || headingBeginTest g f ||
                hrIndentTest g f
            if fBreak then (e, f, x, p, c)
            else step (c ++ '\n' :: k)

/-- The outer item loop of Tokenizer.list.  Returns the item records,
the ends-with-blank-line flag outcome for looseness, and the remaining
source. -/
def listItemLoop (opts : MOptions) (isOrd : Bool) (marker : Char)
    (pedAny : Bool) :
    Nat → Str → Bool → Bool → List ItemRec → (List ItemRec × Bool × Str)
  | 0, e, _, lo, acc => (acc, lo, e)
  | fuel + 1, e, o, lo, acc =>
      if e = [] then (acc, lo, e)
      else
        match itemExecM isOrd marker pedAny e with
        | none => (acc, lo, e)
        | some (t1len, fullLen) =>
            if (hrLen e).isSome then (acc, lo, e)
            else
              let p0 := e.take fullLen
              let e1 := e.drop fullLen
              let t2 := (e.take fullLen).drop t1len
              let f0 := expandLeadTabs (firstLine t2)
              let k0 := firstLine e1
              let x0 : Bool := jsTrim f0 = []
              let gc :=
                if opts.pedantic then (2, jsTrimStart f0)
                else if x0 then (t1len + 1, ([] : Str))
                else
                  let g0 :=
                    match searchNonSpace t2 with
                    | some i => i
                    | none => 0
                  let g1 := if g0 > 4 then 1 else g0
                  (g1 + t1len, f0.drop g1)
              let g := gc.1
              let c0 := gc.2
              let blankAbsorb := x0 && isBlankLine k0
              let p1 := if blankAbsorb then p0 ++ k0 ++ ['\n'] else p0
              let e2 := if blankAbsorb then e1.drop (k0.length + 1) else e1
              let (e3, _, _, p2, c2) :=
                if blankAbsorb then (e2, f0, x0, p1, c0)
                else listLineLoop opts g (e2.length + 1) e2 f0 x0 p1 c0
              let lo' := if lo then lo else o
              let o' := if !lo && !o then doubleBlankEnd p2 else o
              let taskM := if opts.gfm then listIsTask c2 else none
              let c3 :=
                match taskM with
                | some _ => stripTask c2
                | none => c2
              let item : ItemRec :=
                ⟨p2, taskM.isSome, taskM.getD false, c3⟩
              listItemLoop opts isOrd marker pedAny fuel e3 o' lo'
                (acc ++ [item])

/-! ## The lexer engine.

All mutually recursive parts of the Lexer and Tokenizer classes
(blockTokens, the blockquote and list tokenizers, inlineTokens, and the
inline-queue drain) are combined into one function structurally recursive
on a fuel counter, so that every run reduces definitionally.  Errors are
an explicit result: the infinite-loop guard in non-silent mode, and fuel
exhaustion, which no theorem below treats as an engine behaviour. -/

/-- Failure modes of an engine run. -/
inductive LexErr where
  | infiniteLoop (c : Char)
  | fuelOut
deriving Repr, DecidableEq

/-- A call into the engine.  The blockLoopB and blockLoopL calls are the
continuations of one block-loop iteration after the blockquote
respectively list rule declined, so that the recursive rules keep the
source order of the rule chain. -/
inductive ECall where
  | blockTokens (e : Str) (toks : List Tok) (lastParaClipped : Bool)
      (st : LexState) (links : Links)
  | blockLoop (e : Str) (toks : List Tok) (lastParaClipped : Bool)
      (st : LexState) (links : Links)
  | blockLoopB (e : Str) (toks : List Tok) (lastParaClipped : Bool)
      (st : LexState) (links : Links)
  | blockLoopL (e : Str) (toks : List Tok) (lastParaClipped : Bool)
      (st : LexState) (links : Links)
  | listCall (e : Str) (st : LexState) (links : Links)
  | listItems (items : List ItemRec) (acc : List Tok) (loose : Bool)
      (st : LexState) (links : Links)
  | bqCall (e : Str) (st : LexState) (links : Links)
  | bqLoop (n : List Str) (r : Str) (i : Str) (s : List Tok)
      (st : LexState) (links : Links)
  | inlineTokens (e : Str) (st : LexState) (links : Links)
  | inlineLoop (e : Str) (masked : Str) (prev : Str) (keep : Bool)
      (toks : List Tok) (st : LexState) (links : Links)
  | inlineCont (e : Str) (masked : Str) (prev0 : Str)
      (toks : List Tok) (st : LexState) (links : Links)
  | inlineCont2 (e : Str) (masked : Str) (prev0 : Str)
      (toks : List Tok) (st : LexState) (links : Links)
  | inlineCont3 (e : Str) (masked : Str) (prev0 : Str)
      (toks : List Tok) (st : LexState) (links : Links)
  | inlineCont4 (e : Str) (masked : Str) (prev0 : Str)
      (toks : List Tok) (st : LexState) (links : Links)
  | inlineCont5 (e : Str) (masked : Str) (prev0 : Str)
      (toks : List Tok) (st : LexState) (links : Links)
  | fillToks (ts : List Tok) (st : LexState) (links : Links)
  | fillCells (cells : List (Str × List Tok)) (st : LexState) (links : Links)
  | fillRows (rows : List (List (Str × List Tok))) (st : LexState)
      (links : Links)

/-- The result record of an engine call; unused fields keep their
defaults. -/
structure EOut where
  toks : List Tok := []
  tok : Option Tok := none
  cells : List (Str × List Tok) := []
  rows : List (List (Str × List Tok)) := []
  looseF : Bool := false
  st : LexState := {}
  links : Links := []
deriving Repr

/-- Whether a token is a space token. -/
def Tok.isSpace : Tok → Bool
  | .space _ => true
  | _ => false

/-- Whether a token is a paragraph token. -/
def Tok.isParagraph : Tok → Bool
  | .paragraph .. => true
  | _ => false

/-- Whether a token is an inline text token. -/
def Tok.isTextI : Tok → Bool
  | .textI .. => true
  | _ => false

/-- Merge an inline text token into a preceding one. -/
def Tok.mergeTextI (u : Tok) (addRaw addText : Str) : Tok :=
  match u with
  | .textI raw text esc => .textI (raw ++ addRaw) (text ++ addText) esc
  | t => t

/-- Set the loose flag of a list item token. -/
def Tok.setLoose (b : Bool) : Tok → Tok
  | .listItem raw ta ch _ text ts => .listItem raw ta ch b text ts
  | t => t

/-- Engine results. -/
abbrev ERes := Except LexErr EOut

/-- Apply the first matching extension rule. -/
def extFirst (exts : List (Str → Option Tok)) (e : Str) : Option Tok :=
  match exts with
  | [] => none
  | f :: rest =>
      match f e with
      | some t => some t
      | none => extFirst rest e

/-- An overridable rule: the override replaces the built-in. -/
def ovOr (ov : Option (Str → Option Tok)) (builtin : Str → Option Tok)
    (e : Str) : Option Tok :=
  match ov with
  | some f => f e
  | none => builtin e

/-- The infinite-loop guard of inlineTokens. -/
def inlineFail (cfg : EngineCfg) (e : Str) (toks : List Tok) (st : LexState)
    (links : Links) : ERes :=
  match e with
  | c :: _ =>
      if cfg.opts.silent then
        .ok { toks := toks, st := st, links := links }
      else .error (.infiniteLoop c)
  | [] => .ok { toks := toks, st := st, links := links }

/-- The engine.  Every recursive step spends one unit of fuel. -/
def engine (cfg : EngineCfg) : Nat → ECall → ERes
  | 0, _ => .error .fuelOut
  | fuel + 1, call =>
    match call with
    | .blockTokens e toks n st links =>
        let e' := if cfg.opts.pedantic then pedanticPre e else e
        engine cfg fuel (.blockLoop e' toks n st links)
    | .blockLoop e t n st links =>
        if e = [] then
          .ok { toks := t, st := { st with top := true }, links }
        else
          match extFirst cfg.extBlock e with
          | some r =>
              engine cfg fuel
                (.blockLoop (e.drop r.raw.length) (t ++ [r]) n st links)
          | none =>
          match ovOr cfg.ov.spaceO spaceExec e with
          | some r =>
              let e' := e.drop r.raw.length
              if r.raw.length = 1 && !t.isEmpty then
                engine cfg fuel (.blockLoop e'
                  (updateLast (fun s => s.withRaw (s.raw ++ ['\n'])) t)
                  n st links)
              else engine cfg fuel (.blockLoop e' (t ++ [r]) n st links)
          | none =>
          match ovOr cfg.ov.codeO (codeExec cfg.opts) e with
          | some r =>
              let e' := e.drop r.raw.length
              (match t.getLast? with
               | some s =>
                   if s.isParaOrText then
                     engine cfg fuel (.blockLoop e'
                       (updateLast (fun s => s.mergeBlock r.raw r.textF) t)
                       n st links)
                   else engine cfg fuel (.blockLoop e' (t ++ [r]) n st links)
               | none =>
                   engine cfg fuel (.blockLoop e' (t ++ [r]) n st links))
          | none =>
          match ovOr cfg.ov.fencesO fencesExec e with
          | some r =>
              engine cfg fuel
                (.blockLoop (e.drop r.raw.length) (t ++ [r]) n st links)
          | none =>
          match ovOr cfg.ov.headingO (headingExec cfg.opts) e with
          | some r =>
              engine cfg fuel
                (.blockLoop (e.drop r.raw.length) (t ++ [r]) n st links)
          | none =>
          match ovOr cfg.ov.hrO hrExec e with
          | some r =>
              engine cfg fuel
                (.blockLoop (e.drop r.raw.length) (t ++ [r]) n st links)
          | none =>
          match cfg.ov.blockquoteO with
          | some f =>
              (match f e with
               | some r =>
                   engine cfg fuel
                     (.blockLoop (e.drop r.raw.length) (t ++ [r]) n st links)
               | none => engine cfg fuel (.blockLoopB e t n st links))
          | none =>
              match engine cfg fuel (.bqCall e st links) with
              | .error err => .error err
              | .ok out =>
                  match out.tok with
                  | some r =>
                      engine cfg fuel (.blockLoop (e.drop r.raw.length)
                        (t ++ [r]) n out.st out.links)
                  | none => engine cfg fuel (.blockLoopB e t n out.st out.links)
    | .blockLoopB e t n st links =>
        match cfg.ov.listO with
        | some f =>
            (match f e with
             | some r =>
                 engine cfg fuel
                   (.blockLoop (e.drop r.raw.length) (t ++ [r]) n st links)
             | none => engine cfg fuel (.blockLoopL e t n st links))
        | none =>
            match engine cfg fuel (.listCall e st links) with
            | .error err => .error err
            | .ok out =>
                match out.tok with
                | some r =>
                    engine cfg fuel (.blockLoop (e.drop r.raw.length)
                      (t ++ [r]) n out.st out.links)
                | none => engine cfg fuel (.blockLoopL e t n out.st out.links)
    | .blockLoopL e t n st links =>
        match ovOr cfg.ov.htmlO htmlExec e with
        | some r =>
            engine cfg fuel
              (.blockLoop (e.drop r.raw.length) (t ++ [r]) n st links)
        | none =>
        match ovOr cfg.ov.defO defExec e with
        | some r =>
            let e' := e.drop r.raw.length
            (match t.getLast? with
             | some s =>
                 if s.isParaOrText then
                   engine cfg fuel (.blockLoop e'
                     (updateLast (fun s => s.mergeBlock r.raw r.raw) t)
                     n st links)
                 else
                   (match r with
                    | .linkDef _ tag href title =>
                        if (lookupLink links tag).isSome then
                          engine cfg fuel (.blockLoop e' t n st links)
                        else
                          engine cfg fuel (.blockLoop e' (t ++ [r]) n st
                            (insertLink links tag ⟨href, title⟩))
                    | _ =>
                        engine cfg fuel (.blockLoop e' (t ++ [r]) n st links))
             | none =>
                 (match r with
                  | .linkDef _ tag href title =>
                      if (lookupLink links tag).isSome then
                        engine cfg fuel (.blockLoop e' t n st links)
                      else
                        engine cfg fuel (.blockLoop e' (t ++ [r]) n st
                          (insertLink links tag ⟨href, title⟩))
                  | _ =>
                      engine cfg fuel (.blockLoop e' (t ++ [r]) n st links)))
        | none =>
        match (if cfg.opts.gfm then ovOr cfg.ov.tableO tableExec e
               else cfg.ov.tableO.elim none (fun f => f e)) with
        | some r =>
            engine cfg fuel
              (.blockLoop (e.drop r.raw.length) (t ++ [r]) n st links)
        | none =>
        match ovOr cfg.ov.lheadingO lheadingExec e with
        | some r =>
            engine cfg fuel
              (.blockLoop (e.drop r.raw.length) (t ++ [r]) n st links)
        | none =>
        match (if st.top then ovOr cfg.ov.paragraphO paragraphExec e
               else none) with
        | some r =>
            let e' := e.drop r.raw.length
            (match t.getLast? with
             | some s =>
                 if n && s.isParagraph then
                   engine cfg fuel (.blockLoop e'
                     (updateLast (fun s => s.mergeBlock r.raw r.textF) t)
                     false st links)
                 else
                   engine cfg fuel (.blockLoop e' (t ++ [r]) false st links)
             | none =>
                 engine cfg fuel (.blockLoop e' (t ++ [r]) false st links))
        | none =>
        match ovOr cfg.ov.textO textExec e with
        | some r =>
            let e' := e.drop r.raw.length
            (match t.getLast? with
             | some s =>
                 if s.isTextB then
                   engine cfg fuel (.blockLoop e'
                     (updateLast (fun s => s.mergeBlock r.raw r.textF) t)
                     n st links)
                 else
                   engine cfg fuel (.blockLoop e' (t ++ [r]) n st links)
             | none =>
                 engine cfg fuel (.blockLoop e' (t ++ [r]) n st links))
        | none =>
        match e with
        | c :: _ =>
            if cfg.opts.silent then
              .ok { toks := t, st := { st with top := true }, links }
            else .error (.infiniteLoop c)
        | [] => .ok { toks := t, st := { st with top := true }, links }
    | .listCall e st links =>
        match listGate e with
        | none => .ok { tok := none, st, links }
        | some bull =>
            let isOrd := bull.length > 1
            let startN :=
              if isOrd then some (digitsToNat bull.dropLast) else none
            let marker := (bull.getLast?).getD '*'
            let pedAny := cfg.opts.pedantic && !isOrd
            let res := listItemLoop cfg.opts isOrd marker pedAny
              (e.length + 1) e false false []
            let items0 := res.1
            let loose0 := res.2.1
            match items0.getLast? with
            | none => .ok { tok := none, st, links }
            | some _ =>
                let items1 := updateLast
                  (fun it =>
                    (⟨jsTrimEnd it.raw, it.task, it.checked,
                      jsTrimEnd it.text⟩ : ItemRec)) items0
                let listRaw := jsTrimEnd (items0.map (fun it => it.raw)).flatten
                match engine cfg fuel (.listItems items1 [] loose0 st links) with
                | .error err => .error err
                | .ok out =>
                    let itemsF :=
                      if out.looseF then out.toks.map (Tok.setLoose true)
                      else out.toks
                    .ok { tok := some (.list listRaw isOrd startN out.looseF
                            itemsF),
                          st := out.st, links := out.links }
    | .listItems items acc loose st links =>
        match items with
        | [] => .ok { toks := acc, looseF := loose, st, links }
        | it :: rest =>
            match engine cfg fuel (.blockTokens it.text [] false
                { st with top := false } links) with
            | .error err => .error err
            | .ok out =>
                let loose' :=
                  if loose then loose
                  else
                    let sp := out.toks.filter Tok.isSpace
                    sp.length > 0 && sp.any (fun f => anyLineTest f.raw)
                let itemTok := Tok.listItem it.raw it.task it.checked false
                  it.text out.toks
                engine cfg fuel (.listItems rest (acc ++ [itemTok]) loose'
                  out.st out.links)
    | .bqCall e st links =>
        let t0 := bqMatchLen (e.length + 1) e
        if t0 = 0 then .ok { tok := none, st, links }
        else
          let lines := splitLines (rtrimChar (e.take t0) '\n')
          engine cfg fuel (.bqLoop lines [] [] [] st links)
    | .bqLoop nLines r i s st links =>
        if nLines = [] then
          .ok { tok := some (.blockquote r i s), st, links }
        else
          let (a, rest) := bqBatch false nLines
          let p := joinNl a
          let c := bqText a
          let r' := if r = [] then p else r ++ '\n' :: p
          let i' := if i = [] then c else i ++ '\n' :: c
          let fTop := st.top
          match engine cfg fuel
              (.blockTokens c s true { st with top := true } links) with
          | .error err => .error err
          | .ok out =>
              let st' := { out.st with top := fTop }
              let s' := out.toks
              let links' := out.links
              if rest = [] then
                .ok { tok := some (.blockquote r' i' s'), st := st',
                      links := links' }
              else
                match s'.getLast? with
                | some (Tok.codeB ..) =>
                    .ok { tok := some (.blockquote r' i' s'), st := st',
                          links := links' }
                | some (Tok.blockquote kraw ktext _) =>
                    let g := kraw ++ '\n' :: joinNl rest
                    (match engine cfg fuel (.bqCall g st' links') with
                     | .error err => .error err
                     | .ok out2 =>
                         match out2.tok with
                         | some T =>
                             let s2 := updateLast (fun _ => T) s'
                             let r2 := (r'.take (r'.length - kraw.length)) ++
                               T.raw
                             let i2 := (i'.take (i'.length - ktext.length)) ++
                               T.textF
                             .ok { tok := some (.blockquote r2 i2 s2),
                                   st := out2.st, links := out2.links }
                         | none =>
                             .ok { tok := some (.blockquote r' i' s'),
                                   st := out2.st, links := out2.links })
                | some (Tok.list kraw _ _ _ _) =>
                    let g := kraw ++ '\n' :: joinNl rest
                    (match engine cfg fuel (.listCall g st' links') with
                     | .error err => .error err
                     | .ok out2 =>
                         match out2.tok with
                         | some T =>
                             let s2 := updateLast (fun _ => T) s'
                             let r2 := (r'.take (r'.length - kraw.length)) ++
                               T.raw
                             let i2 := (i'.take (i'.length - kraw.length)) ++
                               T.raw
                             let rest2 := splitLines (g.drop T.raw.length)
                             engine cfg fuel
                               (.bqLoop rest2 r2 i2 s2 out2.st out2.links)
                         | none =>
                             .ok { tok := some (.blockquote r' i' s'),
                                   st := out2.st, links := out2.links })
                | _ => engine cfg fuel (.bqLoop rest r' i' s' st' links')
    | .inlineTokens e st links =>
        let keys := links.map Prod.fst
        let n0 :=
          if keys.length > 0 then maskReflinks keys (e.length + 1) e else e
        let n1 := maskEscapes n0
        let n2 := maskBlockSkip (n1.length + 1) n1
        engine cfg fuel (.inlineLoop e n2 [] false [] st links)
    | .inlineLoop e masked prev keep toks st links =>
        if e = [] then .ok { toks := toks, st := st, links := links }
        else
          let prev0 := if keep then prev else []
          let push := fun (o : Tok) (st2 : LexState) (links2 : Links) =>
            engine cfg fuel (.inlineLoop (e.drop o.raw.length) masked prev0
              false (toks ++ [o]) st2 links2)
          match extFirst cfg.extInline e with
          | some o => push o st links
          | none =>
          match ovOr cfg.ov.escapeO escapeExec e with
          | some o => push o st links
          | none =>
          match cfg.ov.tagO with
          | some f =>
              (match f e with
               | some o => push o st links
               | none => engine cfg fuel (.inlineCont e masked prev0 toks
                   st links))
          | none =>
              match inlTagLen e with
              | some len =>
                  let raw := e.take len
                  let inL :=
                    if !st.inLink && startATag raw then true
                    else if st.inLink && endATag raw then false
                    else st.inLink
                  let inR :=
                    if !st.inRawBlock && startPreScript raw then true
                    else if st.inRawBlock && endPreScript raw then false
                    else st.inRawBlock
                  push (.htmlI raw inL inR raw)
                    { st with inLink := inL, inRawBlock := inR } links
              | none =>
                  engine cfg fuel (.inlineCont e masked prev0 toks st links)
    | .inlineCont e masked prev0 toks st links =>
        let push := fun (o : Tok) (st2 : LexState) (links2 : Links) =>
          engine cfg fuel (.inlineLoop (e.drop o.raw.length) masked prev0
            false (toks ++ [o]) st2 links2)
        let next := fun (_ : Unit) =>
          engine cfg fuel (.inlineCont2 e masked prev0 toks st links)
        match cfg.ov.linkO with
        | some f =>
            (match f e with
             | some o => push o st links
             | none => next ())
        | none =>
            match linkMatch e with
            | some m =>
                (match linkPost e m with
                 | some (raw, href, title, text) =>
                     (match engine cfg fuel (.inlineTokens text
                         { st with inLink := true } links) with
                      | .error err => .error err
                      | .ok out =>
                          let tokn :=
                            if m.isImage then
                              Tok.imageT raw href title text out.toks
                            else Tok.linkT raw href title text out.toks
                          push tokn { out.st with inLink := false } out.links)
                 | none => next ())
            | none => next ()
    | .inlineCont2 e masked prev0 toks st links =>
        let push := fun (o : Tok) (st2 : LexState) (links2 : Links) =>
          engine cfg fuel (.inlineLoop (e.drop o.raw.length) masked prev0
            false (toks ++ [o]) st2 links2)
        let next := fun (_ : Unit) =>
          engine cfg fuel (.inlineCont3 e masked prev0 toks st links)
        match cfg.ov.reflinkO with
        | some f =>
            (match f e with
             | some o => push o st links
             | none => next ())
        | none =>
            match reflinkCore e with
            | some m =>
                let key := lowerStr (collapseWs m.keyGroup)
                (match lookupLink links key with
                 | some ref =>
                     let text := unescapeBrackets m.textGroup
                     (match engine cfg fuel (.inlineTokens text
                         { st with inLink := true } links) with
                      | .error err => .error err
                      | .ok out =>
                          let title :=
                            match ref.title with
                            | some ti => if ti = [] then none else some ti
                            | none => none
                          let tokn :=
                            if m.isImage then
                              Tok.imageT (e.take m.len) ref.href title text
                                out.toks
                            else
                              Tok.linkT (e.take m.len) ref.href title text
                                out.toks
                          push tokn { out.st with inLink := false } out.links)
                 | none =>
                     let s0 := e.take 1
                     let o := Tok.textI s0 s0 false
                     (match toks.getLast? with
                      | some u =>
                          if u.isTextI then
                            engine cfg fuel (.inlineLoop (e.drop 1) masked
                              prev0 false
                              (updateLast (fun u => u.mergeTextI s0 s0) toks)
                              st links)
                          else push o st links
                      | none => push o st links))
            | none => next ()
    | .inlineCont3 e masked prev0 toks st links =>
        let push := fun (o : Tok) (st2 : LexState) (links2 : Links) =>
          engine cfg fuel (.inlineLoop (e.drop o.raw.length) masked prev0
            false (toks ++ [o]) st2 links2)
        let next := fun (_ : Unit) =>
          engine cfg fuel (.inlineCont4 e masked prev0 toks st links)
        match cfg.ov.emStrongO with
        | some f =>
            (match f e with
             | some o => push o st links
             | none => next ())
        | none =>
            match emStrongCore e masked prev0 with
            | some (rawLen, isEm) =>
                let k := e.take rawLen
                let inner :=
                  if isEm then (k.drop 1).dropLast
                  else ((k.drop 2).dropLast).dropLast
                (match engine cfg fuel (.inlineTokens inner st links) with
                 | .error err => .error err
                 | .ok out =>
                     let tokn :=
                       if isEm then Tok.em k inner out.toks
                       else Tok.strong k inner out.toks
                     push tokn out.st out.links)
            | none => next ()
    | .inlineCont4 e masked prev0 toks st links =>
        let push := fun (o : Tok) (st2 : LexState) (links2 : Links) =>
          engine cfg fuel (.inlineLoop (e.drop o.raw.length) masked prev0
            false (toks ++ [o]) st2 links2)
        match ovOr cfg.ov.codespanO codespanExec e with
        | some o => push o st links
        | none =>
        match ovOr cfg.ov.brO (brExec cfg.opts.breaks) e with
        | some o => push o st links
        | none =>
        match cfg.ov.delO with
        | some f =>
            (match f e with
             | some o => push o st links
             | none => engine cfg fuel (.inlineCont5 e masked prev0 toks
                 st links))
        | none =>
            if cfg.opts.gfm then
              match delExec e with
              | some (len, body) =>
                  (match engine cfg fuel (.inlineTokens body st links) with
                   | .error err => .error err
                   | .ok out =>
                       push (Tok.delT (e.take len) body out.toks) out.st
                         out.links)
              | none =>
                  engine cfg fuel (.inlineCont5 e masked prev0 toks st links)
            else engine cfg fuel (.inlineCont5 e masked prev0 toks st links)
    | .inlineCont5 e masked prev0 toks st links =>
        let push := fun (o : Tok) (st2 : LexState) (links2 : Links) =>
          engine cfg fuel (.inlineLoop (e.drop o.raw.length) masked prev0
            false (toks ++ [o]) st2 links2)
        match ovOr cfg.ov.autolinkO autolinkExec e with
        | some o => push o st links
        | none =>
        match (if !st.inLink && cfg.opts.gfm then
                 ovOr cfg.ov.urlO urlExec e
               else if !st.inLink then
                 cfg.ov.urlO.elim none (fun f => f e)
               else none) with
        | some o => push o st links
        | none =>
        match cfg.ov.inlineTextO with
        | some f =>
            (match f e with
             | some o =>
                 let prev' :=
                   if o.raw.getLast? = some '_' then prev0
                   else (o.raw.getLast?).elim prev0 (fun c => [c])
                 (match toks.getLast? with
                  | some u =>
                      if u.isTextI then
                        engine cfg fuel (.inlineLoop (e.drop o.raw.length)
                          masked prev' true
                          (updateLast
                            (fun u => u.mergeTextI o.raw o.textF) toks)
                          st links)
                      else
                        engine cfg fuel (.inlineLoop (e.drop o.raw.length)
                          masked prev' true (toks ++ [o]) st links)
                  | none =>
                      engine cfg fuel (.inlineLoop (e.drop o.raw.length)
                        masked prev' true (toks ++ [o]) st links))
             | none => inlineFail cfg e toks st links)
        | none =>
            match inlineTextLen cfg.opts.breaks e with
            | some len =>
                let raw := e.take len
                let o := Tok.textI raw raw st.inRawBlock
                let prev' :=
                  if raw.getLast? = some '_' then prev0
                  else (raw.getLast?).elim prev0 (fun c => [c])
                (match toks.getLast? with
                 | some u =>
                     if u.isTextI then
                       engine cfg fuel (.inlineLoop (e.drop len) masked prev'
                         true (updateLast (fun u => u.mergeTextI raw raw) toks)
                         st links)
                     else
                       engine cfg fuel (.inlineLoop (e.drop len) masked prev'
                         true (toks ++ [o]) st links)
                 | none =>
                     engine cfg fuel (.inlineLoop (e.drop len) masked prev'
                       true (toks ++ [o]) st links))
            | none => inlineFail cfg e toks st links
    | .fillToks ts st links =>
        match ts with
        | [] => .ok { toks := [], st := st, links := links }
        | tk :: rest =>
            let deeper : ERes :=
              match tk with
              | .paragraph raw text _ =>
                  (engine cfg fuel (.inlineTokens text st links)).map
                    (fun out => { out with tok := some (.paragraph raw text
                       out.toks) })
              | .heading raw d text _ =>
                  (engine cfg fuel (.inlineTokens text st links)).map
                    (fun out => { out with tok := some (.heading raw d text
                       out.toks) })
              | .textB raw text _ =>
                  (engine cfg fuel (.inlineTokens text st links)).map
                    (fun out => { out with tok := some (.textB raw text
                       out.toks) })
              | .blockquote raw text toks0 =>
                  (engine cfg fuel (.fillToks toks0 st links)).map
                    (fun out => { out with tok := some (.blockquote raw text
                       out.toks) })
              | .list raw o sN lo items =>
                  (engine cfg fuel (.fillToks items st links)).map
                    (fun out => { out with tok := some (.list raw o sN lo
                       out.toks) })
              | .listItem raw ta ch lo text toks0 =>
                  (engine cfg fuel (.fillToks toks0 st links)).map
                    (fun out => { out with tok := some (.listItem raw ta ch lo
                       text out.toks) })
              | .table raw header aligns rows =>
                  (match engine cfg fuel (.fillCells header st links) with
                   | .error err => .error err
                   | .ok out1 =>
                       (engine cfg fuel (.fillRows rows out1.st
                          out1.links)).map
                         (fun out2 => { out2 with tok := some (.table raw
                            out1.cells aligns out2.rows) }))
              | other => .ok { tok := some other, st := st, links := links }
            match deeper with
            | .error err => .error err
            | .ok out1 =>
                (engine cfg fuel (.fillToks rest out1.st out1.links)).map
                  (fun out2 =>
                    { out2 with
                      toks := (out1.tok.elim [] (fun x => [x])) ++ out2.toks })
    | .fillCells cells st links =>
        match cells with
        | [] => .ok { cells := [], st := st, links := links }
        | (txt, _) :: rest =>
            match engine cfg fuel (.inlineTokens txt st links) with
            | .error err => .error err
            | .ok out1 =>
                (engine cfg fuel (.fillCells rest out1.st out1.links)).map
                  (fun out2 =>
                    { out2 with cells := (txt, out1.toks) :: out2.cells })
    | .fillRows rows st links =>
        match rows with
        | [] => .ok { rows := [], st := st, links := links }
        | row :: rest =>
            match engine cfg fuel (.fillCells row st links) with
            | .error err => .error err
            | .ok out1 =>
                (engine cfg fuel (.fillRows rest out1.st out1.links)).map
                  (fun out2 =>
                    { out2 with rows := out1.cells :: out2.rows })

/-! ## HTML escaping, URL cleaning, and the renderer and parser. -/

/-- The entity table of the escape helper. -/
def escCh (c : Char) : Str :=
  if c = '&' then ("&amp;").data
  else if c = '<' then ("&lt;").data
  else if c = '>' then ("&gt;").data
  else if c = '"' then ("&quot;").data
  else if c = aposCh then ("&#39;").data
  else [c]

/-- Hexadecimal digit test. -/
def isHexCh (c : Char) : Bool :=
  isDigitCh c || ('a' ≤ c && c ≤ 'f') || ('A' ≤ c && c ≤ 'F')

/-- Whether an ampersand opens a character entity (the lookahead of
escapeTestNoEncode): a decimal or hexadecimal numeric reference or a
named reference followed by a semicolon. -/
def isEntityStart (r : Str) : Bool :=
  match r with
  | '#' :: r2 =>
      (let d := countWhile isDigitCh r2
       1 ≤ d && d ≤ 7 && (r2.drop d).head? = some ';') ||
      (match r2 with
       | c :: r3 =>
           (c = 'x' || c = 'X') &&
             (let h := countWhile isHexCh r3
              1 ≤ h && h ≤ 6 && (r3.drop h).head? = some ';')
       | [] => false)
  | _ =>
      let w := countWhile isWordCh r
      w ≥ 1 && (r.drop w).head? = some ';'

/-- The escape helper w(l, encode): with encode every special character
is replaced; without it an ampersand already opening an entity is kept. -/
def escapeHtml (s : Str) (encode : Bool) : Str :=
  if encode then s.flatMap escCh
  else go s
where
  go : Str → Str
    | [] => []
    | '&' :: r =>
        if isEntityStart r then '&' :: go r
        else ("&amp;").data ++ go r
    | c :: r =>
        if c = '<' || c = '>' || c = '"' || c = aposCh then
          escCh c ++ go r
        else c :: go r

/-- The characters encodeURI leaves unescaped. -/
def uriUnescaped (c : Char) : Bool :=
  isAlnumCh c || c = ';' || c = ',' || c = '/' || c = '?' || c = ':' ||
  c = '@' || c = '&' || c = '=' || c = '+' || c = '$' || c = '-' ||
  c = '_' || c = '.' || c = '!' || c = '~' || c = '*' || c = aposCh ||
  c = '(' || c = ')' || c = '#'

/-- Uppercase hexadecimal digit. -/
def hexDigitCh (n : Nat) : Char :=
  if n < 10 then Char.ofNat (48 + n) else Char.ofNat (55 + n)

/-- UTF-8 bytes of a code point. -/
def utf8Bytes (n : Nat) : List Nat :=
  if n < 128 then [n]
  else if n < 2048 then [192 + n / 64, 128 + n % 64]
  else if n < 65536 then
    [224 + n / 4096, 128 + (n / 64) % 64, 128 + n % 64]
  else
    [240 + n / 262144, 128 + (n / 4096) % 64, 128 + (n / 64) % 64,
     128 + n % 64]

/-- encodeURI on one character. -/
def encodeURICh (c : Char) : Str :=
  if uriUnescaped c then [c]
  else
    (utf8Bytes c.toNat).flatMap
      (fun b => ['%', hexDigitCh (b / 16), hexDigitCh (b % 16)])

/-- percentDecode replacement: an encoded percent sign becomes
literal. -/
def decodePct25 : Str → Str
  | '%' :: '2' :: '5' :: r => '%' :: decodePct25 r
  | c :: r => c :: decodePct25 r
  | [] => []

/-- Helper J (cleanUrl): encodeURI then normalization of encoded percent
signs.  Lean characters are always encodable, so the catch branch
returning null never fires in the model. -/
def cleanUrl (s : Str) : Str := decodePct25 (s.flatMap encodeURICh)

/-- Decimal digits of a number (the JS number-to-string coercion for
list starts). -/
def natToStr (n : Nat) : Str := (toString n).data

/-- A render request: the parser entry points, one block token, one list
item, one text-like token, and the two inline folds. -/
inductive RCall where
  | parseR (ts : List Tok) (top : Bool)
  | blockTok (t : Tok)
  | listItemTok (t : Tok)
  | textTok (t : Tok)
  | parseInlineR (ts : List Tok)
  | parseInlineT (ts : List Tok)

/-- Whether a token takes the text case of Parser.parse. -/
def Tok.isTextCase : Tok → Bool
  | .textB .. => true
  | .textI .. => true
  | _ => false

/-- The default renderer and parser, one function structurally recursive
on fuel.  Each blockTok and inline case is the corresponding method of
the Renderer class; parseR is Parser.parse with its merging of adjacent
text tokens; parseInlineT uses the text renderer (for image
alternatives). -/
def render (opts : MOptions) : Nat → RCall → Str
  | 0, _ => []
  | fuel + 1, call =>
    match call with
    | .parseR ts top =>
        match ts with
        | [] => []
        | tok :: rest =>
            if tok.isTextCase then
              let run := tok :: rest.takeWhile Tok.isTextCase
              let rest2 := rest.dropWhile Tok.isTextCase
              let a := joinNl (run.map
                (fun o => render opts fuel (.textTok o)))
              let piece :=
                if top then
                  render opts fuel
                    (.blockTok (.paragraph a a [.textI a a true]))
                else a
              piece ++ render opts fuel (.parseR rest2 top)
            else
              render opts fuel (.blockTok tok) ++
                render opts fuel (.parseR rest top)
    | .blockTok t =>
        match t with
        | .space _ => []
        | .codeB _ lang text escapedF =>
            let r := lang.takeWhile (fun c => !isJsWs c)
            let i := rtrimOneNl text ++ ['\n']
            let body := if escapedF then i else escapeHtml i true
            if r ≠ [] then
              ("<pre><code class=\"language-").data ++
                escapeHtml r false ++ ("\">").data ++ body ++
                ("</code></pre>\n").data
            else
              ("<pre><code>").data ++ body ++ ("</code></pre>\n").data
        | .blockquote _ _ toks =>
            ("<blockquote>\n").data ++ render opts fuel (.parseR toks true) ++
              ("</blockquote>\n").data
        | .htmlB _ _ text => text
        | .htmlI _ _ _ text => text
        | .linkDef .. => []
        | .heading _ depth _ toks =>
            ("<h").data ++ natToStr depth ++ (">").data ++
              render opts fuel (.parseInlineR toks) ++
              ("</h").data ++ natToStr depth ++ (">\n").data
        | .hrT _ => ("<hr>\n").data
        | .list _ ordered startN _ items =>
            let body := (items.map
              (fun a => render opts fuel (.listItemTok a))).flatten
            let ty := if ordered then ("ol").data else ("ul").data
            let sAttr :=
              if ordered && startN ≠ some 1 then
                (" start=\"").data ++ (startN.elim [] natToStr) ++
                  ("\"").data
              else []
            ("<").data ++ ty ++ sAttr ++ (">\n").data ++ body ++
              ("</").data ++ ty ++ (">\n").data
        | .paragraph _ _ toks =>
            ("<p>").data ++ render opts fuel (.parseInlineR toks) ++
              ("</p>\n").data
        | .table _ header aligns rows =>
            let cell := fun (hdr : Bool) (c : Str × List Tok)
                (al : Option Str) =>
              let inner := render opts fuel (.parseInlineR c.snd)
              let tag := if hdr then ("th").data else ("td").data
              (match al with
               | some a =>
                   ("<").data ++ tag ++ (" align=\"").data ++ a ++
                     ("\">").data
               | none => ("<").data ++ tag ++ (">").data) ++
                inner ++ ("</").data ++ tag ++ (">\n").data
            let row := fun (cells : Str) =>
              ("<tr>\n").data ++ cells ++ ("</tr>\n").data
            let hdrCells := ((header.zip
              (aligns ++ List.replicate header.length none)).map
              (fun p => cell true p.fst p.snd)).flatten
            let hText := row hdrCells
            let bodyRows := (rows.map (fun rws =>
              row (((rws.zip (aligns ++ List.replicate rws.length none)).map
                (fun p => cell false p.fst p.snd)).flatten))).flatten
            let bodyPart :=
              if bodyRows ≠ [] then
                ("<tbody>").data ++ bodyRows ++ ("</tbody>").data
              else bodyRows
            ("<table>\n<thead>\n").data ++ hText ++ ("</thead>\n").data ++
              bodyPart ++ ("</table>\n").data
        | _ =>
            -- The default branch of Parser.parse throws (or, silent, drops
            -- everything); the embedded lexer never emits other kinds at
            -- block level, so the model returns nothing.
            []
    | .listItemTok t =>
        match t with
        | .listItem _ task checked loose _ toks =>
            let checkboxStr :=
              ("<input ").data ++
                (if checked then ("checked=\"\" ").data else []) ++
                ("disabled=\"\" type=\"checkbox\">").data
            let tokens' :=
              if task then
                if loose then
                  match toks with
                  | .paragraph praw ptext ptoks :: restT =>
                      let ptext' := checkboxStr ++ ' ' :: ptext
                      let ptoks' :=
                        match ptoks with
                        | .textI iraw itext _ :: irest =>
                            .textI iraw
                              (checkboxStr ++ ' ' :: escapeHtml itext false)
                              true :: irest
                        | other => other
                      .paragraph praw ptext' ptoks' :: restT
                  | _ =>
                      .textI (checkboxStr ++ [' ']) (checkboxStr ++ [' '])
                        true :: toks
                else toks
              else toks
            let pre :=
              if task && !loose then checkboxStr ++ [' '] else []
            let body := pre ++ render opts fuel (.parseR tokens' loose)
            ("<li>").data ++ body ++ ("</li>\n").data
        | _ => []
    | .textTok t =>
        match t with
        | .textB _ _ toks => render opts fuel (.parseInlineR toks)
        | .textI _ text escapedF =>
            if escapedF then text else escapeHtml text false
        | .escapeT _ text => escapeHtml text false
        | _ => []
    | .parseInlineR ts =>
        match ts with
        | [] => []
        | tok :: rest =>
            let piece :=
              match tok with
              | .escapeT _ text => escapeHtml text false
              | .htmlI _ _ _ text => text
              | .htmlB _ _ text => text
              | .linkT _ href title _ toks =>
                  let r := render opts fuel (.parseInlineR toks)
                  let i := cleanUrl href
                  -- an empty title is falsy: no attribute
                  let titlePart :=
                    match title with
                    | some ti =>
                        if ti = [] then [] else
                          (" title=\"").data ++ escapeHtml ti false ++
                            ("\"").data
                    | none => []
                  ("<a href=\"").data ++ i ++ ("\"").data ++ titlePart ++
                    (">").data ++ r ++ ("</a>").data
              | .imageT _ href title _ toks =>
                  let n := render opts fuel (.parseInlineT toks)
                  let i := cleanUrl href
                  let titlePart :=
                    match title with
                    | some ti =>
                        if ti = [] then [] else
                          (" title=\"").data ++ escapeHtml ti false ++
                            ("\"").data
                    | none => []
                  ("<img src=\"").data ++ i ++ ("\" alt=\"").data ++ n ++
                    ("\"").data ++ titlePart ++ (">").data
              | .strong _ _ toks =>
                  ("<strong>").data ++
                    render opts fuel (.parseInlineR toks) ++
                    ("</strong>").data
              | .em _ _ toks =>
                  ("<em>").data ++ render opts fuel (.parseInlineR toks) ++
                    ("</em>").data
              | .codespan _ text =>
                  ("<code>").data ++ escapeHtml text true ++
                    ("</code>").data
              | .brT _ => ("<br>").data
              | .delT _ _ toks =>
                  ("<del>").data ++ render opts fuel (.parseInlineR toks) ++
                    ("</del>").data
              | other => render opts fuel (.textTok other)
            piece ++ render opts fuel (.parseInlineR rest)
    | .parseInlineT ts =>
        match ts with
        | [] => []
        | tok :: rest =>
            let piece :=
              match tok with
              | .escapeT _ text => text
              | .htmlI _ _ _ text => text
              | .htmlB _ _ text => text
              | .linkT _ _ _ text _ => text
              | .imageT _ _ _ text _ => text
              | .strong _ text _ => text
              | .em _ text _ => text
              | .codespan _ text => text
              | .brT _ => []
              | .delT _ text _ => text
              | .textI _ text _ => text
              | .textB _ text _ => text
              | _ => []
            piece ++ render opts fuel (.parseInlineT rest)
where
  /-- endingNewline replacement: one trailing newline removed. -/
  rtrimOneNl (s : Str) : Str :=
    if s.getLast? = some '\n' then s.dropLast else s

/-! ## The Lexer entry point and the Marked facade. -/

/-- A fuel bound that dominates every run on the given input: each engine
step either consumes input, walks one element of a finite structure
built from the input, or descends into a strictly shorter slice. -/
def lexFuel (s : Str) : Nat := (s.length + 64) * (s.length + 64)

/-- Lexer.lex: carriage returns are normalized, the whole input is block
tokenized, then the queued inline passes run; the queue holds one entry
per text-bearing leaf in tree order, so draining it equals the fill pass
over the finished tree. -/
def lexT (cfg : EngineCfg) (fuel : Nat) (s0 : Str) :
    Except LexErr (List Tok × Links) :=
  let e := replaceCR s0
  match engine cfg fuel (.blockTokens e [] false {} []) with
  | .error er => .error er
  | .ok out1 =>
      match engine cfg fuel (.fillToks out1.toks out1.st out1.links) with
      | .error er => .error er
      | .ok out2 => .ok (out2.toks, out2.links)

/-- Lexer.lex with the default configuration and adequate fuel. -/
def lexD (opts : MOptions) (s : Str) : Except LexErr (List Tok × Links) :=
  lexT { opts := opts } (lexFuel s) s

/-- Lexing followed by Parser.parse: the synchronous body of a
marked(...) call with no hooks and no walkTokens. -/
def markedParse (opts : MOptions) (s : Str) : Except LexErr Str :=
  (lexD opts s).map (fun p => render opts (lexFuel s) (.parseR p.fst true))

/-- A JavaScript argument to the parse entry point, as the runtime type
checks of parseMarkdown distinguish it: a string, undefined, null, or a
non-string value carrying its Object.prototype.toString tag. -/
inductive JSInput where
  | str (s : Str)
  | undef
  | nullV
  | other (tag : Str)

/-- The outcome of the entry point: a returned string or a thrown error
carrying its message.  The async option only wraps the same two outcomes
in a resolved respectively rejected promise and is not modelled
separately. -/
inductive JSOut where
  | ok (html : Str)
  | errThrown (msg : Str)
deriving Repr, DecidableEq

/-- The report footer onError appends to every error message. -/
def errFooter : Str :=
  ("\nPlease report this to https://github.com/markedjs/marked.").data

/-- Marked.onError: with silent the error is swallowed into an HTML
fragment, otherwise it is rethrown. -/
def onError (silent : Bool) (msg : Str) : JSOut :=
  let m := msg ++ errFooter
  if silent then
    .ok (("<p>An error occurred:</p><pre>").data ++ escapeHtml m true ++
      ("</pre>").data)
  else .errThrown m

/-- The message of an error the lexer throws.  Fuel exhaustion is an
artifact of the model, unreachable under lexFuel. -/
def lexErrMsg : LexErr → Str
  | .infiniteLoop c => ("Infinite loop on byte: ").data ++ natToStr c.toNat
  | .fuelOut => ("model fuel exhausted").data

/-- Marked.parseMarkdown without hooks or walkTokens: the input type
checks run first, before the lexer is consulted; a string input is lexed
and parsed, and anything thrown goes through onError. -/
def parseMarkdown (opts : MOptions) (input : JSInput) : JSOut :=
  match input with
  | .undef =>
      onError opts.silent
        ("marked(): input parameter is undefined or null").data
  | .nullV =>
      onError opts.silent
        ("marked(): input parameter is undefined or null").data
  | .other tag =>
      onError opts.silent
        (("marked(): input parameter is of type ").data ++ tag ++
          (", string expected").data)
  | .str s =>
      match markedParse opts s with
      | .ok html => .ok html
      | .error er => onError opts.silent (lexErrMsg er)

/-- The cross-call state of a Marked instance: only the defaults, which
parse never writes (use and setOptions do). -/
structure MarkedSession where
  defaults : MOptions
deriving Repr, DecidableEq

/-- One parse call on an instance: per-call options overlay the
defaults; the lexer and parser are fresh per call, so the session comes
back unchanged. -/
def sessionParse (m : MarkedSession) (opts : Option MOptions)
    (input : JSInput) : JSOut × MarkedSession :=
  let s := opts.getD m.defaults
  (parseMarkdown s input, m)

/-! ### Marked.use validation.

The known-property lists are the instance properties of the built-in
Renderer, Tokenizer, and Hooks classes (declared fields plus prototype
methods) together with the members every object inherits from
Object.prototype, since the check uses the in operator. -/

/-- Members of Object.prototype, visible to the in operator. -/
def objectProtoProps : List Str :=
  [("constructor").data, ("hasOwnProperty").data, ("isPrototypeOf").data,
   ("propertyIsEnumerable").data, ("toLocaleString").data,
   ("toString").data, ("valueOf").data, ("__proto__").data,
   ("__defineGetter__").data, ("__defineSetter__").data,
   ("__lookupGetter__").data, ("__lookupSetter__").data]

/-- Instance properties of the built-in Renderer class. -/
def rendererProps : List Str :=
  [("options").data, ("parser").data, ("space").data, ("code").data,
   ("blockquote").data, ("html").data, ("def").data, ("heading").data,
   ("hr").data, ("list").data, ("listitem").data, ("checkbox").data,
   ("paragraph").data, ("table").data, ("tablerow").data,
   ("tablecell").data, ("strong").data, ("em").data, ("codespan").data,
   ("br").data, ("del").data, ("link").data, ("image").data,
   ("text").data] ++ objectProtoProps

/-- Instance properties of the built-in Tokenizer class. -/
def tokenizerProps : List Str :=
  [("options").data, ("rules").data, ("lexer").data, ("space").data,
   ("code").data, ("fences").data, ("heading").data, ("hr").data,
   ("blockquote").data, ("list").data, ("html").data, ("def").data,
   ("table").data, ("lheading").data, ("paragraph").data, ("text").data,
   ("escape").data, ("tag").data, ("link").data, ("reflink").data,
   ("emStrong").data, ("codespan").data, ("br").data, ("del").data,
   ("autolink").data, ("url").data, ("inlineText").data] ++
    objectProtoProps

/-- Instance properties of the built-in Hooks class. -/
def hooksProps : List Str :=
  [("options").data, ("block").data, ("preprocess").data,
   ("postprocess").data, ("processAllTokens").data,
   ("emStrongMask").data, ("provideLexer").data,
   ("provideParser").data] ++ objectProtoProps

/-- One argument pack passed to Marked.use, reduced to what the
validation inspects: per extension its name and level fields (none for
absent, and whether a tokenizer is attached), and the enumerable keys of
the renderer, tokenizer, and hooks override objects. -/
structure UsePack where
  extensions : List (Option Str × Bool × Option Str) := []
  rendererKeys : List Str := []
  tokenizerKeys : List Str := []
  hooksKeys : List Str := []

/-- Check override keys against a known-property list; the first unknown
key throws. -/
def checkKeys (kind : Str) (known : List Str) : List Str →
    Except Str Unit
  | [] => .ok ()
  | k :: rest =>
      if known.contains k then checkKeys kind known rest
      else
        .error (kind ++ ' ' :: aposCh :: k ++ aposCh ::
          (" does not exist").data)

/-- Validate the extensions array: a missing name and, when a tokenizer
is attached, a level other than block or inline throw. -/
def checkExts : List (Option Str × Bool × Option Str) →
    Except Str Unit
  | [] => .ok ()
  | (nameF, hasTok, level) :: rest =>
      if nameF = none || nameF = some [] then
        .error ("extension name required").data
      else if hasTok &&
          !(level = some ("block").data || level = some ("inline").data)
      then
        .error (("extension level must be ").data ++ aposCh ::
          ("block").data ++ aposCh :: (" or ").data ++ aposCh ::
          ("inline").data ++ [aposCh])
      else checkExts rest

/-- The validation Marked.use performs on one argument pack, in source
order: extensions, then renderer, tokenizer, and hooks overrides.  It
never consults the silent option, and it throws directly rather than
through onError. -/
def useValidate (_opts : MOptions) (p : UsePack) : Except Str Unit :=
  match checkExts p.extensions with
  | .error e => .error e
  | .ok () =>
      match checkKeys ("renderer").data rendererProps p.rendererKeys with
      | .error e => .error e
      | .ok () =>
          match checkKeys ("tokenizer").data tokenizerProps
              p.tokenizerKeys with
          | .error e => .error e
          | .ok () => checkKeys ("hook").data hooksProps p.hooksKeys

/-! ## Support definitions for the verification statements. -/

/-- Whether a use validation threw. -/
def isErr : Except Str Unit → Bool
  | .error _ => true
  | .ok _ => false

/-- The links table an engine call starts from. -/
def ECall.linksOf : ECall → Links
  | .blockTokens _ _ _ _ l | .blockLoop _ _ _ _ l | .blockLoopB _ _ _ _ l
  | .blockLoopL _ _ _ _ l | .listCall _ _ l | .listItems _ _ _ _ l
  | .bqCall _ _ l | .bqLoop _ _ _ _ _ l | .inlineTokens _ _ l
  | .inlineLoop _ _ _ _ _ _ l | .inlineCont _ _ _ _ _ l
  | .inlineCont2 _ _ _ _ _ l | .inlineCont3 _ _ _ _ _ l
  | .inlineCont4 _ _ _ _ _ l | .inlineCont5 _ _ _ _ _ l
  | .fillToks _ _ l | .fillCells _ _ l | .fillRows _ _ l => l

/-- A rule that never matches: the observable behaviour of a registered
override that always returns undefined (no fallback runs, since only a
literal false falls through to the built-in). -/
def nullTok : Str → Option Tok := fun _ => none

/-- A configuration whose every tokenizer rule declines every input:
with it, block and inline scanning exercise the termination guard on
any non-empty text. -/
def exhaustOv : TokOv :=
  { spaceO := some nullTok, codeO := some nullTok,
    fencesO := some nullTok, headingO := some nullTok,
    hrO := some nullTok, blockquoteO := some nullTok,
    listO := some nullTok, htmlO := some nullTok, defO := some nullTok,
    tableO := some nullTok, lheadingO := some nullTok,
    paragraphO := some nullTok, textO := some nullTok,
    escapeO := some nullTok, tagO := some nullTok,
    linkO := some nullTok, reflinkO := some nullTok,
    emStrongO := some nullTok, codespanO := some nullTok,
    brO := some nullTok, delO := some nullTok,
    autolinkO := some nullTok, urlO := some nullTok,
    inlineTextO := some nullTok }

/-- The exhaustion test configuration with the given silent setting. -/
def exhaustCfg (b : Bool) : EngineCfg :=
  { opts := { silent := b }, ov := exhaustOv }

/-- The inline token lists of the paragraph tokens of a block sequence,
concatenated. -/
def paraInline : List Tok → List Tok
  | [] => []
  | .paragraph _ _ ks :: rest => ks ++ paraInline rest
  | _ :: rest => paraInline rest

/-- Whether a token is a resolved inline link token. -/
def Tok.isLinkT : Tok → Bool
  | .linkT .. => true
  | _ => false

/-- The first resolved link among the paragraph inline tokens. -/
def firstLink (ts : List Tok) : Option Tok :=
  (paraInline ts).find? Tok.isLinkT

/-- The message of the InvalidInput check of parseMarkdown for each
non-string argument shape. -/
def invalidInputMsg : JSInput → Str
  | .str _ => []
  | .undef => ("marked(): input parameter is undefined or null").data
  | .nullV => ("marked(): input parameter is undefined or null").data
  | .other tag =>
      ("marked(): input parameter is of type ").data ++ tag ++
        (", string expected").data

/-- Whether an engine result is a success. -/
def isOkE : Except LexErr EOut → Bool
  | .ok _ => true
  | .error _ => false

/-- The links table of a successful engine result. -/
def linksOfRes : Except LexErr EOut → Links
  | .ok o => o.links
  | .error _ => []

/-- Raws of the collected list item records, concatenated. -/
def itemsRaw (l : List ItemRec) : Str := (l.map (fun it => it.raw)).flatten

/-- The default engine configuration of a plain marked(src) call. -/
def cfg1 : EngineCfg := { opts := {} }

/-- The input either is exhausted or still ends in a newline. -/
def He (e : Str) : Prop := e = [] ∨ e.getLast? = some '\n'

/-- If the last accumulated token is a paragraph or text token whose raw
does not end in a newline, the remaining source starts at a newline. -/
def lastGap (t : List Tok) (e : Str) : Prop :=
  ∀ s0, t.getLast? = some s0 → s0.isParaOrText = true →
    s0.raw.getLast? ≠ some '\n' → e = [] ∨ e.head? = some '\n'

/-- Whether a lexer result is a success. -/
def isOkL : Except LexErr (List Tok × Links) → Bool
  | .ok _ => true
  | .error _ => false

/-! # Verification statements -/

/-- Inserting under the first-wins discipline never changes the binding
of a label that is already present. -/
theorem lookupLink_insert (L : Links) (tag tag2 : Str) (v : LinkRef)
    (ref : LinkRef) (hv : lookupLink L tag = some v) :
    lookupLink (insertLink L tag2 ref) tag = some v := by
  unfold insertLink
  cases hx : lookupLink L tag2 with
  | some w => exact hv
  | none =>
      unfold lookupLink at hv ⊢
      cases hf : L.find? (fun p => p.fst = tag) with
      | none => rw [hf] at hv; cases hv
      | some pr =>
          rw [hf] at hv
          rw [List.find?_append, hf]
          exact hv

set_option maxHeartbeats 4000000 in
/-- Claim C6.  First definition wins: through every engine call (block
scanning including nested blockquote and list content, and the inline
passes), a label already bound in the link reference table keeps exactly
its stored pair; no later definition overwrites it for the duration of
the parse. -/
theorem c6_first_def_wins (cfg : EngineCfg) : ∀ (fuel : Nat) (call : ECall)
    (out : EOut), engine cfg fuel call = .ok out → ∀ (tag : Str) (v : LinkRef),
    lookupLink (ECall.linksOf call) tag = some v →
    lookupLink out.links tag = some v := by
  intro fuel
  induction fuel with
  | zero => intro call out h; simp [engine] at h
  | succ fuel ih =>
      intro call out h tag v hv
      cases call
      case fillToks ts stX linksX =>
        simp only [engine] at h
        split at h
        · injection h with h2; subst h2; exact hv
        · rename_i tk rest
          split at h
          · exact Except.noConfusion h
          · rename_i out1 heq
            have hd : lookupLink out1.links tag = some v := by
              cases tk <;> (try simp only [Except.map] at heq) <;>
                (repeat' split at heq) <;>
                first
                  | exact Except.noConfusion heq
                  | (injection heq with h3; subst h3; dsimp only;
                     solve_by_elim [ih, hv, lookupLink_insert])
                  | solve_by_elim [ih, hv, lookupLink_insert]
            simp only [Except.map] at h
            split at h
            · exact Except.noConfusion h
            · rename_i out2 heq2
              injection h with h2; subst h2
              dsimp only
              exact ih _ _ heq2 tag v hd
      all_goals
        simp only [engine, Except.map, inlineFail] at h <;>
        (repeat' split at h) <;>
        first
          | exact Except.noConfusion h
          | (injection h with h2; subst h2; dsimp only;
             solve_by_elim [ih, hv, lookupLink_insert])
          | solve_by_elim [ih, hv, lookupLink_insert]
          | (refine ih _ _ h tag v ?_; dsimp only;
             solve_by_elim [ih, hv, lookupLink_insert])

/-- Witness for C6: lexing a second definition for an already bound
label leaves the stored pair unchanged. -/
theorem c6_first_def_wins_witness :
    lookupLink (linksOfRes (engine ({} : EngineCfg) 32
      (.blockTokens (("[a]: /x\n").data) [] false {}
        [([ 'a' ], ⟨("/u").data, none⟩)]))) [ 'a' ] =
      some ⟨("/u").data, none⟩ := by
  cases heq : engine ({} : EngineCfg) 32
      (.blockTokens (("[a]: /x\n").data) [] false {}
        [([ 'a' ], ⟨("/u").data, none⟩)]) with
  | error er =>
      have hok : isOkE (engine ({} : EngineCfg) 32
        (.blockTokens (("[a]: /x\n").data) [] false {}
          [([ 'a' ], ⟨("/u").data, none⟩)])) = true := rfl
      rw [heq] at hok
      simp [isOkE] at hok
  | ok o =>
      have h2 := c6_first_def_wins ({} : EngineCfg) 32
        (.blockTokens (("[a]: /x\n").data) [] false {}
          [([ 'a' ], ⟨("/u").data, none⟩)]) o heq [ 'a' ]
        ⟨("/u").data, none⟩ rfl
      simpa [linksOfRes, heq] using h2

/-- Claim C2.  Termination guard on grammar exhaustion: under a
configuration whose rules (overrides replacing every built-in, no
extensions) decline every input, block and inline scanning of any
non-empty remaining text behave as specified by the guard: with silent
set they return exactly the tokens accumulated so far (truncation, after
logging), and with silent unset they fail the parse with the fatal
Infinite-loop error naming the first unconsumed character. -/
theorem c2_exhaustion_guard (b : Bool) (c : Char) (rest : Str)
    (t : List Tok) (n : Bool) (st : LexState) (links : Links) (fuel : Nat)
    (masked prev : Str) (keep : Bool) :
    (engine (exhaustCfg b) (fuel + 3) (.blockLoop (c :: rest) t n st links)
      = if b then .ok { toks := t, st := { st with top := true },
                        links := links }
        else .error (.infiniteLoop c)) ∧
    (engine (exhaustCfg b) (fuel + 6)
        (.inlineLoop (c :: rest) masked prev keep t st links)
      = if b then .ok { toks := t, st := st, links := links }
        else .error (.infiniteLoop c)) := by
  obtain ⟨top, inl, inr⟩ := st
  cases b
  · rw [if_neg (by decide), if_neg (by decide)]
    cases top <;> cases inl <;> cases inr <;> exact ⟨rfl, rfl⟩
  · rw [if_pos rfl, if_pos rfl]
    cases top <;> cases inl <;> cases inr <;> exact ⟨rfl, rfl⟩

/-- Claim C3, counterexample.  With silent set, a non-string input does
not fail the call: parseMarkdown returns an HTML error fragment, so the
failure is not fatal for every Configuration as claimed. -/
theorem c3_invalid_input_cex :
    parseMarkdown { silent := true } .undef =
      .ok (("<p>An error occurred:</p><pre>marked(): input parameter is undefined or null\nPlease report this to https://github.com/markedjs/marked.</pre>").data) := by
  rfl

/-- Claim C3, amended.  A non-string input is rejected by the type
checks of parseMarkdown before any tokenization: the result is exactly
onError applied to the fixed InvalidInput message, which throws when
silent is unset and returns the error fragment when silent is set. -/
theorem c3_invalid_input_amended (opts : MOptions) (inp : JSInput)
    (h : ∀ s, inp ≠ .str s) :
    parseMarkdown opts inp = onError opts.silent (invalidInputMsg inp) ∧
    (opts.silent = false →
      parseMarkdown opts inp =
        .errThrown (invalidInputMsg inp ++ errFooter)) ∧
    (opts.silent = true →
      parseMarkdown opts inp =
        .ok (("<p>An error occurred:</p><pre>").data ++
          escapeHtml (invalidInputMsg inp ++ errFooter) true ++
          ("</pre>").data)) := by
  cases inp with
  | str s => exact absurd rfl (h s)
  | undef =>
      refine ⟨rfl, fun hs => ?_, fun hs => ?_⟩ <;>
        simp [parseMarkdown, onError, invalidInputMsg, hs]
  | nullV =>
      refine ⟨rfl, fun hs => ?_, fun hs => ?_⟩ <;>
        simp [parseMarkdown, onError, invalidInputMsg, hs]
  | other tag =>
      refine ⟨rfl, fun hs => ?_, fun hs => ?_⟩ <;>
        simp [parseMarkdown, onError, invalidInputMsg, hs]

/-- Witness for the amended C3 statement at a concrete input. -/
theorem c3_invalid_input_amended_witness :
    parseMarkdown {} .nullV = onError false (invalidInputMsg .nullV) :=
  (c3_invalid_input_amended {} .nullV (fun _ h => JSInput.noConfusion h)).1

/-- Claim C4.  Emphasis end-to-end with the default configuration: the
first input renders exactly as claimed, and the triple-starred input
nests strong inside em with no leftover star in the output. -/
theorem c4_emphasis :
    markedParse {} (("**bold** and *em*").data) =
      .ok (("<p><strong>bold</strong> and <em>em</em></p>\n").data) ∧
    markedParse {} (("***both***").data) =
      .ok (("<p><em><strong>both</strong></em></p>\n").data) ∧
    (("<p><em><strong>both</strong></em></p>\n").data).contains '*'
      = false := by
  exact ⟨rfl, rfl, rfl⟩

/-- Claim C5.  Reference resolution is order-independent: with the
definition after the use and with the definition before the use, the
reference-style link resolves to the same link token, with href /url
and title t. -/
theorem c5_reflink_order :
    ((lexD {} (("[foo]\n\n[foo]: /url \"t\"\n").data)).map
        (fun p => firstLink p.fst)) =
      .ok (some (.linkT (("[foo]").data) (("/url").data)
        (some [ 't' ]) (("foo").data)
        [.textI (("foo").data) (("foo").data) false])) ∧
    ((lexD {} (("[foo]: /url \"t\"\n\n[foo]\n").data)).map
        (fun p => firstLink p.fst)) =
      .ok (some (.linkT (("[foo]").data) (("/url").data)
        (some [ 't' ]) (("foo").data)
        [.textI (("foo").data) (("foo").data) false])) := by
  exact ⟨rfl, rfl⟩

/-- Claim C7.  Tight versus loose lists with the default configuration:
the tight input renders items bare, the loose input wraps each item text
in a paragraph element. -/
theorem c7_tight_loose :
    markedParse {} (("- a\n- b\n").data) =
      .ok (("<ul>\n<li>a</li>\n<li>b</li>\n</ul>\n").data) ∧
    markedParse {} (("- a\n\n- b\n").data) =
      .ok (("<ul>\n<li><p>a</p>\n</li>\n<li><p>b</p>\n</li>\n</ul>\n").data)
    := by
  exact ⟨rfl, rfl⟩

/-- Claim C8.  Determinism: a parse call is a function of the input and
the effective Configuration alone; it leaves the session untouched, and
an immediately repeated call returns the identical output. -/
theorem c8_deterministic (m : MarkedSession) (o : Option MOptions)
    (i : JSInput) :
    (sessionParse m o i).snd = m ∧
    (sessionParse m o i).fst = parseMarkdown (o.getD m.defaults) i ∧
    (sessionParse ((sessionParse m o i).snd) o i).fst =
      (sessionParse m o i).fst :=
  ⟨rfl, rfl, rfl⟩

/-- Helper: a key list holding a name outside the known-property list
makes the key check throw. -/
theorem checkKeys_isErr (kind : Str) (known : List Str) :
    ∀ ks : List Str, (∃ k, k ∈ ks ∧ known.contains k = false) →
      isErr (checkKeys kind known ks) = true := by
  intro ks
  induction ks with
  | nil => rintro ⟨k, hk, _⟩; cases hk
  | cons k rest ih =>
      rintro ⟨k0, hk0, hnc⟩
      cases hc : known.contains k with
      | false =>
          simp only [checkKeys, hc, Bool.false_eq_true, if_false, isErr]
      | true =>
          have step : checkKeys kind known (k :: rest) =
              checkKeys kind known rest := by
            simp only [checkKeys, hc, eq_self_iff_true, if_true]
          rw [step]
          rcases List.mem_cons.mp hk0 with rfl | hmem
          · rw [hc] at hnc; cases hnc
          · exact ih ⟨k0, hmem, hnc⟩

/-- Claim C9.  Marked.use fails fast on unknown targets: if a renderer,
tokenizer, or hooks override names a property absent from the built-in
capability interface, validation throws, and the outcome never consults
the silent option. -/
theorem c9_use_fail_fast (opts : MOptions) (p : UsePack)
    (h : (∃ k, k ∈ p.rendererKeys ∧ rendererProps.contains k = false) ∨
         (∃ k, k ∈ p.tokenizerKeys ∧ tokenizerProps.contains k = false) ∨
         (∃ k, k ∈ p.hooksKeys ∧ hooksProps.contains k = false)) :
    isErr (useValidate opts p) = true ∧
    useValidate opts p = useValidate { opts with silent := true } p := by
  refine ⟨?_, rfl⟩
  unfold useValidate
  cases hx : checkExts p.extensions with
  | error e => simp [isErr]
  | ok u =>
      cases u
      cases hr : checkKeys (("renderer").data) rendererProps
          p.rendererKeys with
      | error e => simp [isErr]
      | ok u =>
          cases u
          cases ht : checkKeys (("tokenizer").data) tokenizerProps
              p.tokenizerKeys with
          | error e => simp [isErr]
          | ok u =>
              cases u
              rcases h with hre | hto | hho
              · have := checkKeys_isErr (("renderer").data) rendererProps
                  p.rendererKeys hre
                rw [hr] at this
                simp [isErr] at this
              · have := checkKeys_isErr (("tokenizer").data) tokenizerProps
                  p.tokenizerKeys hto
                rw [ht] at this
                simp [isErr] at this
              · exact checkKeys_isErr (("hook").data) hooksProps
                  p.hooksKeys hho

/-- Witness for C9: an override naming a property that no built-in class
has throws even with silent set. -/
theorem c9_use_fail_fast_witness :
    isErr (useValidate { silent := true }
      { rendererKeys := [("shrug").data] }) = true :=
  (c9_use_fail_fast { silent := true }
    { rendererKeys := [("shrug").data] }
    (Or.inl ⟨("shrug").data, by simp, by decide⟩)).1

/-- Claim C10.  Renderer.list emits a start attribute exactly when the
list is ordered with a start number other than one; an ordered list
starting at one and every unordered list render without it. -/
theorem c10_list_start (opts : MOptions) (fuel : Nat) (raw : Str)
    (startN : Option Nat) (loose : Bool) (items : List Tok) (nn : Nat) :
    (render opts (fuel + 1) (.blockTok (.list raw true (some nn) loose items))
      = (if nn = 1 then ("<ol>\n").data
         else ("<ol start=\"").data ++ natToStr nn ++ ("\">\n").data) ++
        (items.map (fun a => render opts fuel (.listItemTok a))).flatten ++
        ("</ol>\n").data) ∧
    (render opts (fuel + 1) (.blockTok (.list raw false startN loose items))
      = ("<ul>\n").data ++
        (items.map (fun a => render opts fuel (.listItemTok a))).flatten ++
        ("</ul>\n").data) := by
  constructor
  · by_cases h : nn = 1 <;> simp [render, h, Option.elim, natToStr]
  · simp [render]

/-! ## Claim C1: block span completeness -/

/-- jsTrimEnd is a prefix. -/
theorem jsTrimEnd_pfx (l : Str) : jsTrimEnd l <+: l := by
  have h := List.reverse_prefix.mpr
    (List.dropWhile_suffix (p := isJsWs) (l := l.reverse))
  simpa [jsTrimEnd] using h

theorem jsTrimEnd_append_nl (l : Str) : jsTrimEnd (l ++ ['\n']) = jsTrimEnd l := by
  unfold jsTrimEnd
  simp [List.dropWhile, isJsWs]

theorem rtrimChar_pfx (l : Str) (c : Char) : rtrimChar l c <+: l := by
  have h := List.reverse_prefix.mpr
    (List.dropWhile_suffix (p := fun d => d = c) (l := l.reverse))
  simpa [rtrimChar] using h

theorem take_self_length (s : Str) (n : Nat) :
    s.take ((s.take n).length) = s.take n := by
  rw [List.length_take]
  rcases Nat.le_total n s.length with h | h
  · rw [Nat.min_eq_left h]
  · rw [Nat.min_eq_right h, List.take_length, List.take_of_length_le h]

/-- A raw that is a take of the input is the take of its own length. -/
theorem raw_take_of_eq {s raw : Str} (n : Nat) (h : raw = s.take n) :
    raw = s.take raw.length := by
  subst h; exact (take_self_length s n).symm

theorem raw_take_of_pfx {s raw : Str} (h : raw <+: s) :
    raw = s.take raw.length := List.prefix_iff_eq_take.mp h

theorem spaceExec_raw {s : Str} {r : Tok} (h : spaceExec s = some r) :
    r.raw = s.take r.raw.length := by
  simp only [spaceExec] at h
  repeat' split at h
  all_goals first
    | exact Option.noConfusion h
    | (injection h with h2; subst h2; exact raw_take_of_eq _ rfl)
    | (injection h with h2; subst h2;
       exact raw_take_of_eq _ (List.take_length).symm)
    | (injection h with h2; subst h2;
       exact raw_take_of_pfx
         ((rtrimChar_pfx _ _).trans (List.take_prefix _ _)))
    | (injection h with h2; subst h2;
       exact raw_take_of_pfx (List.takeWhile_prefix _))
    | (injection h with h2; subst h2;
       exact raw_take_of_pfx List.prefix_rfl)

theorem codeExec_raw {opts : MOptions} {s : Str} {r : Tok} (h : codeExec opts s = some r) :
    r.raw = s.take r.raw.length := by
  simp only [codeExec] at h
  repeat' split at h
  all_goals first
    | exact Option.noConfusion h
    | (injection h with h2; subst h2; exact raw_take_of_eq _ rfl)
    | (injection h with h2; subst h2;
       exact raw_take_of_eq _ (List.take_length).symm)
    | (injection h with h2; subst h2;
       exact raw_take_of_pfx
         ((rtrimChar_pfx _ _).trans (List.take_prefix _ _)))
    | (injection h with h2; subst h2;
       exact raw_take_of_pfx (List.takeWhile_prefix _))
    | (injection h with h2; subst h2;
       exact raw_take_of_pfx List.prefix_rfl)

theorem fencesExec_raw {s : Str} {r : Tok} (h : fencesExec s = some r) :
    r.raw = s.take r.raw.length := by
  simp only [fencesExec] at h
  repeat' split at h
  all_goals first
    | exact Option.noConfusion h
    | (injection h with h2; subst h2; exact raw_take_of_eq _ rfl)
    | (injection h with h2; subst h2;
       exact raw_take_of_eq _ (List.take_length).symm)
    | (injection h with h2; subst h2;
       exact raw_take_of_pfx
         ((rtrimChar_pfx _ _).trans (List.take_prefix _ _)))
    | (injection h with h2; subst h2;
       exact raw_take_of_pfx (List.takeWhile_prefix _))
    | (injection h with h2; subst h2;
       exact raw_take_of_pfx List.prefix_rfl)

theorem headingExec_raw {opts : MOptions} {s : Str} {r : Tok} (h : headingExec opts s = some r) :
    r.raw = s.take r.raw.length := by
  simp only [headingExec] at h
  repeat' split at h
  all_goals first
    | exact Option.noConfusion h
    | (injection h with h2; subst h2; exact raw_take_of_eq _ rfl)
    | (injection h with h2; subst h2;
       exact raw_take_of_eq _ (List.take_length).symm)
    | (injection h with h2; subst h2;
       exact raw_take_of_pfx
         ((rtrimChar_pfx _ _).trans (List.take_prefix _ _)))
    | (injection h with h2; subst h2;
       exact raw_take_of_pfx (List.takeWhile_prefix _))
    | (injection h with h2; subst h2;
       exact raw_take_of_pfx List.prefix_rfl)

theorem hrExec_raw {s : Str} {r : Tok} (h : hrExec s = some r) :
    r.raw = s.take r.raw.length := by
  simp only [hrExec] at h
  repeat' split at h
  all_goals first
    | exact Option.noConfusion h
    | (injection h with h2; subst h2; exact raw_take_of_eq _ rfl)
    | (injection h with h2; subst h2;
       exact raw_take_of_eq _ (List.take_length).symm)
    | (injection h with h2; subst h2;
       exact raw_take_of_pfx
         ((rtrimChar_pfx _ _).trans (List.take_prefix _ _)))
    | (injection h with h2; subst h2;
       exact raw_take_of_pfx (List.takeWhile_prefix _))
    | (injection h with h2; subst h2;
       exact raw_take_of_pfx List.prefix_rfl)

theorem htmlExec_raw {s : Str} {r : Tok} (h : htmlExec s = some r) :
    r.raw = s.take r.raw.length := by
  simp only [htmlExec] at h
  repeat' split at h
  all_goals first
    | exact Option.noConfusion h
    | (injection h with h2; subst h2; exact raw_take_of_eq _ rfl)
    | (injection h with h2; subst h2;
       exact raw_take_of_eq _ (List.take_length).symm)
    | (injection h with h2; subst h2;
       exact raw_take_of_pfx
         ((rtrimChar_pfx _ _).trans (List.take_prefix _ _)))
    | (injection h with h2; subst h2;
       exact raw_take_of_pfx (List.takeWhile_prefix _))
    | (injection h with h2; subst h2;
       exact raw_take_of_pfx List.prefix_rfl)

theorem tableExec_raw {s : Str} {r : Tok} (h : tableExec s = some r) :
    r.raw = s.take r.raw.length := by
  simp only [tableExec] at h
  repeat' split at h
  all_goals first
    | exact Option.noConfusion h
    | (injection h with h2; subst h2; exact raw_take_of_eq _ rfl)
    | (injection h with h2; subst h2;
       exact raw_take_of_eq _ (List.take_length).symm)
    | (injection h with h2; subst h2;
       exact raw_take_of_pfx
         ((rtrimChar_pfx _ _).trans (List.take_prefix _ _)))
    | (injection h with h2; subst h2;
       exact raw_take_of_pfx (List.takeWhile_prefix _))
    | (injection h with h2; subst h2;
       exact raw_take_of_pfx List.prefix_rfl)

theorem lheadingExec_raw {s : Str} {r : Tok} (h : lheadingExec s = some r) :
    r.raw = s.take r.raw.length := by
  simp only [lheadingExec] at h
  repeat' split at h
  all_goals first
    | exact Option.noConfusion h
    | (injection h with h2; subst h2; exact raw_take_of_eq _ rfl)
    | (injection h with h2; subst h2;
       exact raw_take_of_eq _ (List.take_length).symm)
    | (injection h with h2; subst h2;
       exact raw_take_of_pfx
         ((rtrimChar_pfx _ _).trans (List.take_prefix _ _)))
    | (injection h with h2; subst h2;
       exact raw_take_of_pfx (List.takeWhile_prefix _))
    | (injection h with h2; subst h2;
       exact raw_take_of_pfx List.prefix_rfl)

theorem paragraphExec_raw {s : Str} {r : Tok} (h : paragraphExec s = some r) :
    r.raw = s.take r.raw.length := by
  simp only [paragraphExec] at h
  repeat' split at h
  all_goals first
    | exact Option.noConfusion h
    | (injection h with h2; subst h2; exact raw_take_of_eq _ rfl)
    | (injection h with h2; subst h2;
       exact raw_take_of_eq _ (List.take_length).symm)
    | (injection h with h2; subst h2;
       exact raw_take_of_pfx
         ((rtrimChar_pfx _ _).trans (List.take_prefix _ _)))
    | (injection h with h2; subst h2;
       exact raw_take_of_pfx (List.takeWhile_prefix _))
    | (injection h with h2; subst h2;
       exact raw_take_of_pfx List.prefix_rfl)

theorem textExec_raw {s : Str} {r : Tok} (h : textExec s = some r) :
    r.raw = s.take r.raw.length := by
  simp only [textExec] at h
  repeat' split at h
  all_goals first
    | exact Option.noConfusion h
    | (injection h with h2; subst h2; exact raw_take_of_eq _ rfl)
    | (injection h with h2; subst h2;
       exact raw_take_of_eq _ (List.take_length).symm)
    | (injection h with h2; subst h2;
       exact raw_take_of_pfx
         ((rtrimChar_pfx _ _).trans (List.take_prefix _ _)))
    | (injection h with h2; subst h2;
       exact raw_take_of_pfx (List.takeWhile_prefix _))
    | (injection h with h2; subst h2;
       exact raw_take_of_pfx List.prefix_rfl)


theorem drop_take_length (s : Str) (n : Nat) :
    s.drop ((s.take n).length) = s.drop n := by
  rw [List.length_take]
  rcases Nat.le_total n s.length with h | h
  · rw [Nat.min_eq_left h]
  · rw [Nat.min_eq_right h, List.drop_length, List.drop_eq_nil_of_le h]

theorem lastNl_drop {s : Str} (h : s = [] ∨ s.getLast? = some '\n') (k : Nat) :
    s.drop k = [] ∨ (s.drop k).getLast? = some '\n' := by
  rcases h with rfl | h
  · left; simp
  · by_cases hd : s.drop k = []
    · left; exact hd
    · right
      rw [← List.take_append_drop k s] at h
      rw [List.getLast?_append_of_ne_nil _ hd] at h; exact h

theorem notMem_drop {c : Char} {s : Str} (h : c ∉ s) (k : Nat) :
    c ∉ s.drop k := fun hm => h (List.drop_subset k s hm)

theorem head?_take_one {l : Str} {a : Char} (h : l.head? = some a) :
    l.take 1 = [a] := by
  cases l with
  | nil => exact Option.noConfusion h
  | cons c r => injection h with h2; subst h2; rfl

theorem firstLine_eq_take (s : Str) :
    firstLine s = s.take (firstLine s).length :=
  List.prefix_iff_eq_take.mp (List.takeWhile_prefix _)

theorem firstLine_boundary (s : Str) :
    s.drop (firstLine s).length = [] ∨
      (s.drop (firstLine s).length).head? = some '\n' := by
  induction s with
  | nil => left; rfl
  | cons c r ih =>
      by_cases hc : c = '\n'
      · right; subst hc; simp [firstLine, List.takeWhile_cons]
      · simpa [firstLine, List.takeWhile_cons, hc] using ih

theorem firstLine_full {s : Str} (h : s.drop (firstLine s).length = []) :
    firstLine s = s := by
  conv_rhs => rw [← List.take_append_drop (firstLine s).length s]
  rw [h, List.append_nil, ← firstLine_eq_take]

theorem firstLine_take_nl {s : Str}
    (h : (s.drop (firstLine s).length).head? = some '\n') :
    s.take ((firstLine s).length + 1) = firstLine s ++ ['\n'] := by
  rw [List.take_add, ← firstLine_eq_take, head?_take_one h]

theorem firstLine_nil_of_head {s : Str} (h : s.head? = some '\n') :
    firstLine s = [] := by
  cases s with
  | nil => rfl
  | cons c r =>
      injection h with h2; subst h2
      simp [firstLine, List.takeWhile_cons]

theorem startsWith_head {s p : Str} {c : Char}
    (h : startsWith s (c :: p) = true) : s.head? = some c := by
  cases s with
  | nil => exact Bool.noConfusion h
  | cons a r =>
      unfold startsWith at h
      rcases Bool.and_eq_true .. |>.mp h with ⟨h1, _⟩
      simp only [decide_eq_true_eq] at h1
      subst h1; rfl

theorem countWhile_pos_head {p : Char → Bool} {s : Str}
    (h : 0 < countWhile p s) : ∃ c, s.head? = some c ∧ p c = true := by
  cases s with
  | nil => simp [countWhile] at h
  | cons c r =>
      refine ⟨c, rfl, ?_⟩
      by_contra hp
      simp only [Bool.not_eq_true] at hp
      simp [countWhile, hp] at h

theorem getLast?_concat_ne {l₂ : Str} (l₁ : Str) (h : l₂ ≠ []) :
    (l₁ ++ l₂).getLast? = l₂.getLast? :=
  List.getLast?_append_of_ne_nil _ h

theorem paraCont_zero_of_ne {fuel : Nat} {c : Char} {r : Str} (hc : c ≠ '\n') :
    paraCont (fuel + 1) (c :: r) = 0 := by
  simp only [paraCont]
  split
  · next heq => injection heq with h1 h2; exact absurd h1 hc
  · rfl

theorem paraCont_succ_nl (fuel : Nat) (r : Str) :
    paraCont (fuel + 1) ('\n' :: r) =
      if paragraphInterrupt r then 0
      else
        if firstLine r = [] then 0
        else 1 + (firstLine r).length +
          paraCont fuel (r.drop (firstLine r).length) := by
  simp only [paraCont]

theorem paraCont_boundary (fuel : Nat) : ∀ s : Str,
    (s = [] ∨ s.head? = some '\n') →
    (s.drop (paraCont fuel s) = [] ∨
     (s.drop (paraCont fuel s)).head? = some '\n') := by
  induction fuel with
  | zero => intro s hs; simpa [paraCont] using hs
  | succ fuel ih =>
      intro s hs
      cases s with
      | nil => left; simp [paraCont]
      | cons c r =>
          by_cases hc : c = '\n'
          · subst hc
            rw [paraCont_succ_nl]
            split
            · right; rfl
            · split
              · right; rfl
              · have hb := firstLine_boundary r
                have hrec := ih (r.drop (firstLine r).length) hb
                rw [show 1 + (firstLine r).length +
                      paraCont fuel (r.drop (firstLine r).length) =
                    ((firstLine r).length +
                      paraCont fuel (r.drop (firstLine r).length)) + 1
                    from by omega]
                rw [show (('\n' :: r).drop
                      (((firstLine r).length +
                        paraCont fuel (r.drop (firstLine r).length)) + 1)) =
                    r.drop ((firstLine r).length +
                      paraCont fuel (r.drop (firstLine r).length))
                    from rfl]
                rw [← List.drop_drop]
                exact hrec
          · rw [paraCont_zero_of_ne hc]
            simpa using hs

theorem paragraphExec_head {s : Str} {r : Tok} (h : paragraphExec s = some r) :
    s.head? ≠ some '\n' := by
  intro hn
  simp only [paragraphExec] at h
  rw [firstLine_nil_of_head hn] at h
  simp at h

theorem textExec_head {s : Str} {r : Tok} (h : textExec s = some r) :
    s.head? ≠ some '\n' := by
  intro hn
  simp only [textExec] at h
  rw [firstLine_nil_of_head hn] at h
  simp at h

theorem paragraphExec_boundary {s : Str} {r : Tok}
    (h : paragraphExec s = some r) :
    s.drop r.raw.length = [] ∨ (s.drop r.raw.length).head? = some '\n' := by
  have hraw := paragraphExec_raw h
  simp only [paragraphExec] at h
  split at h
  · exact Option.noConfusion h
  · injection h with h2
    subst h2
    simp only [Tok.raw]
    rw [drop_take_length]
    rw [show (firstLine s).length +
          paraCont (s.length + 1) (s.drop (firstLine s).length) =
        (firstLine s).length +
          paraCont (s.length + 1) (s.drop (firstLine s).length) from rfl]
    rw [← List.drop_drop]
    exact paraCont_boundary (s.length + 1) (s.drop (firstLine s).length)
      (firstLine_boundary s)

theorem textExec_boundary {s : Str} {r : Tok} (h : textExec s = some r) :
    s.drop r.raw.length = [] ∨ (s.drop r.raw.length).head? = some '\n' := by
  simp only [textExec] at h
  split at h
  · exact Option.noConfusion h
  · injection h with h2
    subst h2
    simp only [Tok.raw]
    exact firstLine_boundary s

theorem codeIndentLen_head {s : Str} {i : Nat} (h : codeIndentLen s = some i) :
    s.head? = some ' ' ∨ s.head? = some '\t' := by
  simp only [codeIndentLen] at h
  split at h
  · exact Or.inl (startsWith_head (by assumption))
  · split at h
    · cases hdrop : s.drop (countWhile (fun c => c = ' ') s) with
      | nil => rw [hdrop] at h; exact Option.noConfusion h
      | cons c tail =>
          rw [hdrop] at h
          dsimp only at h
          split at h
          · next hTab =>
              rcases Nat.eq_zero_or_pos (countWhile (fun c => c = ' ') s)
                with hz | hp
              · right
                rw [hz, List.drop_zero] at hdrop
                rw [hdrop]
                simp [hTab]
              · left
                obtain ⟨c0, hh, hc0⟩ := countWhile_pos_head hp
                simp only [decide_eq_true_eq] at hc0
                rw [hh, hc0]
          · exact Option.noConfusion h
    · exact Option.noConfusion h

theorem defExec_bracket {s : Str} {r : Tok} (h : defExec s = some r) :
    '[' ∈ s := by
  simp only [defExec] at h
  split at h
  · exact Option.noConfusion h
  · split at h
    · next r2 heq =>
        exact List.drop_subset _ s (by rw [heq]; exact List.mem_cons_self _ _)
    · exact Option.noConfusion h

theorem bqRep_none {e : Str} (h : '>' ∉ e) : bqRep e = none := by
  simp only [bqRep]
  split
  · rfl
  · split
    · next r2 heq =>
        exact absurd
          (List.drop_subset _ e (by rw [heq]; exact List.mem_cons_self _ _)) h
    · rfl

theorem bqMatchLen_zero {e : Str} (h : '>' ∉ e) (fuel : Nat) :
    bqMatchLen fuel e = 0 := by
  cases fuel with
  | zero => rfl
  | succ fuel => simp [bqMatchLen, bqRep_none h]

theorem drop_succ_of_drop {s : Str} {sp : Nat} {c : Char} {r : Str}
    (h : s.drop sp = c :: r) : s.drop (sp + 1) = r := by
  rw [← List.drop_drop 1 sp s, h]
  rfl

theorem take_succ_of_drop {s : Str} {sp : Nat} {c : Char} {r : Str}
    (h : s.drop sp = c :: r) : s.take (sp + 1) = s.take sp ++ [c] := by
  rw [List.take_add, h]
  rfl

theorem getLast?_ne_nil {l : Str} {a : Char} (h : l.getLast? = some a) :
    l ≠ [] := by
  intro he; subst he; exact Option.noConfusion h

theorem drop_chunk {s r : Str} {sp m : Nat} (h : s.drop (sp + 1) = r) :
    s.drop (sp + 1 + m) = r.drop m := by
  rw [← List.drop_drop m (sp + 1) s, h]

theorem take_chunk {s r : Str} {sp m : Nat} {c : Char}
    (h : s.drop sp = c :: r) :
    s.take (sp + 1 + m) = s.take sp ++ c :: r.take m := by
  rw [Nat.add_assoc, List.take_add, h, Nat.add_comm 1 m]
  rfl

theorem chunk_last {a : Str} {c : Char} {x : Str}
    (h : x = [] ∨ x.getLast? = some c) :
    (a ++ c :: x).getLast? = some c := by
  rw [getLast?_concat_ne _ (by simp)]
  rcases h with rfl | h
  · rfl
  · cases x with
    | nil => exact absurd rfl (getLast?_ne_nil h)
    | cons y ys => rw [List.getLast?_cons_cons]; exact h

theorem newlineRun_end (fuel : Nat) : ∀ s : Str,
    s.drop (newlineRun fuel s) = [] ∨ newlineRun fuel s = 0 ∨
      (s.take (newlineRun fuel s)).getLast? = some '\n' := by
  induction fuel with
  | zero => intro s; right; left; rfl
  | succ fuel ih =>
      intro s
      cases hdrop : s.drop (countWhile isSpTab s) with
      | nil =>
          have hnr : newlineRun (fuel + 1) s = countWhile isSpTab s := by
            simp only [newlineRun]
            rw [hdrop]
          rw [hnr]
          left
          exact hdrop
      | cons c r =>
          by_cases hc : c = '\n'
          · subst hc
            have hnr : newlineRun (fuel + 1) s =
                countWhile isSpTab s + 1 + newlineRun fuel r := by
              simp only [newlineRun]
              rw [hdrop]
              simp [Nat.add_assoc]
            rw [hnr]
            have hs1 : s.drop (countWhile isSpTab s + 1) = r :=
              drop_succ_of_drop hdrop
            rcases ih r with hend | hzero | hlast
            · left
              rw [drop_chunk hs1]
              exact hend
            · right; right
              rw [take_chunk hdrop]
              exact chunk_last (Or.inl (by rw [hzero]; rfl))
            · right; right
              rw [take_chunk hdrop]
              exact chunk_last (Or.inr hlast)
          · have hnr : newlineRun (fuel + 1) s = 0 := by
              simp only [newlineRun]
              rw [hdrop]
              simp [hc]
            rw [hnr]
            right; left; rfl

theorem codeRep_end {s : Str} {n : Nat} (h : codeRep s = some n) :
    s.drop n = [] ∨ (s.take n).getLast? = some '\n' := by
  simp only [codeRep] at h
  split at h
  · exact Option.noConfusion h
  · next ind hind =>
      split at h
      · exact Option.noConfusion h
      · next hlen =>
          cases hdrop : s.drop
              (ind + ((s.drop ind).takeWhile (fun c => c ≠ '\n')).length) with
          | nil =>
              rw [hdrop] at h
              injection h with h2
              subst h2
              left; exact hdrop
          | cons c r =>
              rw [hdrop] at h
              dsimp only at h
              split at h
              · next hc =>
                  subst hc
                  injection h with h2
                  subst h2
                  have hs1 := drop_succ_of_drop hdrop
                  rcases newlineRun_end (r.length + 1) r with hend | hzero | hlast
                  · left
                    rw [drop_chunk hs1]
                    exact hend
                  · right
                    rw [take_chunk hdrop]
                    exact chunk_last (Or.inl (by rw [hzero]; rfl))
                  · right
                    rw [take_chunk hdrop]
                    exact chunk_last (Or.inr hlast)
              · next hc =>
                  exfalso
                  have hb := firstLine_boundary (s.drop ind)
                  rw [show ((s.drop ind).drop (firstLine (s.drop ind)).length) =
                      s.drop (ind + (firstLine (s.drop ind)).length)
                      from List.drop_drop _ _ _] at hb
                  rw [show firstLine (s.drop ind) =
                      (s.drop ind).takeWhile (fun c => c ≠ '\n') from rfl] at hb
                  rw [hdrop] at hb
                  rcases hb with hb | hb
                  · exact List.noConfusion hb
                  · injection hb with hb2
                    exact hc hb2

theorem codeReps_end (fuel : Nat) : ∀ s : Str,
    codeReps fuel s = 0 ∨ s.drop (codeReps fuel s) = [] ∨
      (s.take (codeReps fuel s)).getLast? = some '\n' := by
  induction fuel with
  | zero => intro s; left; rfl
  | succ fuel ih =>
      intro s
      cases hcr : codeRep s with
      | none =>
          left
          simp [codeReps, hcr]
      | some n =>
          by_cases hn : n = 0
          · left
            simp [codeReps, hcr, hn]
          · have heq : codeReps (fuel + 1) s = n + codeReps fuel (s.drop n) := by
              simp [codeReps, hcr, hn]
            rw [heq]
            rcases ih (s.drop n) with hzero | hend | hlast
            · rw [hzero, Nat.add_zero]
              rcases codeRep_end hcr with hend2 | hlast2
              · right; left; exact hend2
              · right; right; exact hlast2
            · right; left
              rw [← List.drop_drop (codeReps fuel (s.drop n)) n s]
              exact hend
            · right; right
              rw [List.take_add,
                getLast?_concat_ne _ (getLast?_ne_nil hlast)]
              exact hlast

theorem codeExec_end {opts : MOptions} {s : Str} {r : Tok}
    (h : codeExec opts s = some r) :
    s.drop r.raw.length = [] ∨ r.raw.getLast? = some '\n' := by
  simp only [codeExec] at h
  split at h
  · exact Option.noConfusion h
  · next hnz =>
      injection h with h2
      subst h2
      simp only [Tok.raw]
      rw [drop_take_length]
      rcases codeReps_end (s.length + 1) s with hzero | hend | hlast
      · exact absurd hzero hnz
      · left; exact hend
      · right; exact hlast

theorem codeExec_head {opts : MOptions} {s : Str} {r : Tok}
    (h : codeExec opts s = some r) : s.head? ≠ some '\n' := by
  simp only [codeExec] at h
  split at h
  · exact Option.noConfusion h
  · next hnz =>
      have h1 : codeReps (s.length + 1) s ≠ 0 := hnz
      cases hcr : codeRep s with
      | none => exact absurd (by simp [codeReps, hcr]) h1
      | some n =>
          by_cases hn : n = 0
          · exact absurd (by simp [codeReps, hcr, hn]) h1
          · have : codeIndentLen s ≠ none := by
              intro hnone
              rw [codeRep.eq_def, hnone] at hcr
              exact Option.noConfusion hcr
            cases hci : codeIndentLen s with
            | none => exact absurd hci this
            | some i =>
                intro hcon
                rcases codeIndentLen_head hci with hh | hh <;>
                  (rw [hh] at hcon; injection hcon with hcon2;
                   exact absurd hcon2 (by decide))

theorem spaceExec_one {s : Str} {r : Tok} (h : spaceExec s = some r)
    (hlast : s.getLast? = some '\n') (hlen : r.raw.length = 1) :
    r.raw = ['\n'] ∧ s.take 1 = ['\n'] := by
  have hraw := spaceExec_raw h
  simp only [spaceExec] at h
  split at h
  · next hpos =>
      injection h with h2
      subst h2
      simp only [Tok.raw] at hraw hlen ⊢
      cases s with
      | nil => simp at hlen
      | cons c r0 =>
          cases r0 with
          | nil =>
              have hc : c = '\n' := by
                simpa [List.getLast?] using hlast
              subst hc
              refine ⟨?_, rfl⟩
              rw [hraw, hlen]
              rfl
          | cons d r1 =>
              have hn1 : newlineRun ((c :: d :: r1).length + 1)
                  (c :: d :: r1) = 1 := by
                have := List.length_take
                  (newlineRun ((c :: d :: r1).length + 1) (c :: d :: r1))
                  (c :: d :: r1)
                rw [hlen] at this
                have hlen2 : (c :: d :: r1).length ≥ 2 := by simp
                omega
              have hh : (c :: d :: r1).head? = some '\n' := by
                have hstep := hn1
                rw [show ((c :: d :: r1).length + 1) =
                    ((c :: d :: r1).length) + 1 from rfl] at hstep
                simp only [newlineRun] at hstep
                cases hdrop : (c :: d :: r1).drop
                    (countWhile isSpTab (c :: d :: r1)) with
                | nil =>
                    rw [hdrop] at hstep
                    dsimp only at hstep
                    have hd1 : (c :: d :: r1).drop 1 = [] := by
                      rw [← hstep]; exact hdrop
                    simp at hd1
                | cons c2 r2 =>
                    rw [hdrop] at hstep
                    dsimp only at hstep
                    by_cases hc2 : c2 = '\n'
                    · rw [if_pos hc2] at hstep
                      have hsp : countWhile isSpTab (c :: d :: r1) = 0 := by
                        omega
                      rw [hsp, List.drop_zero] at hdrop
                      rw [hdrop, hc2]
                      rfl
                    · rw [if_neg hc2] at hstep
                      exact absurd hstep.symm (by decide)
              constructor
              · rw [hraw, hlen, head?_take_one hh]
              · exact head?_take_one hh
  · exact Option.noConfusion h

theorem Tok.withRaw_raw (t : Tok) (v : Str) : (t.withRaw v).raw = v := by
  cases t <;> rfl

theorem updateLast_ne_nil {α : Type} (f : α → α) {t : List α}
    (h : t ≠ []) : updateLast f t ≠ [] := by
  cases t with
  | nil => exact absurd rfl h
  | cons a r => cases r <;> simp [updateLast]

theorem getLast?_cons_of_ne {α : Type} (a : α) {l : List α} (h : l ≠ []) :
    (a :: l).getLast? = l.getLast? := by
  cases l with
  | nil => exact absurd rfl h
  | cons b r => exact List.getLast?_cons_cons

theorem updateLast_getLast? {α : Type} (f : α → α) :
    ∀ (t : List α) (x : α), t.getLast? = some x →
      (updateLast f t).getLast? = some (f x) := by
  intro t
  induction t with
  | nil => intro x hx; exact Option.noConfusion hx
  | cons a r ih =>
      intro x hx
      cases r with
      | nil =>
          simp only [List.getLast?_singleton] at hx
          injection hx with hx2
          subst hx2
          rfl
      | cons b r2 =>
          rw [List.getLast?_cons_cons] at hx
          rw [show updateLast f (a :: b :: r2) = a :: updateLast f (b :: r2)
              from rfl,
            getLast?_cons_of_ne _ (updateLast_ne_nil f (by simp))]
          exact ih x hx

theorem concatRaws_append (a b : List Tok) :
    concatRaws (a ++ b) = concatRaws a ++ concatRaws b := by
  unfold concatRaws; simp

theorem concatRaws_cons (t : Tok) (r : List Tok) :
    concatRaws (t :: r) = t.raw ++ concatRaws r := by
  unfold concatRaws; simp

theorem concatRaws_singleton (t : Tok) : concatRaws [t] = t.raw := by
  simp [concatRaws]

theorem concatRaws_updateLast_of_last :
    ∀ (t : List Tok) (f : Tok → Tok) (x : Tok) (suff : Str),
      t.getLast? = some x → (f x).raw = x.raw ++ suff →
      concatRaws (updateLast f t) = concatRaws t ++ suff := by
  intro t
  induction t with
  | nil => intro f x suff hx _; exact Option.noConfusion hx
  | cons a r ih =>
      intro f x suff hx hf
      cases r with
      | nil =>
          simp only [List.getLast?_singleton] at hx
          injection hx with hx2
          subst hx2
          show concatRaws [f a] = concatRaws [a] ++ suff
          rw [concatRaws_singleton, concatRaws_singleton, hf]
      | cons b r2 =>
          rw [List.getLast?_cons_cons] at hx
          rw [show updateLast f (a :: b :: r2) = a :: updateLast f (b :: r2)
              from rfl]
          rw [concatRaws_cons, concatRaws_cons, ih f x suff hx hf,
            List.append_assoc]

theorem mergeBlock_raw {x : Tok} (hx : x.isParaOrText = true) (a b : Str) :
    (x.mergeBlock a b).raw =
      x.raw ++ (if x.raw.getLast? = some '
' then [] else ['
']) ++ a := by
  cases x <;> simp [Tok.isParaOrText] at hx <;>
    simp [Tok.mergeBlock, Tok.raw, List.append_assoc]

theorem mergeBlock_isPT {x : Tok} (hx : x.isParaOrText = true) (a b : Str) :
    (x.mergeBlock a b).isParaOrText = true := by
  cases x <;> simp [Tok.isParaOrText] at hx ⊢ <;> simp [Tok.mergeBlock]

theorem take_drop_assemble {e : Str} {a b : Nat} :
    e.take a ++ (e.drop a).take b = e.take (a + b) :=
  (List.take_add e a b).symm

theorem drop_assemble {e : Str} {a b : Nat} :
    (e.drop a).drop b = e.drop (a + b) :=
  List.drop_drop b a e

theorem take_all_of_drop_nil {e : Str} {a : Nat} (h : e.drop a = []) :
    e.take a = e := by
  conv_rhs => rw [← List.take_append_drop a e]
  rw [h, List.append_nil]

theorem listLineLoop_raw (opts : MOptions) (g : Nat) : ∀ (fuel : Nat)
    (e f : Str) (x : Bool) (p c : Str) (e2 f2 : Str) (x2 : Bool) (p2 c2 : Str),
    listLineLoop opts g fuel e f x p c = (e2, f2, x2, p2, c2) →
    ∃ k, e2 = e.drop k ∧
      (p2 = p ++ e.take k ∨ (e ≠ [] ∧ e2 = [] ∧ p2 = p ++ e ++ ['\n'])) := by
  intro fuel
  induction fuel with
  | zero =>
      intro e f x p c e2 f2 x2 p2 c2 h
      simp only [listLineLoop, Prod.mk.injEq] at h
      obtain ⟨rfl, rfl, rfl, rfl, rfl⟩ := h
      exact ⟨0, rfl, Or.inl (by simp)⟩
  | succ fuel ih =>
      intro e f x p c e2 f2 x2 p2 c2 h
      simp only [listLineLoop] at h
      by_cases he : e = []
      · rw [if_pos he] at h
        simp only [Prod.mk.injEq] at h
        obtain ⟨rfl, rfl, rfl, rfl, rfl⟩ := h
        exact ⟨0, rfl, Or.inl (by simp)⟩
      · rw [if_neg he] at h
        have hstep : ∀ (f3 : Str) (x3 : Bool) (c3 : Str),
            listLineLoop opts g fuel (e.drop ((firstLine e).length + 1)) f3 x3
              (p ++ firstLine e ++ ['\n']) c3 = (e2, f2, x2, p2, c2) →
            ∃ k, e2 = e.drop k ∧
              (p2 = p ++ e.take k ∨
               (e ≠ [] ∧ e2 = [] ∧ p2 = p ++ e ++ ['\n'])) := by
          intro f3 x3 c3 hcall
          obtain ⟨k2, hk2, hp2⟩ := ih _ _ _ _ _ _ _ _ _ _ hcall
          refine ⟨(firstLine e).length + 1 + k2, ?_, ?_⟩
          · rw [hk2]; exact drop_assemble
          · rcases firstLine_boundary e with hb | hb
            · have he1 : e.drop ((firstLine e).length + 1) = [] := by
                rw [← drop_assemble, hb]; rfl
              rcases hp2 with hp2 | ⟨hne, he3, hp2⟩
              · right
                refine ⟨he, ?_, ?_⟩
                · simp [hk2, he1]
                · rw [hp2, he1]
                  rw [List.take_nil, List.append_nil]
                  conv_rhs => rw [← firstLine_full hb]
              · exact absurd he1 hne
            · have htake := firstLine_take_nl hb
              rcases hp2 with hp2 | ⟨hne, he3, hp2⟩
              · left
                rw [hp2, ← take_drop_assemble, htake]
                simp [List.append_assoc]
              · right
                refine ⟨he, he3, ?_⟩
                rw [hp2]
                rw [show p ++ firstLine e ++ ['\n'] ++
                      e.drop ((firstLine e).length + 1) ++ ['\n'] =
                    p ++ ((firstLine e ++ ['\n']) ++
                      e.drop ((firstLine e).length + 1)) ++ ['\n']
                    from by simp [List.append_assoc]]
                rw [← htake, List.take_append_drop]
        repeat' split at h
        all_goals first
          | exact hstep _ _ _ h
          | (simp only [Prod.mk.injEq] at h;
             obtain ⟨rfl, rfl, rfl, rfl, rfl⟩ := h;
             exact ⟨0, rfl, Or.inl (by simp)⟩)

theorem itemsRaw_append (a : List ItemRec) (i : ItemRec) :
    itemsRaw (a ++ [i]) = itemsRaw a ++ i.raw := by
  simp [itemsRaw]

theorem listItemLoop_raw (opts : MOptions) (isOrd : Bool) (marker : Char)
    (pedAny : Bool) : ∀ (fuel : Nat) (e : Str) (o lo : Bool)
    (acc : List ItemRec) (items2 : List ItemRec) (lo2 : Bool) (e3 : Str),
    listItemLoop opts isOrd marker pedAny fuel e o lo acc =
      (items2, lo2, e3) →
    ∃ k, e3 = e.drop k ∧
      (itemsRaw items2 = itemsRaw acc ++ e.take k ∨
       (e ≠ [] ∧ e3 = [] ∧ itemsRaw items2 = itemsRaw acc ++ e ++ ['\n'])) := by
  intro fuel
  induction fuel with
  | zero =>
      intro e o lo acc items2 lo2 e3 h
      simp only [listItemLoop, Prod.mk.injEq] at h
      obtain ⟨rfl, rfl, rfl⟩ := h
      exact ⟨0, rfl, Or.inl (by simp)⟩
  | succ fuel ih =>
      intro e o lo acc items2 lo2 e3 h
      simp only [listItemLoop] at h
      by_cases he : e = []
      · rw [if_pos he] at h
        simp only [Prod.mk.injEq] at h
        obtain ⟨rfl, rfl, rfl⟩ := h
        exact ⟨0, rfl, Or.inl (by simp)⟩
      · rw [if_neg he] at h
        cases hit : itemExecM isOrd marker pedAny e with
        | none =>
            rw [hit] at h
            dsimp only at h
            simp only [Prod.mk.injEq] at h
            obtain ⟨rfl, rfl, rfl⟩ := h
            exact ⟨0, rfl, Or.inl (by simp)⟩
        | some v =>
            obtain ⟨t1len, fullLen⟩ := v
            rw [hit] at h
            dsimp only at h
            by_cases hhr : (hrLen e).isSome = true
            · rw [if_pos hhr] at h
              simp only [Prod.mk.injEq] at h
              obtain ⟨rfl, rfl, rfl⟩ := h
              exact ⟨0, rfl, Or.inl (by simp)⟩
            · rw [if_neg hhr] at h
              have hmain : ∀ (S : Str × Str × Bool × Str × Str)
                  (o2 lo2b : Bool) (it2 : ItemRec),
                  it2.raw = S.2.2.2.1 →
                  (∃ k1, S.1 = e.drop k1 ∧
                    (S.2.2.2.1 = e.take k1 ∨
                     (e ≠ [] ∧ S.1 = [] ∧ S.2.2.2.1 = e ++ ['\n']))) →
                  listItemLoop opts isOrd marker pedAny fuel S.1 o2 lo2b
                    (acc ++ [it2]) = (items2, lo2, e3) →
                  ∃ k, e3 = e.drop k ∧
                    (itemsRaw items2 = itemsRaw acc ++ e.take k ∨
                     (e ≠ [] ∧ e3 = [] ∧
                      itemsRaw items2 = itemsRaw acc ++ e ++ ['\n'])) := by
                intro S o2 lo2b it2 hraw hspan hcall
                obtain ⟨k1, hk1, hp1⟩ := hspan
                obtain ⟨k2, hk2, hp2⟩ := ih _ _ _ _ _ _ _ hcall
                have hacc : itemsRaw (acc ++ [it2]) =
                    itemsRaw acc ++ S.2.2.2.1 := by
                  rw [itemsRaw_append, hraw]
                rcases hp1 with h1 | ⟨hne1, h31, hpr1⟩
                · rcases hp2 with h2 | ⟨hne2, h32, hpr2⟩
                  · refine ⟨k1 + k2, ?_, Or.inl ?_⟩
                    · rw [hk2, hk1]; exact drop_assemble
                    · rw [h2, hacc, h1, hk1, List.append_assoc,
                        take_drop_assemble]
                  · refine ⟨e.length, h32.trans (List.drop_length e).symm,
                      Or.inr ⟨he, h32, ?_⟩⟩
                    rw [hpr2, hacc, h1, hk1]
                    rw [show itemsRaw acc ++ e.take k1 ++ e.drop k1 ++ ['\n'] =
                        itemsRaw acc ++ (e.take k1 ++ e.drop k1) ++ ['\n']
                        from by simp [List.append_assoc],
                      List.take_append_drop]
                · have h30 : e3 = [] := by rw [hk2, h31]; simp
                  refine ⟨e.length, h30.trans (List.drop_length e).symm,
                    Or.inr ⟨he, h30, ?_⟩⟩
                  rcases hp2 with h2 | ⟨hne2, h32, hpr2⟩
                  · rw [h2, hacc, hpr1, h31, List.take_nil, List.append_nil]
                    simp [List.append_assoc]
                  · exact absurd h31 hne2
              have haveT2 :
                  ∃ k1, (e.drop fullLen).drop
                      ((firstLine (e.drop fullLen)).length + 1) = e.drop k1 ∧
                    (e.take fullLen ++ firstLine (e.drop fullLen) ++ ['\n'] =
                        e.take k1 ∨
                     (e ≠ [] ∧
                      (e.drop fullLen).drop
                        ((firstLine (e.drop fullLen)).length + 1) = [] ∧
                      e.take fullLen ++ firstLine (e.drop fullLen) ++ ['\n'] =
                        e ++ ['\n'])) := by
                rcases firstLine_boundary (e.drop fullLen) with hb | hb
                · have hz : (e.drop fullLen).drop
                      ((firstLine (e.drop fullLen)).length + 1) = [] := by
                    rw [← drop_assemble, hb]; rfl
                  refine ⟨e.length, ?_, Or.inr ⟨he, hz, ?_⟩⟩
                  · rw [hz, List.drop_length]
                  · conv_rhs => rw [← List.take_append_drop fullLen e]
                    rw [firstLine_full hb]
                · have htake := firstLine_take_nl hb
                  refine ⟨fullLen + ((firstLine (e.drop fullLen)).length + 1),
                    drop_assemble, Or.inl ?_⟩
                  rw [← take_drop_assemble, htake]
                  simp [List.append_assoc]
              have haveFP : ∀ (G fa : Nat) (F : Str) (X : Bool) (C0 : Str),
                  ∃ k1,
                    (listLineLoop opts G fa (e.drop fullLen) F X
                      (e.take fullLen) C0).1 = e.drop k1 ∧
                    ((listLineLoop opts G fa (e.drop fullLen) F X
                        (e.take fullLen) C0).2.2.2.1 = e.take k1 ∨
                     (e ≠ [] ∧
                      (listLineLoop opts G fa (e.drop fullLen) F X
                        (e.take fullLen) C0).1 = [] ∧
                      (listLineLoop opts G fa (e.drop fullLen) F X
                        (e.take fullLen) C0).2.2.2.1 = e ++ ['\n'])) := by
                intro G fa F X C0
                rcases hq : listLineLoop opts G fa (e.drop fullLen) F X
                    (e.take fullLen) C0 with ⟨a, b, c, d, ee⟩
                dsimp only
                obtain ⟨k2, hk2, hp2⟩ :=
                  listLineLoop_raw opts G fa _ _ _ _ _ _ _ _ _ _ hq
                rcases hp2 with h2 | ⟨hne1, h3, hpr⟩
                · refine ⟨fullLen + k2, ?_, Or.inl ?_⟩
                  · rw [hk2]; exact drop_assemble
                  · rw [h2]; exact take_drop_assemble
                · refine ⟨e.length, ?_, Or.inr ⟨he, h3, ?_⟩⟩
                  · rw [h3, List.drop_length]
                  · rw [hpr, List.take_append_drop]
              repeat' split at h
              all_goals first
                | exact hmain _ _ _ _ rfl haveT2 h
                | exact hmain _ _ _ _ rfl (haveFP _ _ _ _ _) h
                | exact (‹¬_› ‹_›).elim

theorem engine_listCall_raw {cfg : EngineCfg} {fuel : Nat} {e : Str}
    {st : LexState} {links : Links} {out : EOut} {r : Tok}
    (h : engine cfg fuel (.listCall e st links) = .ok out)
    (ht : out.tok = some r) :
    r.raw = e.take r.raw.length ∧ Tok.isParaOrText r = false := by
  cases fuel with
  | zero => exact Except.noConfusion h
  | succ fuel =>
      have hpre : ∀ (isOrd2 : Bool) (marker2 : Char) (pedAny2 : Bool),
          jsTrimEnd (((listItemLoop cfg.opts isOrd2 marker2 pedAny2
            (e.length + 1) e false false []).1).map
              (fun it => it.raw)).flatten <+: e := by
        intro isOrd2 marker2 pedAny2
        obtain ⟨k, hk, hraw⟩ := listItemLoop_raw cfg.opts isOrd2 marker2
          pedAny2 (e.length + 1) e false false []
          (listItemLoop cfg.opts isOrd2 marker2 pedAny2
            (e.length + 1) e false false []).1
          (listItemLoop cfg.opts isOrd2 marker2 pedAny2
            (e.length + 1) e false false []).2.1
          (listItemLoop cfg.opts isOrd2 marker2 pedAny2
            (e.length + 1) e false false []).2.2 rfl
        show jsTrimEnd (itemsRaw (listItemLoop cfg.opts isOrd2 marker2
          pedAny2 (e.length + 1) e false false []).1) <+: e
        rcases hraw with h1 | ⟨hne, h3, h1⟩
        · rw [Eq.trans h1 rfl]
          exact (jsTrimEnd_pfx _).trans (List.take_prefix _ _)
        · rw [Eq.trans h1 rfl, jsTrimEnd_append_nl]
          exact jsTrimEnd_pfx e
      simp only [engine] at h
      repeat' split at h
      all_goals first
        | exact Except.noConfusion h
        | (injection h with h2; subst h2; dsimp only at ht;
           first
             | exact Option.noConfusion ht
             | (injection ht with h3; subst h3;
                exact ⟨raw_take_of_pfx (hpre _ _ _), rfl⟩))

theorem engine_bqCall_none {cfg : EngineCfg} {fuel : Nat} {e : Str}
    {st : LexState} {links : Links} {out : EOut}
    (h : engine cfg fuel (.bqCall e st links) = .ok out)
    (hb : '>' ∉ e) : out = { tok := none, st := st, links := links } := by
  cases fuel with
  | zero => exact Except.noConfusion h
  | succ fuel =>
      simp only [engine] at h
      rw [if_pos (bqMatchLen_zero hb (e.length + 1))] at h
      injection h with h2
      exact h2.symm

theorem fillToks_raws {cfg : EngineCfg} : ∀ (fuel : Nat) (ts : List Tok)
    (st : LexState) (links : Links) (out : EOut),
    engine cfg fuel (.fillToks ts st links) = .ok out →
    out.toks.map Tok.raw = ts.map Tok.raw := by
  intro fuel
  induction fuel with
  | zero => intro ts st links out h; exact Except.noConfusion h
  | succ fuel ih =>
      intro ts st links out h
      simp only [engine] at h
      split at h
      · injection h with h2; subst h2; rfl
      · rename_i tk rest
        split at h
        · exact Except.noConfusion h
        · rename_i out1 heq
          have hd : (out1.tok.elim [] (fun x => [x])).map Tok.raw =
              [tk.raw] := by
            cases tk <;> (try simp only [Except.map] at heq) <;>
              (repeat' split at heq) <;>
              first
                | exact Except.noConfusion heq
                | (injection heq with h3; subst h3; rfl)
                | rfl
          simp only [Except.map] at h
          split at h
          · exact Except.noConfusion h
          · rename_i out2 heq2
            injection h with h2; subst h2
            dsimp only
            rw [List.map_append, hd, ih _ _ _ _ heq2]
            rfl

/-- The input either is exhausted or still ends in a newline. -/
theorem lastGap_nil (e : Str) : lastGap [] e :=
  fun _ hs0 _ _ => Option.noConfusion hs0

theorem lastGap_of_bdry {t : List Tok} {e2 : Str}
    (h : e2 = [] ∨ e2.head? = some '\n') : lastGap t e2 :=
  fun _ _ _ _ => h

theorem lastGap_push_pt (t : List Tok) (r : Tok) (e2 : Str)
    (hpt : r.isParaOrText = false) : lastGap (t ++ [r]) e2 := by
  intro s0 hlast hspt _
  rw [List.getLast?_concat] at hlast
  injection hlast with h2
  subst h2
  rw [hpt] at hspt
  exact Bool.noConfusion hspt

theorem lastGap_of_getLast_nl {t : List Tok} {e2 : Str} {y : Tok}
    (hl : t.getLast? = some y) (hy : y.raw.getLast? = some '\n') :
    lastGap t e2 := by
  intro s0 hs0 _ hne
  rw [hl] at hs0
  injection hs0 with h2
  subst h2
  exact absurd hy hne

theorem lastGap_merge_nl {t : List Tok} {e2 : Str} (x : Tok) (a b : Str)
    (hx : t.getLast? = some x) (hxPT : x.isParaOrText = true)
    (hxl : x.raw.getLast? = some '\n') (hrend : a.getLast? = some '\n') :
    lastGap (updateLast (fun s => s.mergeBlock a b) t) e2 := by
  refine lastGap_of_getLast_nl (updateLast_getLast? _ t x hx) ?_
  dsimp only
  rw [mergeBlock_raw hxPT, if_pos hxl, List.append_nil]
  rw [getLast?_concat_ne _ (getLast?_ne_nil hrend)]
  exact hrend

theorem isPT_of_isParagraph {x : Tok} (h : x.isParagraph = true) :
    x.isParaOrText = true := by
  cases x <;> first | rfl | exact Bool.noConfusion h

theorem isPT_of_isTextB {x : Tok} (h : x.isTextB = true) :
    x.isParaOrText = true := by
  cases x <;> first | rfl | exact Bool.noConfusion h

theorem exists_getLast?_of_ne_nil {α : Type} {l : List α} (h : l ≠ []) :
    ∃ x, l.getLast? = some x := by
  cases hl : l.getLast? with
  | some x => exact ⟨x, rfl⟩
  | none => exact absurd (by rwa [List.getLast?_eq_none] at hl) h

theorem pushStep {fuel : Nat} {e : Str} {t : List Tok} {out : EOut}
    (ihl : ∀ (e : Str) (t : List Tok) (n : Bool) (st : LexState)
      (links : Links) (out : EOut),
      engine cfg1 fuel (.blockLoop e t n st links) = .ok out →
      He e → '[' ∉ e → '>' ∉ e → lastGap t e →
      concatRaws out.toks = concatRaws t ++ e)
    (hHe : He e) (hBr : '[' ∉ e) (hGt : '>' ∉ e)
    {r : Tok} {n2 : Bool} {st2 : LexState} {links2 : Links}
    (hraw : r.raw = e.take r.raw.length)
    (hgap : lastGap (t ++ [r]) (e.drop r.raw.length))
    (h : engine cfg1 fuel (.blockLoop (e.drop r.raw.length) (t ++ [r])
      n2 st2 links2) = .ok out) :
    concatRaws out.toks = concatRaws t ++ e := by
  have hc := ihl _ _ _ _ _ _ h (lastNl_drop hHe _) (notMem_drop hBr _)
    (notMem_drop hGt _) hgap
  rw [hc, concatRaws_append, concatRaws_singleton, List.append_assoc]
  congr 1
  nth_rewrite 1 [hraw]
  exact List.take_append_drop _ _

theorem mergeStep {fuel : Nat} {e : Str} {t : List Tok} {out : EOut}
    (ihl : ∀ (e : Str) (t : List Tok) (n : Bool) (st : LexState)
      (links : Links) (out : EOut),
      engine cfg1 fuel (.blockLoop e t n st links) = .ok out →
      He e → '[' ∉ e → '>' ∉ e → lastGap t e →
      concatRaws out.toks = concatRaws t ++ e)
    (hHe : He e) (hBr : '[' ∉ e) (hGt : '>' ∉ e)
    {x r : Tok} {n2 : Bool} {st2 : LexState} {links2 : Links}
    (hx : t.getLast? = some x) (hxPT : x.isParaOrText = true)
    (hxl : x.raw.getLast? = some '\n')
    (hraw : r.raw = e.take r.raw.length)
    (hgap : lastGap (updateLast (fun s => s.mergeBlock r.raw r.textF) t)
      (e.drop r.raw.length))
    (h : engine cfg1 fuel (.blockLoop (e.drop r.raw.length)
      (updateLast (fun s => s.mergeBlock r.raw r.textF) t) n2 st2 links2) =
      .ok out) :
    concatRaws out.toks = concatRaws t ++ e := by
  have hfr : ((fun s => Tok.mergeBlock s r.raw r.textF) x).raw =
      x.raw ++ r.raw := by
    dsimp only
    rw [mergeBlock_raw hxPT, if_pos hxl, List.append_nil]
  have hc := ihl _ _ _ _ _ _ h (lastNl_drop hHe _) (notMem_drop hBr _)
    (notMem_drop hGt _) hgap
  rw [hc, concatRaws_updateLast_of_last t _ x r.raw hx hfr,
    List.append_assoc]
  congr 1
  nth_rewrite 1 [hraw]
  exact List.take_append_drop _ _

theorem spaceExec_pt {s : Str} {r : Tok} (h : spaceExec s = some r) :
    r.isParaOrText = false := by
  simp only [spaceExec] at h
  repeat' split at h
  all_goals first
    | exact Option.noConfusion h
    | (injection h with h2; subst h2; rfl)

theorem codeExec_pt {opts : MOptions} {s : Str} {r : Tok} (h : codeExec opts s = some r) :
    r.isParaOrText = false := by
  simp only [codeExec] at h
  repeat' split at h
  all_goals first
    | exact Option.noConfusion h
    | (injection h with h2; subst h2; rfl)

theorem fencesExec_pt {s : Str} {r : Tok} (h : fencesExec s = some r) :
    r.isParaOrText = false := by
  simp only [fencesExec] at h
  repeat' split at h
  all_goals first
    | exact Option.noConfusion h
    | (injection h with h2; subst h2; rfl)

theorem headingExec_pt {opts : MOptions} {s : Str} {r : Tok} (h : headingExec opts s = some r) :
    r.isParaOrText = false := by
  simp only [headingExec] at h
  repeat' split at h
  all_goals first
    | exact Option.noConfusion h
    | (injection h with h2; subst h2; rfl)

theorem hrExec_pt {s : Str} {r : Tok} (h : hrExec s = some r) :
    r.isParaOrText = false := by
  simp only [hrExec] at h
  repeat' split at h
  all_goals first
    | exact Option.noConfusion h
    | (injection h with h2; subst h2; rfl)

theorem htmlExec_pt {s : Str} {r : Tok} (h : htmlExec s = some r) :
    r.isParaOrText = false := by
  simp only [htmlExec] at h
  repeat' split at h
  all_goals first
    | exact Option.noConfusion h
    | (injection h with h2; subst h2; rfl)

theorem tableExec_pt {s : Str} {r : Tok} (h : tableExec s = some r) :
    r.isParaOrText = false := by
  simp only [tableExec] at h
  repeat' split at h
  all_goals first
    | exact Option.noConfusion h
    | (injection h with h2; subst h2; rfl)

theorem lheadingExec_pt {s : Str} {r : Tok} (h : lheadingExec s = some r) :
    r.isParaOrText = false := by
  simp only [lheadingExec] at h
  repeat' split at h
  all_goals first
    | exact Option.noConfusion h
    | (injection h with h2; subst h2; rfl)

theorem cfg1_opts : cfg1.opts = {} := rfl

theorem cfg1_ov : cfg1.ov = {} := rfl

theorem cfg1_ext : cfg1.extBlock = [] := rfl

theorem paragraphExec_nil : paragraphExec [] = none := rfl

theorem textExec_nil : textExec [] = none := rfl

set_option maxHeartbeats 4000000 in
theorem blockSpanAux : ∀ (fuel : Nat) (e : Str) (t : List Tok) (n : Bool)
    (st : LexState) (links : Links) (out : EOut),
    (engine cfg1 fuel (.blockTokens e t n st links) = .ok out →
      He e → '[' ∉ e → '>' ∉ e → lastGap t e →
      concatRaws out.toks = concatRaws t ++ e) ∧
    (engine cfg1 fuel (.blockLoop e t n st links) = .ok out →
      He e → '[' ∉ e → '>' ∉ e → lastGap t e →
      concatRaws out.toks = concatRaws t ++ e) ∧
    (engine cfg1 fuel (.blockLoopB e t n st links) = .ok out →
      He e → '[' ∉ e → '>' ∉ e → lastGap t e →
      concatRaws out.toks = concatRaws t ++ e) ∧
    (engine cfg1 fuel (.blockLoopL e t n st links) = .ok out →
      He e → '[' ∉ e → '>' ∉ e → lastGap t e →
      concatRaws out.toks = concatRaws t ++ e) := by
  intro fuel
  induction fuel with
  | zero =>
      intro e t n st links out
      exact ⟨fun h => Except.noConfusion h, fun h => Except.noConfusion h,
        fun h => Except.noConfusion h, fun h => Except.noConfusion h⟩
  | succ fuel ih =>
      intro e t n st links out
      have IHL : ∀ (e : Str) (t : List Tok) (n : Bool) (st : LexState)
          (links : Links) (out : EOut),
          engine cfg1 fuel (.blockLoop e t n st links) = .ok out →
          He e → '[' ∉ e → '>' ∉ e → lastGap t e →
          concatRaws out.toks = concatRaws t ++ e :=
        fun e t n st links out => (ih e t n st links out).2.1
      have IHB : ∀ (e : Str) (t : List Tok) (n : Bool) (st : LexState)
          (links : Links) (out : EOut),
          engine cfg1 fuel (.blockLoopB e t n st links) = .ok out →
          He e → '[' ∉ e → '>' ∉ e → lastGap t e →
          concatRaws out.toks = concatRaws t ++ e :=
        fun e t n st links out => (ih e t n st links out).2.2.1
      have IHLL : ∀ (e : Str) (t : List Tok) (n : Bool) (st : LexState)
          (links : Links) (out : EOut),
          engine cfg1 fuel (.blockLoopL e t n st links) = .ok out →
          He e → '[' ∉ e → '>' ∉ e → lastGap t e →
          concatRaws out.toks = concatRaws t ++ e :=
        fun e t n st links out => (ih e t n st links out).2.2.2
      refine ⟨?_, ?_, ?_, ?_⟩
      · intro h hHe hBr hGt hGap
        simp only [engine, cfg1_opts, reduceIte] at h
        exact IHL _ _ _ _ _ _ h hHe hBr hGt hGap
      · intro h hHe hBr hGt hGap
        simp only [engine, cfg1_opts, cfg1_ov, cfg1_ext, extFirst, ovOr,
          reduceIte] at h
        by_cases he0 : e = []
        · rw [if_pos he0] at h
          injection h with h2
          subst h2
          subst he0
          simp
        · rw [if_neg he0] at h
          have hlast : e.getLast? = some '\n' := hHe.resolve_left he0
          cases hsp : spaceExec e with
          | some r =>
              rw [hsp] at h
              dsimp only at h
              by_cases hc1 : (decide (r.raw.length = 1) && !t.isEmpty) =
                  true
              · rw [if_pos hc1] at h
                rw [Bool.and_eq_true] at hc1
                obtain ⟨hd1, hd2⟩ := hc1
                have h1 : r.raw.length = 1 := of_decide_eq_true hd1
                have hte : t ≠ [] := by
                  intro hnil; subst hnil; simp at hd2
                obtain ⟨x, hx⟩ := exists_getLast?_of_ne_nil hte
                obtain ⟨hr1, ht1⟩ := spaceExec_one hsp hlast h1
                have hgap : lastGap
                    (updateLast (fun s => s.withRaw (s.raw ++ ['\n'])) t)
                    (e.drop r.raw.length) := by
                  refine lastGap_of_getLast_nl
                    (updateLast_getLast? _ t x hx) ?_
                  dsimp only
                  rw [Tok.withRaw_raw]
                  rw [getLast?_concat_ne _
                    (by simp : (['\n'] : Str) ≠ [])]
                  rfl
                have hc := IHL _ _ _ _ _ _ h (lastNl_drop hHe _)
                  (notMem_drop hBr _) (notMem_drop hGt _) hgap
                rw [hc]
                rw [concatRaws_updateLast_of_last t _ x ['\n'] hx
                  (Tok.withRaw_raw x (x.raw ++ ['\n']))]
                rw [List.append_assoc]
                congr 1
                rw [h1, ← ht1]
                exact List.take_append_drop _ _
              · rw [if_neg hc1] at h
                exact pushStep IHL hHe hBr hGt (spaceExec_raw hsp)
                  (lastGap_push_pt t r _ (spaceExec_pt hsp)) h
          | none =>
              rw [hsp] at h
              dsimp only at h
              cases hco : codeExec ({} : MOptions) e with
              | some r =>
                  rw [hco] at h
                  dsimp only at h
                  cases hgl : t.getLast? with
                  | some x =>
                      rw [hgl] at h
                      dsimp only at h
                      by_cases hpt : x.isParaOrText = true
                      · rw [if_pos hpt] at h
                        by_cases hxl : x.raw.getLast? = some '\n'
                        · have hgap : lastGap (updateLast
                              (fun s => s.mergeBlock r.raw r.textF) t)
                              (e.drop r.raw.length) := by
                            rcases codeExec_end hco with hend | hend
                            · exact lastGap_of_bdry (Or.inl hend)
                            · exact lastGap_merge_nl x r.raw r.textF hgl
                                hpt hxl hend
                          exact mergeStep IHL hHe hBr hGt hgl hpt hxl
                            (codeExec_raw hco) hgap h
                        · rcases hGap x hgl hpt hxl with h0 | h0
                          · exact absurd h0 he0
                          · exact absurd h0 (codeExec_head hco)
                      · rw [if_neg hpt] at h
                        exact pushStep IHL hHe hBr hGt (codeExec_raw hco)
                          (lastGap_push_pt t r _ (codeExec_pt hco)) h
                  | none =>
                      rw [hgl] at h
                      dsimp only at h
                      exact pushStep IHL hHe hBr hGt (codeExec_raw hco)
                        (lastGap_push_pt t r _ (codeExec_pt hco)) h
              | none =>
                  rw [hco] at h
                  dsimp only at h
                  cases hfe : fencesExec e with
                  | some r =>
                      rw [hfe] at h
                      dsimp only at h
                      exact pushStep IHL hHe hBr hGt (fencesExec_raw hfe)
                        (lastGap_push_pt t r _ (fencesExec_pt hfe)) h
                  | none =>
                      rw [hfe] at h
                      dsimp only at h
                      cases hhe : headingExec ({} : MOptions) e with
                      | some r =>
                          rw [hhe] at h
                          dsimp only at h
                          exact pushStep IHL hHe hBr hGt
                            (headingExec_raw hhe)
                            (lastGap_push_pt t r _ (headingExec_pt hhe)) h
                      | none =>
                          rw [hhe] at h
                          dsimp only at h
                          cases hhr : hrExec e with
                          | some r =>
                              rw [hhr] at h
                              dsimp only at h
                              exact pushStep IHL hHe hBr hGt
                                (hrExec_raw hhr)
                                (lastGap_push_pt t r _ (hrExec_pt hhr)) h
                          | none =>
                              rw [hhr] at h
                              dsimp only at h
                              cases hbq : engine cfg1 fuel
                                  (.bqCall e st links) with
                              | error er =>
                                  rw [hbq] at h
                                  exact Except.noConfusion h
                              | ok outb =>
                                  rw [hbq] at h
                                  have hob := engine_bqCall_none hbq hGt
                                  rw [hob] at h
                                  dsimp only at h
                                  exact IHB _ _ _ _ _ _ h hHe hBr hGt hGap
      · intro h hHe hBr hGt hGap
        simp only [engine, cfg1_opts, cfg1_ov, cfg1_ext, extFirst, ovOr,
          reduceIte] at h
        cases hlc : engine cfg1 fuel (.listCall e st links) with
        | error er =>
            rw [hlc] at h
            exact Except.noConfusion h
        | ok outl =>
            rw [hlc] at h
            dsimp only at h
            cases hot : outl.tok with
            | some r =>
                rw [hot] at h
                dsimp only at h
                obtain ⟨hraw, hpt⟩ := engine_listCall_raw hlc hot
                exact pushStep IHL hHe hBr hGt hraw
                  (lastGap_push_pt t r _ hpt) h
            | none =>
                rw [hot] at h
                dsimp only at h
                exact IHLL _ _ _ _ _ _ h hHe hBr hGt hGap
      · intro h hHe hBr hGt hGap
        simp only [engine, cfg1_opts, cfg1_ov, cfg1_ext, extFirst, ovOr,
          reduceIte] at h
        cases hht : htmlExec e with
        | some r =>
            rw [hht] at h
            dsimp only at h
            exact pushStep IHL hHe hBr hGt (htmlExec_raw hht)
              (lastGap_push_pt t r _ (htmlExec_pt hht)) h
        | none =>
            rw [hht] at h
            dsimp only at h
            cases hdf : defExec e with
            | some r => exact absurd (defExec_bracket hdf) hBr
            | none =>
                rw [hdf] at h
                dsimp only at h
                cases htb : tableExec e with
                | some r =>
                    rw [htb] at h
                    dsimp only at h
                    exact pushStep IHL hHe hBr hGt (tableExec_raw htb)
                      (lastGap_push_pt t r _ (tableExec_pt htb)) h
                | none =>
                    rw [htb] at h
                    dsimp only at h
                    cases hlh : lheadingExec e with
                    | some r =>
                        rw [hlh] at h
                        dsimp only at h
                        exact pushStep IHL hHe hBr hGt
                          (lheadingExec_raw hlh)
                          (lastGap_push_pt t r _ (lheadingExec_pt hlh)) h
                    | none =>
                        rw [hlh] at h
                        dsimp only at h
                        by_cases hst : st.top = true
                        · rw [if_pos hst] at h
                          cases hpa : paragraphExec e with
                          | some r =>
                              rw [hpa] at h
                              dsimp only at h
                              cases hgl : t.getLast? with
                              | some x =>
                                  rw [hgl] at h
                                  dsimp only at h
                                  by_cases hnp : (n && x.isParagraph) =
                                      true
                                  · rw [if_pos hnp] at h
                                    rw [Bool.and_eq_true] at hnp
                                    have hpt :=
                                      isPT_of_isParagraph hnp.2
                                    by_cases hxl : x.raw.getLast? =
                                        some '\n'
                                    · exact mergeStep IHL hHe hBr hGt hgl
                                        hpt hxl (paragraphExec_raw hpa)
                                        (lastGap_of_bdry
                                          (paragraphExec_boundary hpa)) h
                                    · rcases hGap x hgl hpt hxl with
                                        h0 | h0
                                      · rw [h0, paragraphExec_nil] at hpa
                                        exact Option.noConfusion hpa
                                      · exact absurd h0
                                          (paragraphExec_head hpa)
                                  · rw [if_neg hnp] at h
                                    exact pushStep IHL hHe hBr hGt
                                      (paragraphExec_raw hpa)
                                      (lastGap_of_bdry
                                        (paragraphExec_boundary hpa)) h
                              | none =>
                                  rw [hgl] at h
                                  dsimp only at h
                                  exact pushStep IHL hHe hBr hGt
                                    (paragraphExec_raw hpa)
                                    (lastGap_of_bdry
                                      (paragraphExec_boundary hpa)) h
                          | none =>
                              rw [hpa] at h
                              dsimp only at h
                              cases htx : textExec e with
                              | some r =>
                                  rw [htx] at h
                                  dsimp only at h
                                  cases hgl : t.getLast? with
                                  | some x =>
                                      rw [hgl] at h
                                      dsimp only at h
                                      by_cases hxt : x.isTextB = true
                                      · rw [if_pos hxt] at h
                                        have hpt := isPT_of_isTextB hxt
                                        by_cases hxl : x.raw.getLast? =
                                            some '\n'
                                        · exact mergeStep IHL hHe hBr hGt
                                            hgl hpt hxl (textExec_raw htx)
                                            (lastGap_of_bdry
                                              (textExec_boundary htx)) h
                                        · rcases hGap x hgl hpt hxl with
                                            h0 | h0
                                          · rw [h0, textExec_nil] at htx
                                            exact Option.noConfusion htx
                                          · exact absurd h0
                                              (textExec_head htx)
                                      · rw [if_neg hxt] at h
                                        exact pushStep IHL hHe hBr hGt
                                          (textExec_raw htx)
                                          (lastGap_of_bdry
                                            (textExec_boundary htx)) h
                                  | none =>
                                      rw [hgl] at h
                                      dsimp only at h
                                      exact pushStep IHL hHe hBr hGt
                                        (textExec_raw htx)
                                        (lastGap_of_bdry
                                          (textExec_boundary htx)) h
                              | none =>
                                  rw [htx] at h
                                  dsimp only at h
                                  cases e with
                                  | nil =>
                                      dsimp only at h
                                      injection h with h2
                                      subst h2
                                      simp
                                  | cons c e0 =>
                                      dsimp only at h
                                      exact Except.noConfusion h
                        · rw [if_neg hst] at h
                          dsimp only at h
                          cases htx : textExec e with
                          | some r =>
                              rw [htx] at h
                              dsimp only at h
                              cases hgl : t.getLast? with
                              | some x =>
                                  rw [hgl] at h
                                  dsimp only at h
                                  by_cases hxt : x.isTextB = true
                                  · rw [if_pos hxt] at h
                                    have hpt := isPT_of_isTextB hxt
                                    by_cases hxl : x.raw.getLast? =
                                        some '\n'
                                    · exact mergeStep IHL hHe hBr hGt hgl
                                        hpt hxl (textExec_raw htx)
                                        (lastGap_of_bdry
                                          (textExec_boundary htx)) h
                                    · rcases hGap x hgl hpt hxl with
                                        h0 | h0
                                      · rw [h0, textExec_nil] at htx
                                        exact Option.noConfusion htx
                                      · exact absurd h0
                                          (textExec_head htx)
                                  · rw [if_neg hxt] at h
                                    exact pushStep IHL hHe hBr hGt
                                      (textExec_raw htx)
                                      (lastGap_of_bdry
                                        (textExec_boundary htx)) h
                              | none =>
                                  rw [hgl] at h
                                  dsimp only at h
                                  exact pushStep IHL hHe hBr hGt
                                    (textExec_raw htx)
                                    (lastGap_of_bdry
                                      (textExec_boundary htx)) h
                          | none =>
                              rw [htx] at h
                              dsimp only at h
                              cases e with
                              | nil =>
                                  dsimp only at h
                                  injection h with h2
                                  subst h2
                                  simp
                              | cons c e0 =>
                                  dsimp only at h
                                  exact Except.noConfusion h

theorem replaceCR_noCR : ∀ {s : Str}, '\x0d' ∉ s → replaceCR s = s := by
  intro s
  induction s with
  | nil => intro _; rfl
  | cons c r ih =>
      intro h
      have hc : c ≠ '\x0d' := fun hh => h (hh ▸ List.mem_cons_self _ _)
      have hr : '\x0d' ∉ r := fun hm => h (List.mem_cons_of_mem _ hm)
      conv_lhs => rw [replaceCR.eq_def]
      split
      all_goals first
        | (next heq => injection heq with h1 h2; exact absurd h1 hc)
        | (next heq =>
            injection heq with h1 h2
            subst h1
            subst h2
            rw [ih hr])
        | (next heq => nomatch heq)

/-- C1 counterexample: the default lexer on the source "- a " (a list item
whose final line lacks a newline and ends in a space) yields a block token
whose raw carries a trailing newline the source never had; the
concatenated raws are "- a\n", not "- a ". -/
theorem c1_span_cex :
    (lexD {} (("- a ").data)).map (fun q => concatRaws q.fst) =
      .ok (("- a\n").data) ∧ ("- a\n").data ≠ ("- a ").data := by
  exact ⟨rfl, by decide⟩

/-- C1 (amended): span completeness holds for every source that the block
scanner consumes verbatim: no carriage returns (so the CR normalization
is the identity), no brackets (no link definitions are suppressed), no
blockquote markers, and input that is empty or ends in a newline (so the
list tokenizer appends no phantom newline).  Then the raws of the lexed
top-level block tokens concatenate back to exactly the input. -/
theorem c1_span_amended (s : Str) (p : List Tok × Links)
    (hcr : '\x0d' ∉ s) (hbr : '[' ∉ s) (hgt : '>' ∉ s)
    (hend : s = [] ∨ s.getLast? = some '\n')
    (h : lexD {} s = .ok p) :
    concatRaws p.fst = s := by
  simp only [lexD, lexT] at h
  rw [replaceCR_noCR hcr] at h
  rw [show ({ opts := {} } : EngineCfg) = cfg1 from rfl] at h
  cases hb : engine cfg1 (lexFuel s) (.blockTokens s [] false {} []) with
  | error er => rw [hb] at h; exact Except.noConfusion h
  | ok out1 =>
      rw [hb] at h
      dsimp only at h
      cases hf : engine cfg1 (lexFuel s)
          (.fillToks out1.toks out1.st out1.links) with
      | error er => rw [hf] at h; exact Except.noConfusion h
      | ok out2 =>
          rw [hf] at h
          dsimp only at h
          injection h with h2
          subst h2
          have hfill : out2.toks.map Tok.raw = out1.toks.map Tok.raw :=
            fillToks_raws _ _ _ _ _ hf
          have hspan := (blockSpanAux (lexFuel s) s [] false {} [] out1).1
            hb hend hbr hgt (lastGap_nil s)
          show concatRaws out2.toks = s
          calc concatRaws out2.toks
              = (out2.toks.map Tok.raw).flatten := rfl
            _ = (out1.toks.map Tok.raw).flatten := by rw [hfill]
            _ = concatRaws out1.toks := rfl
            _ = concatRaws [] ++ s := hspan
            _ = s := by simp [concatRaws]

/-- Witness for the amended C1: on the newline-terminated list source
"- a\n" the lexed raws concatenate back to the input exactly. -/
theorem c1_span_amended_witness :
    (lexD {} (("- a\n").data)).map (fun q => concatRaws q.fst) =
      .ok (("- a\n").data) := by
  cases hq : lexD {} (("- a\n").data) with
  | error er =>
      have hok : isOkL (lexD {} (("- a\n").data)) = true := rfl
      rw [hq] at hok
      simp [isOkL] at hok
  | ok p =>
      have hs := c1_span_amended (("- a\n").data) p (by decide) (by decide)
        (by decide) (Or.inr (by decide)) hq
      dsimp only [Except.map]
      rw [hs]

end Marked
